import Mathlib

/-!
Shallow embedding of `src/exercises/graphs/graph_solution.py`.

Python dictionaries preserve insertion order, so `dict` values are modelled as
association lists (`List (V × _)`), with lookup returning the first matching
entry and insertion appending at the end.  Mutation of a shared `Visit` object
is modelled by explicit state passing.  Exceptions are modelled either with
`Except` (for operations that mutate nothing before raising) or by returning
the state reached at the raise point together with an `Option String` error
(for the traversals, which mutate the visit before an exception can escape).
The unbounded `while`/recursion of the traversals is modelled with an explicit
fuel parameter; the wrappers instantiate the fuel with a bound that is proved
sufficient below, so no behaviour is lost.
-/

namespace GraphPy

variable {V : Type} [DecidableEq V]

/-- `VertexLog.__init__`: discovery and finish times start at the `-1`
sentinel and `parent` starts at `None`.  The `distance` field is added
dynamically by `DiGraph.distances`; its absence is modelled by `none`. -/
structure VertexLog (V : Type) where
  vertex : V
  discovery_time : Int := -1
  finish_time : Int := -1
  parent : Option V := none
  distance : Option Int := none
deriving Repr, DecidableEq

/-- A freshly created log, as built by `VertexLog(vertex)`. -/
def VertexLog.init (v : V) : VertexLog V := { vertex := v }

/-- `Visit`: the `_logs` dictionary, keyed by the `vertex` field of each log. -/
structure Visit (V : Type) where
  _logs : List (VertexLog V) := []
deriving Repr, DecidableEq

/-- Dictionary lookup `self._logs[vertex]` (first entry with this key). -/
def Visit.find? (vis : Visit V) (v : V) : Option (VertexLog V) :=
  vis._logs.find? (fun log => log.vertex == v)

/-- The log `Visit.log(vertex)` returns: the stored one, or the fresh log the
method would create.  State change of `log` is modelled by `Visit.ensure`. -/
def Visit.getLog (vis : Visit V) (v : V) : VertexLog V :=
  (vis.find? v).getD (VertexLog.init v)

/-- The insertion performed by `Visit.log`: a fresh log is appended if the
vertex has no log yet. -/
def Visit.ensure (vis : Visit V) (v : V) : Visit V :=
  match vis.find? v with
  | some _ => vis
  | none => ⟨vis._logs ++ [VertexLog.init v]⟩

/-- `Visit.is_discovered`: a log exists and its discovery time is not `-1`. -/
def Visit.is_discovered (vis : Visit V) (v : V) : Bool :=
  match vis.find? v with
  | some log => log.discovery_time != -1
  | none => false

/-- Field assignment `visit.log(v).f = x`: create the log if needed, then
update it in place. -/
def Visit.modify (vis : Visit V) (v : V) (f : VertexLog V → VertexLog V) : Visit V :=
  ⟨(vis.ensure v)._logs.map (fun log => if log.vertex == v then f log else log)⟩

/-- `visit.log(v).discovery_time = t` -/
def Visit.setDisc (vis : Visit V) (v : V) (t : Int) : Visit V :=
  vis.modify v (fun log => { log with discovery_time := t })

/-- `visit.log(v).finish_time = t` -/
def Visit.setFin (vis : Visit V) (v : V) (t : Int) : Visit V :=
  vis.modify v (fun log => { log with finish_time := t })

/-- `visit.log(v).parent = p` -/
def Visit.setParent (vis : Visit V) (v : V) (p : V) : Visit V :=
  vis.modify v (fun log => { log with parent := some p })

/-- `visit.log(v).distance = d` -/
def Visit.setDist (vis : Visit V) (v : V) (d : Int) : Visit V :=
  vis.modify v (fun log => { log with distance := some d })

/-- `Visit.last_time`: fold of the two `if _ > max_time` updates over all
logs, starting from `0`. -/
def Visit.last_time (vis : Visit V) : Int :=
  vis._logs.foldl (fun m log => max (max m log.discovery_time) log.finish_time) 0

/-- `Visit.logs()` with the default arguments, as used by `distances`:
discovered logs only, sorted (stably) by discovery time ascending. -/
def Visit.logsSorted (vis : Visit V) : List (VertexLog V) :=
  (vis._logs.filter (fun log => decide (-1 < log.discovery_time))).mergeSort
    (fun l1 l2 => decide (l1.discovery_time ≤ l2.discovery_time))

/-- `DiGraph`: the `_edges` dictionary from vertices to adjacency lists. -/
structure DiGraph (V : Type) where
  _edges : List (V × List V) := []
deriving Repr, DecidableEq

/-- The dictionary keys, in insertion order. -/
def DiGraph.keys (g : DiGraph V) : List V := g._edges.map Prod.fst

/-- Dictionary entry for a vertex (first entry with this key). -/
def DiGraph.entry? (g : DiGraph V) (v : V) : Option (V × List V) :=
  g._edges.find? (fun p => p.1 == v)

/-- `DiGraph.has_vertex` / `vertex in self._edges`. -/
def DiGraph.has_vertex (g : DiGraph V) (v : V) : Bool := (g.entry? v).isSome

/-- `self._edges[vertex]`, defaulting to `[]` for absent keys (every use in
the source is guarded by a membership test). -/
def DiGraph.adjList (g : DiGraph V) (v : V) : List V :=
  ((g.entry? v).map Prod.snd).getD []

/-- `DiGraph.adj`: raises when the vertex is absent, otherwise returns a copy
of the adjacency list. -/
def DiGraph.adj (g : DiGraph V) (v : V) : Except String (List V) :=
  if g.has_vertex v then .ok (g.adjList v) else .error "Couldn't find a vertex "

/-- `DiGraph.add_vertex`: appends a key with an empty adjacency list, or does
nothing if the key exists. -/
def DiGraph.add_vertex (g : DiGraph V) (v : V) : DiGraph V :=
  if g.has_vertex v then g else ⟨g._edges ++ [(v, [])]⟩

/-- `DiGraph.is_empty`: `len(self._edges) == 0`. -/
def DiGraph.is_empty (g : DiGraph V) : Bool := g._edges.isEmpty

/-- `DiGraph.add_edge`: raises if either endpoint is unregistered, silently
does nothing if the edge exists, otherwise appends the target to the source's
adjacency list. -/
def DiGraph.add_edge (g : DiGraph V) (v1 v2 : V) : Except String (DiGraph V) :=
  if ¬ g.has_vertex v1 then .error "Couldn't find source vertex: " else
  if ¬ g.has_vertex v2 then .error "Couldn't find target vertex: " else
  if v2 ∈ g.adjList v1 then .ok g else
  .ok ⟨g._edges.map (fun p => if p.1 == v1 then (p.1, p.2 ++ [v2]) else p)⟩

/-- `DiGraph.remove_vertex`: raises if absent; otherwise strips the vertex
from every adjacency list (`list.remove` deletes the first occurrence, guarded
by a membership test) and then pops its own entry, returning the popped
adjacency list together with the new graph. -/
def DiGraph.remove_vertex (g : DiGraph V) (v : V) :
    Except String (List V × DiGraph V) :=
  if ¬ g.has_vertex v then .error "Couldn't find vertex:" else
  let stripped : List (V × List V) :=
    g._edges.map (fun p => (p.1, if v ∈ p.2 then p.2.erase v else p.2))
  .ok ((((stripped.find? (fun p => p.1 == v)).map Prod.snd).getD []),
       ⟨stripped.filter (fun p => ! (p.1 == v))⟩)

/-- `DiGraph.has_edge`: raises if either endpoint is absent, otherwise tests
membership of the target in the source's adjacency list. -/
def DiGraph.has_edge (g : DiGraph V) (s t : V) : Except String Bool :=
  if ¬ g.has_vertex s then .error "There is no source vertex " else
  if ¬ g.has_vertex t then .error "There is no source vertex " else
  .ok ((g.adjList s).contains t)

/-- `DiGraph.has_self_loops`. -/
def DiGraph.has_self_loops (g : DiGraph V) : Bool :=
  g._edges.any (fun p => p.2.contains p.1)

/-- Python `set(l1) == set(l2)`. -/
def listSetEq (l1 l2 : List V) : Bool :=
  l1.all (fun x => l2.contains x) && l2.all (fun x => l1.contains x)

/-- `DiGraph.__eq__`: identical vertex sets, and for every key of `g1` the two
adjacency lists are equal as sets.  (When the vertex sets differ the result is
`False` regardless of the second conjunct, matching the early return.) -/
def DiGraph.eqG (g1 g2 : DiGraph V) : Bool :=
  listSetEq g1.keys g2.keys &&
    g1._edges.all (fun p => listSetEq p.2 (g2.adjList p.1))

/-- A fold of `add_edge` calls, used to model edge-adding loops. -/
def DiGraph.addEdges (g : DiGraph V) (pairs : List (V × V)) :
    Except String (DiGraph V) :=
  pairs.foldlM (fun acc p => acc.add_edge p.1 p.2) g

/-- The `(target, source)` pairs passed to `add_edge` by `DiGraph.reverse`,
in iteration order (sources in key order, targets in adjacency order). -/
def DiGraph.reversePairs (g : DiGraph V) : List (V × V) :=
  (g._edges.map (fun p => p.2.map (fun t => (t, p.1)))).flatten

/-- `DiGraph.reverse`: rebuild `_edges` with the same keys and empty lists,
then `add_edge(target, source)` for every original edge `(source, target)`. -/
def DiGraph.reverse (g : DiGraph V) : Except String (DiGraph V) :=
  DiGraph.addEdges ⟨g._edges.map (fun p => (p.1, []))⟩ g.reversePairs

/-- The `(v, w)` pairs passed to `add_edge` by the `dag` factory: for the
vertex at position `i`, every vertex at a position after `i`. -/
def dagPairs (vs : List V) : List (V × V) :=
  (vs.enum.map (fun p => (vs.drop (p.1 + 1)).map (fun w => (p.2, w)))).flatten

/-- The `dag` factory: register all vertices, then (when there is more than
one list element) add the forward edges. -/
def dag (vs : List V) : Except String (DiGraph V) :=
  let g := vs.foldl DiGraph.add_vertex ⟨[]⟩
  if vs.length > 1 then g.addEdges (dagPairs vs) else .ok g

mutual
/-- `DiGraph.dfs` body (after the emptiness check): log the source, stamp its
discovery time with `last_time() + 1`, recurse into undiscovered neighbours
(setting their parent first), then stamp the finish time.  Errors carry the
visit state reached at the raise point.  `fuel` bounds the recursion depth and
is instantiated by the wrapper with a proven-sufficient bound. -/
def DiGraph.dfsF (g : DiGraph V) (fuel : Nat) (source : V) (visit : Visit V) :
    Visit V × Option String :=
  match fuel with
  | 0 => (visit, some "recursion fuel exhausted")
  | fuel + 1 =>
    let visit1 := (visit.ensure source).setDisc source (visit.last_time + 1)
    match g.adj source with
    | .error e => (visit1, some e)
    | .ok neighbors =>
      match g.dfsList fuel neighbors source visit1 with
      | (visit2, some e) => (visit2, some e)
      | (visit2, none) => (visit2.setFin source (visit2.last_time + 1), none)
termination_by (fuel, 0)

/-- The `for neighbor in self.adj(source)` loop of `DiGraph.dfs`. -/
def DiGraph.dfsList (g : DiGraph V) (fuel : Nat) (ns : List V) (src : V)
    (visit : Visit V) : Visit V × Option String :=
  match ns with
  | [] => (visit, none)
  | n :: rest =>
    if visit.is_discovered n then g.dfsList fuel rest src visit
    else
      match g.dfsF fuel n (visit.setParent n src) with
      | (visit2, some e) => (visit2, some e)
      | (visit2, none) => g.dfsList fuel rest src visit2
termination_by (fuel, ns.length + 1)
end

/-- Sufficient recursion depth for `dfs`: each nested call discovers a new
vertex, so the depth never exceeds the number of registered vertices plus one. -/
def DiGraph.dfsFuel (g : DiGraph V) : Nat := g.keys.length + 1

/-- `DiGraph.dfs(source, visit=None)`: raises on the empty graph (before
touching the visit), otherwise runs the recursion on the supplied visit or a
fresh one. -/
def DiGraph.dfs (g : DiGraph V) (source : V) (visit : Option (Visit V)) :
    Visit V × Option String :=
  if g.is_empty then (visit.getD ⟨[]⟩, some "Cannot perform DFS on an empty graph!")
  else g.dfsF g.dfsFuel source (visit.getD ⟨[]⟩)

/-- The `for neighbor in self.adj(vertex)` loop of `DiGraph.bfs`: create the
neighbour's log, assign its parent if still unset and the neighbour is not the
source, and enqueue it unconditionally. -/
def DiGraph.bfsInner (source vertex : V) (ns : List V) (vis : Visit V)
    (q : List V) : Visit V × List V :=
  match ns with
  | [] => (vis, q)
  | n :: rest =>
    let vis1 := vis.ensure n
    let vis2 := if (vis1.getLog n).parent = none ∧ ¬ n = source
                then vis1.setParent n vertex else vis1
    DiGraph.bfsInner source vertex rest vis2 (q ++ [n])

/-- The `while not queue.empty()` loop of `DiGraph.bfs`.  `fuel` bounds the
number of iterations and is instantiated with a proven-sufficient bound. -/
def DiGraph.bfsLoop (g : DiGraph V) (source : V) (fuel : Nat) (vis : Visit V)
    (q : List V) : Visit V × Option String :=
  match fuel, q with
  | 0, _ => (vis, some "loop fuel exhausted")
  | _ + 1, [] => (vis, none)
  | fuel + 1, vertex :: rest =>
    if vis.is_discovered vertex then g.bfsLoop source fuel vis rest
    else
      let vis1 := vis.setDisc vertex (vis.last_time + 1)
      match g.adj vertex with
      | .error e => (vis1, some e)
      | .ok neighbors =>
        let st := DiGraph.bfsInner source vertex neighbors vis1 rest
        g.bfsLoop source fuel st.1 st.2

/-- Total size of all adjacency lists. -/
def DiGraph.totalAdj (g : DiGraph V) : Nat :=
  (g._edges.map (fun p => p.2.length)).sum

/-- Sufficient iteration count for the BFS queue loop. -/
def DiGraph.bfsFuel (g : DiGraph V) : Nat := g.keys.length + g.totalAdj + 2

/-- `DiGraph.bfs(source)`: raises on the empty graph or an unregistered
source, otherwise runs the queue loop from `[source]` on a fresh visit. -/
def DiGraph.bfs (g : DiGraph V) (source : V) : Visit V × Option String :=
  if g.is_empty then (⟨[]⟩, some "Cannot perform BFS on an empty graph!")
  else if ¬ g.has_vertex source then (⟨[]⟩, some "Can't find vertex:")
  else g.bfsLoop source g.bfsFuel ⟨[]⟩ [source]

/-- The neighbour loop of `DiGraph.distances`: like the BFS one, but when the
parent is assigned the `distance` field is also set to the popped vertex's
distance plus one.  Reading a `distance` field that was never assigned would
be an `AttributeError` in the source; it is modelled as an error (and proved
unreachable). -/
def DiGraph.distInner (source vertex : V) (ns : List V) (vis : Visit V)
    (q : List V) : (Visit V × List V) × Option String :=
  match ns with
  | [] => ((vis, q), none)
  | n :: rest =>
    let vis1 := vis.ensure n
    if (vis1.getLog n).parent = none ∧ ¬ n = source then
      match (vis1.getLog vertex).distance with
      | none => ((vis1, q), some "AttributeError: distance")
      | some d =>
        DiGraph.distInner source vertex rest
          ((vis1.setParent n vertex).setDist n (d + 1)) (q ++ [n])
    else DiGraph.distInner source vertex rest vis1 (q ++ [n])

/-- The queue loop of `DiGraph.distances`. -/
def DiGraph.distLoop (g : DiGraph V) (source : V) (fuel : Nat) (vis : Visit V)
    (q : List V) : Visit V × Option String :=
  match fuel, q with
  | 0, _ => (vis, some "loop fuel exhausted")
  | _ + 1, [] => (vis, none)
  | fuel + 1, vertex :: rest =>
    if vis.is_discovered vertex then g.distLoop source fuel vis rest
    else
      let vis1 := vis.setDisc vertex (vis.last_time + 1)
      match g.adj vertex with
      | .error e => (vis1, some e)
      | .ok neighbors =>
        match DiGraph.distInner source vertex neighbors vis1 rest with
        | (st, none) => g.distLoop source fuel st.1 st.2
        | (st, some e) => (st.1, some e)

/-- Python dict assignment `ret[k] = x`: overwrite an existing key in place,
otherwise append. -/
def setAssoc (l : List (V × Int)) (k : V) (x : Int) : List (V × Int) :=
  if l.any (fun p => p.1 == k) then l.map (fun p => if p.1 == k then (p.1, x) else p)
  else l ++ [(k, x)]

/-- Dict lookup on the result mapping. -/
def getAssoc? (l : List (V × Int)) (k : V) : Option Int :=
  (l.find? (fun p => p.1 == k)).map Prod.snd

/-- `DiGraph.distances(source)`: raises on an unregistered source; otherwise
seeds the source's log with distance 0, runs the BFS-style loop, initialises
the result with `-1` for every registered vertex and overwrites it from the
discovered logs. -/
def DiGraph.distances (g : DiGraph V) (source : V) :
    Except String (List (V × Int)) :=
  if ¬ g.has_vertex source then .error "Can't find vertex:" else
  let vis : Visit V := Visit.setDist ⟨[]⟩ source 0
  match g.distLoop source g.bfsFuel vis [source] with
  | (_, some e) => .error e
  | (vis1, none) =>
    let ret0 := g.keys.foldl (fun r v => setAssoc r v (-1)) []
    vis1.logsSorted.foldlM (fun r log =>
      match log.distance with
      | some d => Except.ok (setAssoc r log.vertex d)
      | none => Except.error "AttributeError: distance") ret0

/-- Well-formedness of a graph, as maintained by the mutation API: distinct
keys, all adjacency targets registered, no duplicate targets. -/
def DiGraph.WF (g : DiGraph V) : Prop :=
  g.keys.Nodup ∧ ∀ p ∈ g._edges, (∀ w ∈ p.2, g.has_vertex w = true) ∧ p.2.Nodup

instance (g : DiGraph Nat) : Decidable g.WF := by
  unfold DiGraph.WF; infer_instance

/-! ### Basic lemmas about `Visit` -/

theorem Visit.getLog_vertex (vis : Visit V) (v : V) : (vis.getLog v).vertex = v := by
  unfold Visit.getLog
  cases h : vis.find? v with
  | none => simp [VertexLog.init]
  | some log =>
    have := List.find?_some h
    simp only [beq_iff_eq] at this
    simpa using this

theorem Visit.find?_ensure_self (vis : Visit V) (v : V) :
    (vis.ensure v).find? v = some (vis.getLog v) := by
  unfold Visit.ensure Visit.getLog
  cases h : vis.find? v with
  | some log => simp [h]
  | none =>
    simp only [h]
    unfold Visit.find? at h ⊢
    rw [List.find?_append, h]
    simp [VertexLog.init]

theorem Visit.find?_ensure_ne (vis : Visit V) {v w : V} (hw : w ≠ v) :
    (vis.ensure v).find? w = vis.find? w := by
  unfold Visit.ensure
  cases h : vis.find? v with
  | some log => simp
  | none =>
    unfold Visit.find?
    rw [List.find?_append]
    cases h2 : Visit.find? vis w with
    | some log =>
      simp only [Visit.find?] at h2
      simp [h2]
    | none =>
      simp only [Visit.find?] at h2
      simp [h2, VertexLog.init, hw.symm]

theorem Visit.getLog_ensure (vis : Visit V) (v w : V) :
    (vis.ensure v).getLog w = vis.getLog w := by
  by_cases hw : w = v
  · subst hw
    rw [Visit.getLog, Visit.find?_ensure_self]
    rfl
  · rw [Visit.getLog, Visit.find?_ensure_ne vis hw, Visit.getLog]

theorem Visit.is_discovered_eq (vis : Visit V) (v : V) :
    vis.is_discovered v = ((vis.getLog v).discovery_time != -1) := by
  unfold Visit.is_discovered Visit.getLog
  cases h : vis.find? v with
  | none => simp [VertexLog.init]
  | some log => simp

theorem Visit.is_discovered_iff (vis : Visit V) (v : V) :
    vis.is_discovered v = true ↔ (vis.getLog v).discovery_time ≠ -1 := by
  rw [Visit.is_discovered_eq]
  simp

theorem find?_pred_congr {α : Type} {p q : α → Bool} (h : ∀ a, p a = q a) :
    ∀ l : List α, l.find? p = l.find? q := by
  intro l
  induction l with
  | nil => rfl
  | cons a l ih => rw [List.find?_cons, List.find?_cons, h a, ih]

theorem Visit.getLog_modify (vis : Visit V) (v : V) (f : VertexLog V → VertexLog V)
    (hf : ∀ log, (f log).vertex = log.vertex) (w : V) :
    (vis.modify v f).getLog w = if w = v then f (vis.getLog v) else vis.getLog w := by
  have hpred : ∀ log : VertexLog V,
      ((fun log : VertexLog V => log.vertex == w) ∘
        (fun log => if log.vertex == v then f log else log)) log =
      (fun log : VertexLog V => log.vertex == w) log := by
    intro log
    by_cases h : log.vertex = v <;> simp [h, hf]
  unfold Visit.modify Visit.getLog Visit.find?
  rw [List.find?_map, find?_pred_congr hpred]
  by_cases hw : w = v
  · subst hw
    have h1 := Visit.find?_ensure_self vis w
    unfold Visit.find? at h1
    rw [h1, if_pos rfl]
    simp only [Option.map_some', Option.getD_some]
    rw [if_pos (by simp [Visit.getLog_vertex])]
    rfl
  · have := Visit.find?_ensure_ne vis hw
    unfold Visit.find? at this
    rw [this, if_neg hw]
    cases h2 : List.find? (fun log => log.vertex == w) vis._logs with
    | none => rfl
    | some log =>
      have hv : log.vertex = w := by
        have := List.find?_some h2
        simpa using this
      simp [hv, hw]

theorem Visit.getLog_setDisc (vis : Visit V) (v : V) (t : Int) (w : V) :
    (vis.setDisc v t).getLog w =
      if w = v then { vis.getLog v with discovery_time := t } else vis.getLog w := by
  unfold Visit.setDisc; rw [Visit.getLog_modify] ; intro log; rfl

theorem Visit.getLog_setFin (vis : Visit V) (v : V) (t : Int) (w : V) :
    (vis.setFin v t).getLog w =
      if w = v then { vis.getLog v with finish_time := t } else vis.getLog w := by
  unfold Visit.setFin; rw [Visit.getLog_modify] ; intro log; rfl

theorem Visit.getLog_setParent (vis : Visit V) (v p : V) (w : V) :
    (vis.setParent v p).getLog w =
      if w = v then { vis.getLog v with parent := some p } else vis.getLog w := by
  unfold Visit.setParent; rw [Visit.getLog_modify] ; intro log; rfl

theorem Visit.getLog_setDist (vis : Visit V) (v : V) (d : Int) (w : V) :
    (vis.setDist v d).getLog w =
      if w = v then { vis.getLog v with distance := some d } else vis.getLog w := by
  unfold Visit.setDist; rw [Visit.getLog_modify] ; intro log; rfl

/-! ### Lemmas about `Visit.last_time` -/

theorem foldl_max_init_le (l : List Int) (b : Int) : b ≤ l.foldl max b := by
  induction l generalizing b with
  | nil => exact le_refl b
  | cons a l ih => exact le_trans (le_max_left b a) (ih (max b a))

theorem le_foldl_max_of_mem {l : List Int} {a : Int} (h : a ∈ l) (b : Int) :
    a ≤ l.foldl max b := by
  induction l generalizing b with
  | nil => cases h
  | cons x l ih =>
    rcases List.mem_cons.mp h with h | h
    · subst h
      exact le_trans (le_max_right b a) (foldl_max_init_le l (max b a))
    · exact ih h (max b x)

theorem foldl_max_le_of {l : List Int} {b c : Int} (hb : b ≤ c)
    (h : ∀ a ∈ l, a ≤ c) : l.foldl max b ≤ c := by
  induction l generalizing b with
  | nil => exact hb
  | cons x l ih =>
    exact ih (max_le hb (h x (List.mem_cons_self x l))) fun a ha => h a (List.mem_cons_of_mem x ha)

/-- The contribution of one log to the running maximum. -/
def VertexLog.tkey (log : VertexLog V) : Int :=
  max log.discovery_time log.finish_time

theorem last_time_aux (l : List (VertexLog V)) (b : Int) :
    l.foldl (fun m log => max (max m log.discovery_time) log.finish_time) b
      = (l.map VertexLog.tkey).foldl max b := by
  induction l generalizing b with
  | nil => rfl
  | cons a l ih =>
    rw [List.foldl_cons, List.map_cons, List.foldl_cons, max_assoc, ih]
    rfl

theorem Visit.last_time_eq (vis : Visit V) :
    vis.last_time = (vis._logs.map VertexLog.tkey).foldl max 0 :=
  last_time_aux vis._logs 0

theorem Visit.last_time_nonneg (vis : Visit V) : 0 ≤ vis.last_time := by
  rw [Visit.last_time_eq]; exact foldl_max_init_le _ 0

theorem Visit.tkey_le_last_time {vis : Visit V} {log : VertexLog V}
    (h : log ∈ vis._logs) : log.tkey ≤ vis.last_time := by
  rw [Visit.last_time_eq]
  exact le_foldl_max_of_mem (List.mem_map_of_mem VertexLog.tkey h) 0

theorem Visit.getLog_disc_le_last_time (vis : Visit V) (v : V) :
    (vis.getLog v).discovery_time ≤ vis.last_time := by
  unfold Visit.getLog
  cases h : vis.find? v with
  | none =>
    simp only [Option.getD_none, VertexLog.init]
    exact le_trans (by norm_num) vis.last_time_nonneg
  | some log =>
    have hm := List.mem_of_find?_eq_some h
    exact le_trans (le_max_left _ _) (Visit.tkey_le_last_time hm)

theorem Visit.getLog_fin_le_last_time (vis : Visit V) (v : V) :
    (vis.getLog v).finish_time ≤ vis.last_time := by
  unfold Visit.getLog
  cases h : vis.find? v with
  | none =>
    simp only [Option.getD_none, VertexLog.init]
    exact le_trans (by norm_num) vis.last_time_nonneg
  | some log =>
    have hm := List.mem_of_find?_eq_some h
    exact le_trans (le_max_right _ _) (Visit.tkey_le_last_time hm)

theorem Visit.last_time_ensure (vis : Visit V) (v : V) :
    (vis.ensure v).last_time = vis.last_time := by
  unfold Visit.ensure
  cases h : vis.find? v with
  | some log => rfl
  | none =>
    show Visit.last_time ⟨vis._logs ++ [VertexLog.init v]⟩ = _
    rw [Visit.last_time_eq, Visit.last_time_eq]
    rw [List.map_append, List.foldl_append]
    simp only [List.map_cons, List.map_nil, List.foldl_cons, List.foldl_nil]
    have h1 : VertexLog.tkey (VertexLog.init v) = -1 := by
      simp [VertexLog.tkey, VertexLog.init]
    rw [h1, max_eq_left]
    have := vis.last_time_nonneg
    rw [Visit.last_time_eq] at this
    omega

theorem Visit.last_time_modify_tkey (vis : Visit V) (v : V)
    (f : VertexLog V → VertexLog V) (hf : ∀ log, (f log).tkey = log.tkey) :
    (vis.modify v f).last_time = vis.last_time := by
  unfold Visit.modify
  rw [show (Visit.last_time ⟨((vis.ensure v)._logs).map
        (fun log => if log.vertex == v then f log else log)⟩) = _ from Visit.last_time_eq _,
    List.map_map]
  have hfun : (VertexLog.tkey ∘ fun log : VertexLog V => if log.vertex == v then f log else log)
      = VertexLog.tkey := by
    funext log
    by_cases h : log.vertex = v <;> simp [h, hf]
  rw [hfun, ← Visit.last_time_eq, Visit.last_time_ensure]

theorem Visit.last_time_setParent (vis : Visit V) (v p : V) :
    (vis.setParent v p).last_time = vis.last_time := by
  unfold Visit.setParent
  exact vis.last_time_modify_tkey v _ fun log => rfl

theorem Visit.last_time_setDist (vis : Visit V) (v : V) (d : Int) :
    (vis.setDist v d).last_time = vis.last_time := by
  unfold Visit.setDist
  exact vis.last_time_modify_tkey v _ fun log => rfl

theorem Visit.last_time_setDisc (vis : Visit V) (v : V) {t : Int}
    (h0 : 0 ≤ t) (hle : vis.last_time ≤ t) :
    (vis.setDisc v t).last_time = t := by
  unfold Visit.setDisc Visit.modify
  rw [show ∀ l : List (VertexLog V), Visit.last_time ⟨l⟩ = (l.map VertexLog.tkey).foldl max 0
      from fun l => Visit.last_time_eq ⟨l⟩, List.map_map]
  have hmem : ∃ log ∈ (vis.ensure v)._logs, log.vertex = v := by
    have h1 := Visit.find?_ensure_self vis v
    refine ⟨vis.getLog v, List.mem_of_find?_eq_some h1, Visit.getLog_vertex vis v⟩
  apply le_antisymm
  · apply foldl_max_le_of h0
    intro a ha
    rcases List.mem_map.mp ha with ⟨log, hlog, rfl⟩
    simp only [Function.comp_apply]
    have hk : log.tkey ≤ vis.last_time := by
      have := @Visit.tkey_le_last_time _ _ (vis.ensure v) _ hlog
      rwa [Visit.last_time_ensure] at this
    by_cases h : log.vertex = v
    · rw [if_pos (by simpa using h)]
      have hrw : VertexLog.tkey { log with discovery_time := t } = max t log.finish_time := rfl
      rw [hrw]
      exact max_le le_rfl (le_trans (le_trans (le_max_right _ _) hk) hle)
    · rw [if_neg (by simpa using h)]
      exact le_trans hk hle
  · rcases hmem with ⟨log, hlog, hv⟩
    have : VertexLog.tkey ((fun log : VertexLog V =>
        if log.vertex == v then { log with discovery_time := t } else log) log) = max t log.finish_time := by
      simp [hv, VertexLog.tkey]
    calc t ≤ max t log.finish_time := le_max_left _ _
    _ ≤ _ := by
        rw [← this]
        exact le_foldl_max_of_mem (List.mem_map.mpr ⟨log, hlog, rfl⟩) 0

theorem Visit.last_time_setFin (vis : Visit V) (v : V) {t : Int}
    (h0 : 0 ≤ t) (hle : vis.last_time ≤ t) :
    (vis.setFin v t).last_time = t := by
  unfold Visit.setFin Visit.modify
  rw [show ∀ l : List (VertexLog V), Visit.last_time ⟨l⟩ = (l.map VertexLog.tkey).foldl max 0
      from fun l => Visit.last_time_eq ⟨l⟩, List.map_map]
  have hmem : ∃ log ∈ (vis.ensure v)._logs, log.vertex = v := by
    have h1 := Visit.find?_ensure_self vis v
    refine ⟨vis.getLog v, List.mem_of_find?_eq_some h1, Visit.getLog_vertex vis v⟩
  apply le_antisymm
  · apply foldl_max_le_of h0
    intro a ha
    rcases List.mem_map.mp ha with ⟨log, hlog, rfl⟩
    simp only [Function.comp_apply]
    have hk : log.tkey ≤ vis.last_time := by
      have := @Visit.tkey_le_last_time _ _ (vis.ensure v) _ hlog
      rwa [Visit.last_time_ensure] at this
    by_cases h : log.vertex = v
    · rw [if_pos (by simpa using h)]
      have hrw : VertexLog.tkey { log with finish_time := t } = max log.discovery_time t := rfl
      rw [hrw]
      exact max_le (le_trans (le_trans (le_max_left _ _) hk) hle) le_rfl
    · rw [if_neg (by simpa using h)]
      exact le_trans hk hle
  · rcases hmem with ⟨log, hlog, hv⟩
    have : VertexLog.tkey ((fun log : VertexLog V =>
        if log.vertex == v then { log with finish_time := t } else log) log) = max log.discovery_time t := by
      simp [hv, VertexLog.tkey]
    calc t ≤ max log.discovery_time t := le_max_right _ _
    _ ≤ _ := by
        rw [← this]
        exact le_foldl_max_of_mem (List.mem_map.mpr ⟨log, hlog, rfl⟩) 0

/-! ### Basic lemmas about `DiGraph` -/

theorem DiGraph.entry?_prop {g : DiGraph V} {v : V} {p : V × List V}
    (h : g.entry? v = some p) : p.1 = v ∧ p ∈ g._edges := by
  refine ⟨?_, List.mem_of_find?_eq_some h⟩
  have := List.find?_some h
  simpa using this

theorem DiGraph.has_vertex_iff (g : DiGraph V) (v : V) :
    g.has_vertex v = true ↔ v ∈ g.keys := by
  unfold DiGraph.has_vertex DiGraph.entry? DiGraph.keys
  rw [Option.isSome_iff_exists]
  constructor
  · rintro ⟨p, hp⟩
    rcases DiGraph.entry?_prop (g := g) (v := v) hp with ⟨h1, h2⟩
    exact h1 ▸ List.mem_map_of_mem Prod.fst h2
  · intro hv
    rcases List.mem_map.mp hv with ⟨p, hp, rfl⟩
    have : (g._edges.find? (fun q => q.1 == p.1)).isSome := by
      rw [List.find?_isSome]
      exact ⟨p, hp, by simp⟩
    rcases Option.isSome_iff_exists.mp this with ⟨q, hq⟩
    exact ⟨q, hq⟩

theorem DiGraph.adjList_entry {g : DiGraph V} {v : V} {p : V × List V}
    (h : g.entry? v = some p) : g.adjList v = p.2 := by
  unfold DiGraph.adjList
  rw [h]
  rfl

theorem DiGraph.adjList_of_not_has {g : DiGraph V} {v : V}
    (h : g.has_vertex v = false) : g.adjList v = [] := by
  unfold DiGraph.adjList
  unfold DiGraph.has_vertex at h
  cases h2 : g.entry? v with
  | none => rfl
  | some p => rw [h2] at h; simp at h

theorem DiGraph.mem_adjList_exists {g : DiGraph V} {v w : V}
    (h : w ∈ g.adjList v) : ∃ p ∈ g._edges, p.1 = v ∧ w ∈ p.2 := by
  unfold DiGraph.adjList at h
  cases h2 : g.entry? v with
  | none => rw [h2] at h; simp at h
  | some p =>
    rw [h2] at h
    rcases DiGraph.entry?_prop h2 with ⟨h3, h4⟩
    exact ⟨p, h4, h3, by simpa using h⟩

theorem DiGraph.mem_adjList_has_vertex {g : DiGraph V} {v w : V}
    (h : w ∈ g.adjList v) : g.has_vertex v = true := by
  unfold DiGraph.adjList at h
  cases h2 : g.entry? v with
  | none => rw [h2] at h; simp at h
  | some p => unfold DiGraph.has_vertex; rw [h2]; rfl

/-- `find?` by key commutes with a key-preserving map of the entries. -/
theorem find?_key_map (l : List (V × List V)) (F : V × List V → V × List V)
    (hF : ∀ p, (F p).1 = p.1) (v : V) :
    (l.map F).find? (fun p => p.1 == v) = (l.find? (fun p => p.1 == v)).map F := by
  rw [List.find?_map]
  congr 1
  apply find?_pred_congr
  intro p
  simp [hF]

theorem DiGraph.entry?_map_keypres (g : DiGraph V) (F : V × List V → V × List V)
    (hF : ∀ p, (F p).1 = p.1) (v : V) :
    (DiGraph.entry? ⟨g._edges.map F⟩ v) = (g.entry? v).map F :=
  find?_key_map g._edges F hF v

/-! ### `add_edge` -/

theorem DiGraph.add_edge_ok {g : DiGraph V} {u w : V}
    (hu : g.has_vertex u = true) (hw : g.has_vertex w = true) :
    ∃ g', g.add_edge u w = .ok g' := by
  unfold DiGraph.add_edge
  rw [hu, hw]
  by_cases h : w ∈ g.adjList u <;> simp [h]

theorem DiGraph.add_edge_cases {g g' : DiGraph V} {u w : V}
    (h : g.add_edge u w = .ok g') :
    g.has_vertex u = true ∧ g.has_vertex w = true ∧
      ((w ∈ g.adjList u ∧ g' = g) ∨
       (w ∉ g.adjList u ∧
        g' = ⟨g._edges.map (fun p => if p.1 == u then (p.1, p.2 ++ [w]) else p)⟩)) := by
  unfold DiGraph.add_edge at h
  by_cases hu : g.has_vertex u = true
  · by_cases hw : g.has_vertex w = true
    · rw [if_neg (show ¬¬(g.has_vertex u = true) by simp [hu]),
          if_neg (show ¬¬(g.has_vertex w = true) by simp [hw])] at h
      refine ⟨hu, hw, ?_⟩
      by_cases hmem : w ∈ g.adjList u
      · rw [if_pos hmem] at h
        exact Or.inl ⟨hmem, by injection h with h2; exact h2.symm⟩
      · rw [if_neg hmem] at h
        exact Or.inr ⟨hmem, by injection h with h2; exact h2.symm⟩
    · rw [eq_false_of_ne_true hw] at h
      simp [hu] at h
  · rw [eq_false_of_ne_true hu] at h
    simp at h

theorem DiGraph.add_edge_entry? {g g' : DiGraph V} {u w : V}
    (h : g.add_edge u w = .ok g') (x : V) :
    g'.entry? x = (g.entry? x).map
      (fun p => if p.1 == u then (p.1, p.2 ++ [w]) else p) ∨ g' = g := by
  rcases (DiGraph.add_edge_cases h).2.2 with ⟨_, rfl⟩ | ⟨_, rfl⟩
  · exact Or.inr rfl
  · exact Or.inl (DiGraph.entry?_map_keypres g _ (fun p => by by_cases hp : p.1 = u <;> simp [hp]) x)

theorem DiGraph.add_edge_has_vertex {g g' : DiGraph V} {u w : V}
    (h : g.add_edge u w = .ok g') (x : V) :
    g'.has_vertex x = g.has_vertex x := by
  rcases DiGraph.add_edge_entry? h x with h2 | rfl
  · unfold DiGraph.has_vertex
    rw [h2]
    cases g.entry? x <;> rfl
  · rfl

theorem DiGraph.add_edge_keys {g g' : DiGraph V} {u w : V}
    (h : g.add_edge u w = .ok g') : g'.keys = g.keys := by
  rcases (DiGraph.add_edge_cases h).2.2 with ⟨_, rfl⟩ | ⟨_, rfl⟩
  · rfl
  · unfold DiGraph.keys
    rw [List.map_map]
    apply List.map_congr_left
    intro p _
    by_cases hp : p.1 = u <;> simp [hp]

theorem DiGraph.add_edge_adjList_self {g g' : DiGraph V} {u w : V}
    (h : g.add_edge u w = .ok g') :
    g'.adjList u = if w ∈ g.adjList u then g.adjList u else g.adjList u ++ [w] := by
  rcases (DiGraph.add_edge_cases h).2.2 with ⟨hmem, rfl⟩ | ⟨hmem, rfl⟩
  · rw [if_pos hmem]
  · rw [if_neg hmem]
    have hu := (DiGraph.add_edge_cases h).1
    unfold DiGraph.has_vertex at hu
    rcases Option.isSome_iff_exists.mp hu with ⟨p, hp⟩
    have he := DiGraph.entry?_map_keypres g
      (fun p => if p.1 == u then (p.1, p.2 ++ [w]) else p)
      (fun p => by by_cases hq : p.1 = u <;> simp [hq]) u
    unfold DiGraph.adjList
    rw [he, hp]
    rcases DiGraph.entry?_prop hp with ⟨h1, _⟩
    simp [h1]

theorem DiGraph.add_edge_adjList_other {g g' : DiGraph V} {u w : V}
    (h : g.add_edge u w = .ok g') {x : V} (hx : x ≠ u) :
    g'.adjList x = g.adjList x := by
  rcases (DiGraph.add_edge_cases h).2.2 with ⟨_, rfl⟩ | ⟨_, rfl⟩
  · rfl
  · have he := DiGraph.entry?_map_keypres g
      (fun p => if p.1 == u then (p.1, p.2 ++ [w]) else p)
      (fun p => by by_cases hq : p.1 = u <;> simp [hq]) x
    unfold DiGraph.adjList
    rw [he]
    cases h2 : g.entry? x with
    | none => rfl
    | some p =>
      rcases DiGraph.entry?_prop h2 with ⟨h1, _⟩
      have : ¬ (p.1 = u) := by rw [h1]; exact hx
      simp [this]

theorem DiGraph.add_edge_mem_adjList {g g' : DiGraph V} {u w : V}
    (h : g.add_edge u w = .ok g') (x y : V) :
    y ∈ g'.adjList x ↔ y ∈ g.adjList x ∨ (x = u ∧ y = w) := by
  by_cases hx : x = u
  · subst hx
    rw [DiGraph.add_edge_adjList_self h]
    by_cases hmem : w ∈ g.adjList x
    · rw [if_pos hmem]
      constructor
      · exact fun h2 => Or.inl h2
      · rintro (h2 | ⟨-, rfl⟩) <;> [exact h2; exact hmem]
    · rw [if_neg hmem]
      simp [List.mem_append]
  · rw [DiGraph.add_edge_adjList_other h hx]
    constructor
    · exact fun h2 => Or.inl h2
    · rintro (h2 | ⟨h2, -⟩) <;> [exact h2; exact absurd h2 hx]

theorem DiGraph.add_edge_adjList_nodup {g g' : DiGraph V} {u w : V}
    (h : g.add_edge u w = .ok g') (x : V) (hnd : (g.adjList x).Nodup) :
    (g'.adjList x).Nodup := by
  by_cases hx : x = u
  · subst hx
    rw [DiGraph.add_edge_adjList_self h]
    by_cases hmem : w ∈ g.adjList x
    · rwa [if_pos hmem]
    · rw [if_neg hmem]
      simpa [List.nodup_append] using ⟨hnd, fun h2 => hmem h2⟩
  · rwa [DiGraph.add_edge_adjList_other h hx]

/-! ### `addEdges` (folded `add_edge` loops) -/

theorem DiGraph.addEdges_spec (pairs : List (V × V)) :
    ∀ g : DiGraph V,
    (∀ p ∈ pairs, g.has_vertex p.1 = true ∧ g.has_vertex p.2 = true) →
    ∃ g', g.addEdges pairs = .ok g' ∧
      (∀ x, g'.has_vertex x = g.has_vertex x) ∧
      g'.keys = g.keys ∧
      (∀ x y, y ∈ g'.adjList x ↔ y ∈ g.adjList x ∨ (x, y) ∈ pairs) ∧
      (∀ x, (g.adjList x).Nodup → (g'.adjList x).Nodup) := by
  induction pairs with
  | nil =>
    intro g _
    exact ⟨g, rfl, fun _ => rfl, rfl, fun x y => by simp, fun _ h => h⟩
  | cons p rest ih =>
    intro g hall
    rcases DiGraph.add_edge_ok (hall p (List.mem_cons_self p rest)).1
      (hall p (List.mem_cons_self p rest)).2 with ⟨g1, hg1⟩
    have hall1 : ∀ q ∈ rest, g1.has_vertex q.1 = true ∧ g1.has_vertex q.2 = true := by
      intro q hq
      rw [DiGraph.add_edge_has_vertex hg1, DiGraph.add_edge_has_vertex hg1]
      exact hall q (List.mem_cons_of_mem p hq)
    rcases ih g1 hall1 with ⟨g', hfold, hhv, hkeys, hmem, hnd⟩
    refine ⟨g', ?_, ?_, ?_, ?_, ?_⟩
    · unfold DiGraph.addEdges at hfold ⊢
      rw [List.foldlM_cons, hg1]
      exact hfold
    · intro x
      rw [hhv x, DiGraph.add_edge_has_vertex hg1]
    · rw [hkeys, DiGraph.add_edge_keys hg1]
    · intro x y
      rw [hmem x y, DiGraph.add_edge_mem_adjList hg1]
      constructor
      · rintro ((h2 | ⟨rfl, rfl⟩) | h2)
        · exact Or.inl h2
        · exact Or.inr (List.mem_cons_self _ _)
        · exact Or.inr (List.mem_cons_of_mem _ h2)
      · rintro (h2 | h2)
        · exact Or.inl (Or.inl h2)
        · rcases List.mem_cons.mp h2 with h3 | h3
          · exact Or.inl (Or.inr (by simp [← h3]))
          · exact Or.inr h3
    · intro x hx
      exact hnd x (DiGraph.add_edge_adjList_nodup hg1 x hx)

/-! ### More structural lemmas -/

theorem DiGraph.WF_adjList_nodup {g : DiGraph V} (h : g.WF) (x : V) :
    (g.adjList x).Nodup := by
  unfold DiGraph.adjList
  cases h2 : g.entry? x with
  | none => simp
  | some p =>
    rcases DiGraph.entry?_prop h2 with ⟨-, hp⟩
    simpa using (h.2 p hp).2

theorem DiGraph.WF_adjList_has_vertex {g : DiGraph V} (h : g.WF) {x w : V}
    (hw : w ∈ g.adjList x) : g.has_vertex w = true := by
  rcases DiGraph.mem_adjList_exists hw with ⟨p, hp, -, hwp⟩
  exact (h.2 p hp).1 w hwp

theorem find?_of_mem_nodup_keys : ∀ {l : List (V × List V)},
    (l.map Prod.fst).Nodup → ∀ {p : V × List V}, p ∈ l →
      l.find? (fun q => q.1 == p.1) = some p := by
  intro l
  induction l with
  | nil => intro _ p hp; cases hp
  | cons q l ih =>
    intro h p hp
    rcases List.mem_cons.mp hp with rfl | hp2
    · rw [List.find?_cons_of_pos _ (by simp)]
    · have hq : q.1 ≠ p.1 := by
        intro he
        have hmem : p.1 ∈ l.map Prod.fst := List.mem_map_of_mem Prod.fst hp2
        rw [List.map_cons, List.nodup_cons, he] at h
        exact h.1 hmem
      rw [List.find?_cons_of_neg _ (by simpa using hq)]
      exact ih (by rw [List.map_cons, List.nodup_cons] at h; exact h.2) hp2

theorem DiGraph.adjList_of_mem_nodup {g : DiGraph V} (h : g.keys.Nodup)
    {p : V × List V} (hp : p ∈ g._edges) : g.adjList p.1 = p.2 := by
  unfold DiGraph.adjList DiGraph.entry?
  rw [find?_of_mem_nodup_keys h hp]
  rfl

theorem listSetEq_iff (l1 l2 : List V) :
    listSetEq l1 l2 = true ↔ ∀ x, x ∈ l1 ↔ x ∈ l2 := by
  unfold listSetEq
  rw [Bool.and_eq_true, List.all_eq_true, List.all_eq_true]
  constructor
  · rintro ⟨h1, h2⟩ x
    constructor
    · intro hx
      have := h1 x hx
      simpa using this
    · intro hx
      have := h2 x hx
      simpa using this
  · intro h
    exact ⟨fun x hx => by simpa using (h x).mp hx, fun x hx => by simpa using (h x).mpr hx⟩

theorem DiGraph.add_vertex_has_vertex (g : DiGraph V) (v x : V) :
    (g.add_vertex v).has_vertex x = (g.has_vertex x || x == v) := by
  unfold DiGraph.add_vertex
  by_cases h : g.has_vertex v = true
  · rw [if_pos h]
    by_cases hx : x = v
    · subst hx; simp [h]
    · simp [hx]
  · rw [if_neg h]
    unfold DiGraph.has_vertex DiGraph.entry?
    rw [List.find?_append]
    cases h2 : g._edges.find? (fun p => p.1 == x) with
    | some p => simp [DiGraph.has_vertex, DiGraph.entry?, h2]
    | none =>
      by_cases hx : x = v
      · subst hx
        simp [DiGraph.has_vertex, DiGraph.entry?, h2]
      · have hvx : ¬ v = x := fun h2 => hx h2.symm
        simp [DiGraph.has_vertex, DiGraph.entry?, h2, hvx, hx]

theorem DiGraph.add_vertex_adjList (g : DiGraph V) (v x : V) :
    (g.add_vertex v).adjList x = g.adjList x := by
  unfold DiGraph.add_vertex
  by_cases h : g.has_vertex v = true
  · rw [if_pos h]
  · rw [if_neg h]
    unfold DiGraph.adjList DiGraph.entry?
    rw [List.find?_append]
    cases h2 : g._edges.find? (fun p => p.1 == x) with
    | some p => simp [h2]
    | none =>
      by_cases hx : v = x
      · simp [h2, hx]
      · simp [h2, hx]

theorem DiGraph.add_vertex_keys (g : DiGraph V) (v : V) :
    (g.add_vertex v).keys = if g.has_vertex v = true then g.keys else g.keys ++ [v] := by
  unfold DiGraph.add_vertex
  by_cases h : g.has_vertex v = true
  · rw [if_pos h, if_pos h]
  · rw [if_neg h, if_neg h]
    unfold DiGraph.keys
    simp

theorem foldl_add_vertex_has_vertex (vs : List V) :
    ∀ (g : DiGraph V) (x : V),
      (vs.foldl DiGraph.add_vertex g).has_vertex x = (g.has_vertex x || decide (x ∈ vs)) := by
  induction vs with
  | nil => intro g x; simp
  | cons v vs ih =>
    intro g x
    rw [List.foldl_cons, ih, DiGraph.add_vertex_has_vertex]
    by_cases hx : x = v
    · subst hx; simp
    · have hbeq : (x == v) = false := by simpa using hx
      simp [hbeq, List.mem_cons, hx]

theorem foldl_add_vertex_adjList (vs : List V) :
    ∀ (g : DiGraph V) (x : V), (vs.foldl DiGraph.add_vertex g).adjList x = g.adjList x := by
  induction vs with
  | nil => intro g x; rfl
  | cons v vs ih =>
    intro g x
    rw [List.foldl_cons, ih, DiGraph.add_vertex_adjList]

theorem foldl_add_vertex_keys_nodup (vs : List V) :
    ∀ (g : DiGraph V), g.keys.Nodup → (vs.foldl DiGraph.add_vertex g).keys.Nodup := by
  induction vs with
  | nil => intro g h; exact h
  | cons v vs ih =>
    intro g h
    rw [List.foldl_cons]
    apply ih
    rw [DiGraph.add_vertex_keys]
    by_cases hv : g.has_vertex v = true
    · rwa [if_pos hv]
    · rw [if_neg hv]
      rw [List.nodup_append]
      refine ⟨h, List.nodup_singleton v, ?_⟩
      intro x hx hv2
      rw [List.mem_singleton] at hv2
      subst hv2
      exact hv ((DiGraph.has_vertex_iff g x).mpr hx)

theorem find?_filter_ne (l : List (V × List V)) (v u : V) (huv : u ≠ v) :
    (l.filter (fun p => ! (p.1 == v))).find? (fun p => p.1 == u)
      = l.find? (fun p => p.1 == u) := by
  induction l with
  | nil => rfl
  | cons p l ih =>
    by_cases hp : p.1 = v
    · have hne : ¬ ((p.1 == u) = true) := by
        simp only [beq_iff_eq, hp]
        exact fun h => huv h.symm
      rw [List.filter_cons_of_neg (by simp [hp]), ih, List.find?_cons_of_neg l hne]
    · rw [List.filter_cons_of_pos (by simp [hp])]
      by_cases hu : p.1 = u
      · rw [List.find?_cons_of_pos _ (by simp [hu]), List.find?_cons_of_pos _ (by simp [hu])]
      · rw [List.find?_cons_of_neg _ (by simp [hu]), List.find?_cons_of_neg _ (by simp [hu]), ih]

theorem find?_filter_self (l : List (V × List V)) (v : V) :
    (l.filter (fun p => ! (p.1 == v))).find? (fun p => p.1 == v) = none := by
  rw [List.find?_eq_none]
  intro p hp
  have := List.of_mem_filter hp
  simpa using this

/-! ## Claim C4: `remove_vertex` -/

/-- **C4, counterexample.**  On the graph with the single vertex `0` and the
self-loop `0 → 0`, `remove_vertex 0` returns `[]`, not the adjacency sequence
`[0]` that the vertex had at the time of the call: the stripping loop also
strips `v` from `v`'s own adjacency list before it is popped. -/
theorem C4_counterexample :
    (DiGraph.remove_vertex (⟨[(0, [0])]⟩ : DiGraph Nat) 0).map Prod.fst = Except.ok [] ∧
    DiGraph.adjList (⟨[(0, [0])]⟩ : DiGraph Nat) 0 = [0] ∧
    (Except.ok ([] : List Nat) : Except String (List Nat)) ≠ Except.ok [0] := by
  refine ⟨by rfl, by rfl, by intro h; injection h with h2; simp at h2⟩

/-- **C4 (amended).**  For every graph and registered vertex `v`,
`remove_vertex v` removes `v` as a key, strips `v` from every other vertex's
adjacency sequence (first occurrence, leaving the rest unchanged), and returns
the adjacency sequence `v` had at the time of the call *with any self-loop
occurrence of `v` stripped from it*; for unregistered `v` it fails with the
not-found error (the failure happens before any mutation). -/
theorem C4_remove_vertex (g : DiGraph Nat) (v : Nat) :
    (g.has_vertex v = false → g.remove_vertex v = Except.error "Couldn't find vertex:") ∧
    (g.has_vertex v = true →
      ∃ ret g', g.remove_vertex v = Except.ok (ret, g') ∧
        ret = (g.adjList v).erase v ∧
        (∀ x, g'.has_vertex x = (g.has_vertex x && ! (x == v))) ∧
        (∀ u, u ≠ v → g'.adjList u = (g.adjList u).erase v)) := by
  constructor
  · intro hv
    unfold DiGraph.remove_vertex
    rw [if_pos (by simp [hv])]
  · intro hv
    have hstrip : ∀ x : Nat,
        (DiGraph.entry? ⟨g._edges.map
          (fun p => (p.1, if v ∈ p.2 then p.2.erase v else p.2))⟩ x)
          = (g.entry? x).map (fun p => (p.1, if v ∈ p.2 then p.2.erase v else p.2)) :=
      fun x => DiGraph.entry?_map_keypres g
        (fun p => (p.1, if v ∈ p.2 then p.2.erase v else p.2)) (fun p => rfl) x
    rcases Option.isSome_iff_exists.mp hv with ⟨p, hp⟩
    have hfst := (DiGraph.entry?_prop hp).1
    have h1 : (((g._edges.map (fun p => (p.1, if v ∈ p.2 then p.2.erase v else p.2))).find?
          (fun p => p.1 == v)).map Prod.snd).getD [] = (g.adjList v).erase v := by
      show ((DiGraph.entry? (V := Nat) ⟨g._edges.map
          (fun p => (p.1, if v ∈ p.2 then p.2.erase v else p.2))⟩ v).map Prod.snd).getD []
        = (g.adjList v).erase v
      rw [hstrip v, hp]
      simp only [Option.map_map, Option.map_some', Option.getD_some]
      rw [DiGraph.adjList_entry hp]
      by_cases hm : v ∈ p.2
      · simp [hm]
      · simp [hm, List.erase_of_not_mem hm]
    refine ⟨(g.adjList v).erase v,
      ⟨(g._edges.map (fun p => (p.1, if v ∈ p.2 then p.2.erase v else p.2))).filter
        (fun p => ! (p.1 == v))⟩, ?_, rfl, ?_, ?_⟩
    · unfold DiGraph.remove_vertex
      rw [if_neg (by simp [hv])]
      exact congrArg (fun x : List Nat => (Except.ok (x,
        (⟨(g._edges.map (fun p => (p.1, if v ∈ p.2 then p.2.erase v else p.2))).filter
          (fun p => ! (p.1 == v))⟩ : DiGraph Nat)) : Except String (List Nat × DiGraph Nat))) h1
    · intro x
      by_cases hx : x = v
      · subst hx
        unfold DiGraph.has_vertex DiGraph.entry?
        rw [find?_filter_self]
        simp [hv]
      · unfold DiGraph.has_vertex DiGraph.entry?
        rw [find?_filter_ne _ _ _ hx]
        have h2 := hstrip x
        unfold DiGraph.entry? at h2
        rw [h2]
        have hbeq : (x == v) = false := by simpa using hx
        cases g._edges.find? (fun p => p.1 == x) <;> simp [hbeq, DiGraph.has_vertex, DiGraph.entry?]
    · intro u hu
      unfold DiGraph.adjList DiGraph.entry?
      rw [find?_filter_ne _ _ _ hu]
      have h2 := hstrip u
      unfold DiGraph.entry? at h2
      rw [h2]
      cases h3 : g._edges.find? (fun p => p.1 == u) with
      | none => simp
      | some q =>
        simp only [Option.map_some', Option.getD_some]
        by_cases hm : v ∈ q.2
        · simp [hm]
        · simp [hm, List.erase_of_not_mem hm]

/-- **C4, witness.**  Instantiation of `C4_remove_vertex` on the graph
`0 → 1, 1 → 0` at the registered vertex `1` and at the unregistered vertex
`7`. -/
theorem C4_witness :
    ((⟨[(0, [1]), (1, [0])]⟩ : DiGraph Nat).has_vertex 7 = false →
      (⟨[(0, [1]), (1, [0])]⟩ : DiGraph Nat).remove_vertex 7 =
        Except.error "Couldn't find vertex:") ∧
    ((⟨[(0, [1]), (1, [0])]⟩ : DiGraph Nat).has_vertex 1 = true →
      ∃ ret g', (⟨[(0, [1]), (1, [0])]⟩ : DiGraph Nat).remove_vertex 1 = Except.ok (ret, g') ∧
        ret = ((⟨[(0, [1]), (1, [0])]⟩ : DiGraph Nat).adjList 1).erase 1 ∧
        (∀ x, g'.has_vertex x =
          ((⟨[(0, [1]), (1, [0])]⟩ : DiGraph Nat).has_vertex x && ! (x == 1))) ∧
        (∀ u, u ≠ 1 → g'.adjList u =
          ((⟨[(0, [1]), (1, [0])]⟩ : DiGraph Nat).adjList u).erase 1)) :=
  ⟨(C4_remove_vertex ⟨[(0, [1]), (1, [0])]⟩ 7).1,
   (C4_remove_vertex ⟨[(0, [1]), (1, [0])]⟩ 1).2⟩

/-! ## Claim C5: adding an edge twice -/

/-- **C5.**  For every well-formed graph and registered vertices `u`, `w`,
adding the edge `(u, w)` twice succeeds, the second call is a silent no-op
returning the unchanged graph, and afterwards `adj(u)` contains `w` exactly
once. -/
theorem C5_add_edge_twice (g : DiGraph Nat) (u w : Nat) (hWF : g.WF)
    (hu : g.has_vertex u = true) (hw : g.has_vertex w = true) :
    ∃ g1, g.add_edge u w = Except.ok g1 ∧ g1.add_edge u w = Except.ok g1 ∧
      (g1.adjList u).count w = 1 := by
  rcases DiGraph.add_edge_ok hu hw with ⟨g1, hg1⟩
  have hmem : w ∈ g1.adjList u :=
    (DiGraph.add_edge_mem_adjList hg1 u w).mpr (Or.inr ⟨rfl, rfl⟩)
  have hnd : (g1.adjList u).Nodup :=
    DiGraph.add_edge_adjList_nodup hg1 u (DiGraph.WF_adjList_nodup hWF u)
  refine ⟨g1, hg1, ?_, List.count_eq_one_of_mem hnd hmem⟩
  unfold DiGraph.add_edge
  rw [if_neg (by simp [DiGraph.add_edge_has_vertex hg1, hu]),
      if_neg (by simp [DiGraph.add_edge_has_vertex hg1, hw]),
      if_pos hmem]

/-- **C5, witness.**  Instantiation of `C5_add_edge_twice` on the two-vertex
graph with no edges, adding `0 → 1` twice. -/
theorem C5_witness :
    (⟨[(0, []), (1, [])]⟩ : DiGraph Nat).WF ∧
    ∃ g1, (⟨[(0, []), (1, [])]⟩ : DiGraph Nat).add_edge 0 1 = Except.ok g1 ∧
      g1.add_edge 0 1 = Except.ok g1 ∧ (g1.adjList 0).count 1 = 1 :=
  ⟨by decide, C5_add_edge_twice ⟨[(0, []), (1, [])]⟩ 0 1 (by decide) (by decide) (by decide)⟩

/-! ## Claim C7: graph equality ignores adjacency insertion order -/

/-- **C7.**  Graph equality holds exactly when the vertex sets coincide and,
for every vertex, the adjacency sequences are equal as sets; insertion order
of the adjacency sequences is irrelevant. -/
theorem C7_eq_set_characterisation (g1 g2 : DiGraph Nat) (h1 : g1.keys.Nodup) :
    g1.eqG g2 = true ↔
      ((∀ v, g1.has_vertex v = g2.has_vertex v) ∧
       (∀ v w, w ∈ g1.adjList v ↔ w ∈ g2.adjList v)) := by
  unfold DiGraph.eqG
  rw [Bool.and_eq_true, listSetEq_iff, List.all_eq_true]
  constructor
  · rintro ⟨hkeys, hall⟩
    have hhv : ∀ v, g1.has_vertex v = g2.has_vertex v := by
      intro v
      have i1 := DiGraph.has_vertex_iff g1 v
      have i2 := DiGraph.has_vertex_iff g2 v
      cases h1v : g1.has_vertex v with
      | true => exact (i2.mpr ((hkeys v).mp (i1.mp h1v))).symm
      | false =>
        cases h2v : g2.has_vertex v with
        | false => rfl
        | true =>
          have := i1.mpr ((hkeys v).mpr (i2.mp h2v))
          rw [h1v] at this
          cases this
    refine ⟨hhv, ?_⟩
    intro v w
    by_cases hv : g1.has_vertex v = true
    · rcases Option.isSome_iff_exists.mp hv with ⟨p, hp⟩
      have hfst := (DiGraph.entry?_prop hp).1
      have hmem := (DiGraph.entry?_prop hp).2
      have := (listSetEq_iff p.2 (g2.adjList p.1)).mp (by simpa using hall p hmem)
      rw [DiGraph.adjList_entry hp, ← hfst]
      exact this w
    · have hv1 : g1.has_vertex v = false := Bool.eq_false_iff.mpr hv
      have hv2 : g2.has_vertex v = false := by rw [← hhv v]; exact hv1
      rw [DiGraph.adjList_of_not_has hv1, DiGraph.adjList_of_not_has hv2]
  · rintro ⟨hhv, hadj⟩
    constructor
    · intro x
      rw [← DiGraph.has_vertex_iff, ← DiGraph.has_vertex_iff, hhv x]
    · intro p hp
      have hself : g1.adjList p.1 = p.2 := DiGraph.adjList_of_mem_nodup h1 hp
      have hset : listSetEq p.2 (g2.adjList p.1) = true := by
        rw [listSetEq_iff]
        intro x
        rw [← hself]
        exact hadj p.1 x
      simpa using hset

/-- **C7, witness.**  Instantiation of `C7_eq_set_characterisation` on two
graphs whose only difference is the insertion order of the adjacency list of
vertex `0`: the theorem turns the decidable `eqG` result into the set-level
characterisation. -/
theorem C7_witness :
    (⟨[(0, [1, 2]), (1, []), (2, [])]⟩ : DiGraph Nat).keys.Nodup ∧
    ((∀ v, (⟨[(0, [1, 2]), (1, []), (2, [])]⟩ : DiGraph Nat).has_vertex v =
        (⟨[(0, [2, 1]), (1, []), (2, [])]⟩ : DiGraph Nat).has_vertex v) ∧
     (∀ v w, w ∈ (⟨[(0, [1, 2]), (1, []), (2, [])]⟩ : DiGraph Nat).adjList v ↔
        w ∈ (⟨[(0, [2, 1]), (1, []), (2, [])]⟩ : DiGraph Nat).adjList v)) :=
  ⟨by decide,
   (C7_eq_set_characterisation ⟨[(0, [1, 2]), (1, []), (2, [])]⟩
      ⟨[(0, [2, 1]), (1, []), (2, [])]⟩ (by decide)).mp (by decide)⟩

/-! ## Claim C9: the `dag` factory -/

theorem getElem_mem_drop (vs : List V) (i j : Nat) (hj : j < vs.length)
    (hij : i ≤ j) : vs[j] ∈ vs.drop i := by
  rw [List.mem_iff_getElem]
  refine ⟨j - i, by rw [List.length_drop]; omega, ?_⟩
  rw [List.getElem_drop]
  congr 1
  omega

theorem mem_dagPairs {vs : List V} {a b : V} :
    (a, b) ∈ dagPairs vs ↔
      ∃ (i j : Nat) (_ : i < vs.length) (_ : j < vs.length),
        i < j ∧ vs[i] = a ∧ vs[j] = b := by
  unfold dagPairs
  rw [List.mem_flatten]
  constructor
  · rintro ⟨l, hl, hab⟩
    rcases List.mem_map.mp hl with ⟨q, hq, rfl⟩
    rcases List.mem_map.mp hab with ⟨w, hw, heq⟩
    rcases List.mem_iff_getElem.mp hq with ⟨i, hi, hqi⟩
    have hlen : i < vs.length := by simpa [List.enum_length] using hi
    have he := List.getElem_enum vs i hi
    rw [hqi] at he
    have hq1 : q.1 = i := by rw [he]
    have hq2 : q.2 = vs[i] := by rw [he]
    rw [hq1] at hw
    rw [hq2] at heq
    obtain ⟨ha2, hb2⟩ := Prod.mk.injEq _ _ _ _ |>.mp heq
    rcases List.mem_iff_getElem.mp hw with ⟨k, hk, hwk⟩
    have hk2 : k < vs.length - (i + 1) := by simpa [List.length_drop] using hk
    refine ⟨i, i + 1 + k, hlen, by omega, by omega, ha2, ?_⟩
    rw [← hb2, ← hwk, List.getElem_drop]
  · rintro ⟨i, j, hi, hj, hij, ha, hb⟩
    refine ⟨(vs.drop (i + 1)).map (fun w => (vs[i], w)), ?_, ?_⟩
    · apply List.mem_map.mpr
      refine ⟨(i, vs[i]), ?_, rfl⟩
      rw [List.mem_iff_getElem]
      exact ⟨i, by simpa [List.enum_length] using hi, List.getElem_enum vs i _⟩
    · apply List.mem_map.mpr
      refine ⟨b, ?_, by rw [ha]⟩
      rw [← hb]
      exact getElem_mem_drop vs (i + 1) j hj (by omega)

/-- **C9, counterexample.**  On the vertex list `[0, 0]` (a list with a
duplicate), `dag` returns a graph with a self-loop `0 → 0`, so the returned
graph is not acyclic and the claim fails for this input list. -/
theorem C9_counterexample :
    (dag ([0, 0] : List Nat)).map DiGraph.has_self_loops = Except.ok true := by
  rfl

/-- **C9 (amended).**  For every input vertex list the `dag` factory succeeds
and contains, for each position `i`, an edge from the vertex at position `i`
to the vertex at every later position; when the input list has *no duplicate
vertices* the returned graph has no self-loop. -/
theorem C9_dag_amended (vs : List Nat) :
    ∃ gd, dag vs = Except.ok gd ∧
      (∀ i j (_ : i < vs.length) (_ : j < vs.length), i < j →
        gd.has_edge vs[i] vs[j] = Except.ok true) ∧
      (vs.Nodup → gd.has_self_loops = false) := by
  have hg0hv : ∀ x, (vs.foldl DiGraph.add_vertex ⟨[]⟩).has_vertex x = decide (x ∈ vs) := by
    intro x
    rw [foldl_add_vertex_has_vertex]
    rfl
  have hg0adj : ∀ x, (vs.foldl DiGraph.add_vertex ⟨[]⟩).adjList x = [] :=
    fun x => foldl_add_vertex_adjList vs ⟨[]⟩ x
  have hg0nd : (vs.foldl DiGraph.add_vertex ⟨[]⟩).keys.Nodup :=
    foldl_add_vertex_keys_nodup vs ⟨[]⟩ (by simp [DiGraph.keys])
  by_cases hlen : vs.length > 1
  · have hall : ∀ p ∈ dagPairs vs,
        (vs.foldl DiGraph.add_vertex ⟨[]⟩).has_vertex p.1 = true ∧
        (vs.foldl DiGraph.add_vertex ⟨[]⟩).has_vertex p.2 = true := by
      intro p hp
      obtain ⟨i, j, hi, hj, hij, ha, hb⟩ :=
        mem_dagPairs.mp (show (p.1, p.2) ∈ dagPairs vs by simpa using hp)
      constructor <;> rw [hg0hv]
      · rw [← ha]; simp [List.getElem_mem]
      · rw [← hb]; simp [List.getElem_mem]
    rcases DiGraph.addEdges_spec (dagPairs vs) _ hall with ⟨gd, hok, hhv, hkeys, hmem, hnd⟩
    refine ⟨gd, ?_, ?_, ?_⟩
    · unfold dag
      rw [if_pos hlen]
      exact hok
    · intro i j hi hj hij
      unfold DiGraph.has_edge
      have h1 : gd.has_vertex vs[i] = true := by
        rw [hhv, hg0hv]; simp [List.getElem_mem]
      have h2 : gd.has_vertex vs[j] = true := by
        rw [hhv, hg0hv]; simp [List.getElem_mem]
      rw [if_neg (by simp [h1]), if_neg (by simp [h2])]
      have hm : vs[j] ∈ gd.adjList vs[i] :=
        (hmem _ _).mpr (Or.inr (mem_dagPairs.mpr ⟨i, j, hi, hj, hij, rfl, rfl⟩))
      exact congrArg Except.ok (List.elem_iff.mpr hm)
    · intro hnodup
      unfold DiGraph.has_self_loops
      rw [← Bool.not_eq_true, List.any_eq_true]
      rintro ⟨p, hp, hcontains⟩
      have hkeysnd : gd.keys.Nodup := by rw [hkeys]; exact hg0nd
      have hadj := DiGraph.adjList_of_mem_nodup hkeysnd hp
      have hm : p.1 ∈ p.2 := List.elem_iff.mp hcontains
      rw [← hadj] at hm
      rcases (hmem p.1 p.1).mp hm with h | h
      · rw [hg0adj] at h; cases h
      · obtain ⟨i, j, hi, hj, hij, ha, hb⟩ := mem_dagPairs.mp h
        have := (List.Nodup.getElem_inj_iff hnodup).mp (ha.trans hb.symm)
        omega
  · refine ⟨vs.foldl DiGraph.add_vertex ⟨[]⟩, ?_, ?_, ?_⟩
    · unfold dag
      rw [if_neg hlen]
    · intro i j hi hj hij
      omega
    · intro _
      unfold DiGraph.has_self_loops
      rw [← Bool.not_eq_true, List.any_eq_true]
      rintro ⟨p, hp, hcontains⟩
      have hadj := DiGraph.adjList_of_mem_nodup hg0nd hp
      rw [hg0adj] at hadj
      rw [← hadj] at hcontains
      cases hcontains

/-- **C9, witness.**  Instantiation of `C9_dag_amended` on the list
`[0, 1, 2]`. -/
theorem C9_witness :
    ∃ gd, dag ([0, 1, 2] : List Nat) = Except.ok gd ∧
      (∀ i j (_ : i < ([0, 1, 2] : List Nat).length)
         (_ : j < ([0, 1, 2] : List Nat).length), i < j →
        gd.has_edge ([0, 1, 2] : List Nat)[i] ([0, 1, 2] : List Nat)[j] = Except.ok true) ∧
      (([0, 1, 2] : List Nat).Nodup → gd.has_self_loops = false) :=
  C9_dag_amended [0, 1, 2]

/-! ## Claim C6: `reverse` is an involution -/

theorem DiGraph.reversePairs_mem {g : DiGraph V} {a b : V} (hnd : g.keys.Nodup) :
    (a, b) ∈ g.reversePairs ↔ a ∈ g.adjList b := by
  unfold DiGraph.reversePairs
  rw [List.mem_flatten]
  constructor
  · rintro ⟨l, hl, hab⟩
    rcases List.mem_map.mp hl with ⟨p, hp, rfl⟩
    rcases List.mem_map.mp hab with ⟨t, ht, heq⟩
    obtain ⟨rfl, rfl⟩ := Prod.mk.injEq _ _ _ _ |>.mp heq
    rw [DiGraph.adjList_of_mem_nodup hnd hp]
    exact ht
  · intro hab
    rcases DiGraph.mem_adjList_exists hab with ⟨p, hp, hfst, hmem⟩
    refine ⟨p.2.map (fun t => (t, p.1)), List.mem_map_of_mem _ hp, ?_⟩
    rw [List.mem_map]
    exact ⟨a, hmem, by rw [hfst]⟩

theorem DiGraph.reverse_spec {g : DiGraph V} (hWF : g.WF) :
    ∃ g1, g.reverse = Except.ok g1 ∧
      (∀ x, g1.has_vertex x = g.has_vertex x) ∧
      g1.keys = g.keys ∧
      (∀ a b, b ∈ g1.adjList a ↔ a ∈ g.adjList b) ∧
      g1.WF := by
  have hclear_hv : ∀ x, DiGraph.has_vertex (V := V) ⟨g._edges.map (fun p => (p.1, []))⟩ x
      = g.has_vertex x := by
    intro x
    unfold DiGraph.has_vertex
    rw [DiGraph.entry?_map_keypres g (fun p => (p.1, [])) (fun p => rfl) x]
    cases g.entry? x <;> rfl
  have hclear_keys : DiGraph.keys (V := V) ⟨g._edges.map (fun p => (p.1, []))⟩ = g.keys := by
    unfold DiGraph.keys
    rw [List.map_map]
    rfl
  have hclear_adj : ∀ x, DiGraph.adjList (V := V) ⟨g._edges.map (fun p => (p.1, []))⟩ x = [] := by
    intro x
    unfold DiGraph.adjList
    rw [DiGraph.entry?_map_keypres g (fun p => (p.1, [])) (fun p => rfl) x]
    cases g.entry? x <;> rfl
  have hall : ∀ p ∈ g.reversePairs,
      DiGraph.has_vertex (V := V) ⟨g._edges.map (fun p => (p.1, []))⟩ p.1 = true ∧
      DiGraph.has_vertex (V := V) ⟨g._edges.map (fun p => (p.1, []))⟩ p.2 = true := by
    intro p hp
    have hab : (p.1, p.2) ∈ g.reversePairs := by simpa using hp
    have hmem := (DiGraph.reversePairs_mem hWF.1).mp hab
    rw [hclear_hv, hclear_hv]
    exact ⟨DiGraph.WF_adjList_has_vertex hWF hmem, DiGraph.mem_adjList_has_vertex hmem⟩
  rcases DiGraph.addEdges_spec g.reversePairs _ hall with ⟨g1, hok, hhv, hkeys, hmem, hnodup⟩
  have hkeys1 : g1.keys = g.keys := by rw [hkeys, hclear_keys]
  have hmem1 : ∀ a b, b ∈ g1.adjList a ↔ a ∈ g.adjList b := by
    intro a b
    rw [hmem a b, hclear_adj]
    simp only [List.not_mem_nil, false_or]
    exact DiGraph.reversePairs_mem hWF.1
  refine ⟨g1, hok, fun x => by rw [hhv x, hclear_hv], hkeys1, hmem1, ?_⟩
  have hnd1 : g1.keys.Nodup := by rw [hkeys1]; exact hWF.1
  refine ⟨hnd1, ?_⟩
  intro p hp
  have hadj : g1.adjList p.1 = p.2 := DiGraph.adjList_of_mem_nodup hnd1 hp
  constructor
  · intro w hw
    rw [← hadj] at hw
    have := (hmem1 p.1 w).mp hw
    rw [hhv w, hclear_hv]
    exact DiGraph.mem_adjList_has_vertex this
  · rw [← hadj]
    exact hnodup p.1 (by rw [hclear_adj]; exact List.nodup_nil)

/-- **C6.**  `reverse` is an involution on well-formed graphs: a single
`reverse` succeeds and replaces every edge `(u, w)` by `(w, u)` (computed from
a snapshot of the original edge set), and reversing twice yields a graph that
is equal to the original under the insertion-order-insensitive `__eq__`. -/
theorem C6_reverse_involution (g : DiGraph Nat) (hWF : g.WF) :
    ∃ g1 g2, g.reverse = Except.ok g1 ∧ g1.reverse = Except.ok g2 ∧
      (∀ u w, u ∈ g1.adjList w ↔ w ∈ g.adjList u) ∧
      g.eqG g2 = true := by
  rcases DiGraph.reverse_spec hWF with ⟨g1, hok1, hhv1, hkeys1, hmem1, hWF1⟩
  rcases DiGraph.reverse_spec hWF1 with ⟨g2, hok2, hhv2, hkeys2, hmem2, hWF2⟩
  refine ⟨g1, g2, hok1, hok2, fun u w => hmem1 w u, ?_⟩
  rw [C7_eq_set_characterisation g g2 hWF.1]
  constructor
  · intro v
    rw [hhv2, hhv1]
  · intro v w
    rw [← hmem1 w v, ← hmem2 v w]

/-- **C6, witness.**  Instantiation of `C6_reverse_involution` on the graph
`0 → 1` (with vertices `0`, `1`). -/
theorem C6_witness :
    ∃ g1 g2, (⟨[(0, [1]), (1, [])]⟩ : DiGraph Nat).reverse = Except.ok g1 ∧
      g1.reverse = Except.ok g2 ∧
      (∀ u w, u ∈ g1.adjList w ↔ w ∈ (⟨[(0, [1]), (1, [])]⟩ : DiGraph Nat).adjList u) ∧
      (⟨[(0, [1]), (1, [])]⟩ : DiGraph Nat).eqG g2 = true :=
  C6_reverse_involution ⟨[(0, [1]), (1, [])]⟩ (by decide)

/-! ## Claim C8: BFS parent and finish-time invariants -/

theorem bfsInner_spec (source vertex : V) :
    ∀ (ns : List V) (vis : Visit V) (q : List V),
      (vertex = source ∨ (vis.getLog vertex).parent ≠ none) →
      (∀ v, ((DiGraph.bfsInner source vertex ns vis q).1.getLog v).finish_time
          = (vis.getLog v).finish_time) ∧
      (∀ v, ((DiGraph.bfsInner source vertex ns vis q).1.getLog v).discovery_time
          = (vis.getLog v).discovery_time) ∧
      (∀ v p, (vis.getLog v).parent = some p →
        ((DiGraph.bfsInner source vertex ns vis q).1.getLog v).parent = some p) ∧
      (∀ v p, ((DiGraph.bfsInner source vertex ns vis q).1.getLog v).parent = some p →
        (vis.getLog v).parent = some p ∨
          (p = vertex ∧ v ∈ ns ∧ v ≠ source ∧ v ≠ vertex)) ∧
      ((DiGraph.bfsInner source vertex ns vis q).2 = q ++ ns) ∧
      (∀ n ∈ ns, n = source ∨
        ((DiGraph.bfsInner source vertex ns vis q).1.getLog n).parent ≠ none) := by
  intro ns
  induction ns with
  | nil =>
    intro vis q _
    exact ⟨fun v => rfl, fun v => rfl, fun v p h => h, fun v p h => Or.inl h,
      by simp [DiGraph.bfsInner], fun n hn => absurd hn (List.not_mem_nil n)⟩
  | cons n rest ih =>
    intro vis q hvertex
    show _ ∧ _ ∧ _ ∧ _ ∧ (DiGraph.bfsInner source vertex (n :: rest) vis q).2 = _ ∧ _
    unfold DiGraph.bfsInner
    simp only []
    by_cases hguard : ((vis.ensure n).getLog n).parent = none ∧ ¬ n = source
    · rw [if_pos hguard]
      set vis2 := (vis.ensure n).setParent n vertex with hvis2
      have hget2 : ∀ w, vis2.getLog w =
          if w = n then { vis.getLog n with parent := some vertex } else vis.getLog w := by
        intro w
        rw [hvis2, Visit.getLog_setParent, Visit.getLog_ensure, Visit.getLog_ensure]
      have hvertex2 : vertex = source ∨ (vis2.getLog vertex).parent ≠ none := by
        rcases hvertex with h | h
        · exact Or.inl h
        · refine Or.inr ?_
          rw [hget2]
          by_cases hv : vertex = n
          · simp [hv]
          · simp only [hv, if_neg]
            exact h
      rcases ih vis2 (q ++ [n]) hvertex2 with ⟨hfin, hdisc, hmono, hnew, hq, hns⟩
      have hnv : n ≠ vertex := by
        intro hnveq
        rcases hvertex with h | h
        · exact hguard.2 (hnveq.trans h)
        · rw [Visit.getLog_ensure] at hguard
          rw [hnveq] at hguard
          exact h hguard.1
      refine ⟨?_, ?_, ?_, ?_, ?_, ?_⟩
      · intro v
        rw [hfin v, hget2 v]
        by_cases hv : v = n <;> simp [hv]
      · intro v
        rw [hdisc v, hget2 v]
        by_cases hv : v = n <;> simp [hv]
      · intro v p hp
        apply hmono
        rw [hget2 v]
        by_cases hv : v = n
        · subst hv
          rw [Visit.getLog_ensure] at hguard
          rw [hguard.1] at hp
          cases hp
        · rw [if_neg hv]
          exact hp
      · intro v p hp
        rcases hnew v p hp with h | ⟨rfl, hvrest, hvs, hvv⟩
        · rw [hget2 v] at h
          by_cases hv : v = n
          · rw [if_pos hv] at h
            simp only [Option.some.injEq] at h
            refine Or.inr ⟨h.symm, ?_, ?_, ?_⟩
            · rw [hv]; exact List.mem_cons_self n rest
            · rw [hv]; exact hguard.2
            · rw [hv]; exact hnv
          · rw [if_neg hv] at h
            exact Or.inl h
        · exact Or.inr ⟨rfl, List.mem_cons_of_mem n hvrest, hvs, hvv⟩
      · rw [hq]
        simp
      · intro m hm
        rcases List.mem_cons.mp hm with rfl | hm2
        · by_cases hms : m = source
          · exact Or.inl hms
          · refine Or.inr ?_
            have := hmono m vertex (by rw [hget2 m]; simp)
            rw [this]
            exact fun h => by cases h
        · exact hns m hm2
    · rw [if_neg hguard]
      have hvertex1 : vertex = source ∨ ((vis.ensure n).getLog vertex).parent ≠ none := by
        rw [Visit.getLog_ensure]; exact hvertex
      rcases ih (vis.ensure n) (q ++ [n]) hvertex1 with ⟨hfin, hdisc, hmono, hnew, hq, hns⟩
      have hens : ∀ w, (vis.ensure n).getLog w = vis.getLog w := fun w => Visit.getLog_ensure vis n w
      refine ⟨?_, ?_, ?_, ?_, ?_, ?_⟩
      · intro v; rw [hfin v, hens v]
      · intro v; rw [hdisc v, hens v]
      · intro v p hp
        apply hmono
        rw [hens v]
        exact hp
      · intro v p hp
        rcases hnew v p hp with h | ⟨rfl, hvrest, hvs, hvv⟩
        · rw [hens v] at h
          exact Or.inl h
        · exact Or.inr ⟨rfl, List.mem_cons_of_mem n hvrest, hvs, hvv⟩
      · rw [hq]; simp
      · intro m hm
        rcases List.mem_cons.mp hm with rfl | hm2
        · rw [not_and_or] at hguard
          rcases hguard with h | h
          · refine Or.inr ?_
            rw [hens m] at h
            rcases Option.ne_none_iff_exists'.mp h with ⟨p, hp⟩
            have := hmono m p (by rw [hens m]; exact hp)
            rw [this]
            exact fun h2 => by cases h2
          · exact Or.inl (by simpa using h)
        · exact hns m hm2

theorem bfsLoop_spec (g : DiGraph V) (source : V) :
    ∀ (fuel : Nat) (vis : Visit V) (q : List V),
      (∀ v ∈ q, v = source ∨ (vis.getLog v).parent ≠ none) →
      (∀ v, ((g.bfsLoop source fuel vis q).1.getLog v).finish_time
          = (vis.getLog v).finish_time) ∧
      (∀ v p, (vis.getLog v).parent = some p →
        ((g.bfsLoop source fuel vis q).1.getLog v).parent = some p) ∧
      (∀ v p, ((g.bfsLoop source fuel vis q).1.getLog v).parent = some p →
        (vis.getLog v).parent = some p ∨
          (v ∈ g.adjList p ∧ v ≠ source ∧ v ≠ p)) := by
  intro fuel
  induction fuel with
  | zero =>
    intro vis q _
    exact ⟨fun v => rfl, fun v p h => h, fun v p h => Or.inl h⟩
  | succ fuel ih =>
    intro vis q hq
    match q with
    | [] =>
      exact ⟨fun v => rfl, fun v p h => h, fun v p h => Or.inl h⟩
    | vertex :: rest =>
      show (∀ v, ((g.bfsLoop source (fuel + 1) vis (vertex :: rest)).1.getLog v).finish_time
          = (vis.getLog v).finish_time) ∧ _ ∧ _
      unfold DiGraph.bfsLoop
      by_cases hd : vis.is_discovered vertex = true
      · rw [if_pos hd]
        exact ih vis rest (fun v hv => hq v (List.mem_cons_of_mem vertex hv))
      · rw [if_neg hd]
        cases hadj : g.adj vertex with
        | error e =>
          simp only []
          have hset : ∀ w, ((vis.setDisc vertex (vis.last_time + 1)).getLog w).finish_time
              = (vis.getLog w).finish_time ∧
              ((vis.setDisc vertex (vis.last_time + 1)).getLog w).parent
              = (vis.getLog w).parent := by
            intro w
            rw [Visit.getLog_setDisc]
            by_cases hw : w = vertex <;> simp [hw]
          exact ⟨fun v => (hset v).1, fun v p h => by rw [(hset v).2]; exact h,
            fun v p h => Or.inl (by rw [← (hset v).2]; exact h)⟩
        | ok neighbors =>
          simp only []
          set vis1 := vis.setDisc vertex (vis.last_time + 1) with hvis1
          have hset : ∀ w, (vis1.getLog w).finish_time = (vis.getLog w).finish_time ∧
              (vis1.getLog w).parent = (vis.getLog w).parent := by
            intro w
            rw [hvis1, Visit.getLog_setDisc]
            by_cases hw : w = vertex <;> simp [hw]
          have hvertex : vertex = source ∨ (vis1.getLog vertex).parent ≠ none := by
            rcases hq vertex (List.mem_cons_self vertex rest) with h | h
            · exact Or.inl h
            · exact Or.inr (by rw [(hset vertex).2]; exact h)
          rcases bfsInner_spec source vertex neighbors vis1 rest hvertex with
            ⟨hfin, hdisc, hmono, hnew, hq2, hns⟩
          have hneigh : neighbors = g.adjList vertex := by
            unfold DiGraph.adj at hadj
            by_cases hv : g.has_vertex vertex = true
            · rw [if_pos hv] at hadj
              injection hadj with h2
              exact h2.symm
            · rw [if_neg hv] at hadj
              cases hadj
          have hqinv : ∀ v ∈ (DiGraph.bfsInner source vertex neighbors vis1 rest).2,
              v = source ∨
                (((DiGraph.bfsInner source vertex neighbors vis1 rest).1).getLog v).parent
                  ≠ none := by
            intro v hv
            rw [hq2] at hv
            rcases List.mem_append.mp hv with hv | hv
            · rcases hq v (List.mem_cons_of_mem vertex hv) with h | h
              · exact Or.inl h
              · refine Or.inr ?_
                rcases Option.ne_none_iff_exists'.mp (by rw [(hset v).2]; exact h :
                    (vis1.getLog v).parent ≠ none) with ⟨p, hp⟩
                rw [hmono v p hp]
                exact fun h2 => by cases h2
            · exact hns v hv
          rcases ih (DiGraph.bfsInner source vertex neighbors vis1 rest).1
            (DiGraph.bfsInner source vertex neighbors vis1 rest).2 hqinv with
            ⟨hfin2, hmono2, hnew2⟩
          refine ⟨?_, ?_, ?_⟩
          · intro v
            rw [hfin2 v, hfin v, (hset v).1]
          · intro v p hp
            apply hmono2
            apply hmono
            rw [(hset v).2]
            exact hp
          · intro v p hp
            rcases hnew2 v p hp with h | h
            · rcases hnew v p h with h2 | ⟨rfl, hvn, hvs, hvv⟩
              · rw [(hset v).2] at h2
                exact Or.inl h2
              · exact Or.inr ⟨by rw [← hneigh]; exact hvn, hvs, hvv⟩
            · exact Or.inr h

theorem bfsInner_parent_mono (source vertex : V) :
    ∀ (ns : List V) (vis : Visit V) (q : List V) (v p : V),
      (vis.getLog v).parent = some p →
      ((DiGraph.bfsInner source vertex ns vis q).1.getLog v).parent = some p := by
  intro ns
  induction ns with
  | nil => intro vis q v p hp; exact hp
  | cons n rest ih =>
    intro vis q v p hp
    show ((DiGraph.bfsInner source vertex (n :: rest) vis q).1.getLog v).parent = some p
    unfold DiGraph.bfsInner
    simp only []
    by_cases hguard : ((vis.ensure n).getLog n).parent = none ∧ ¬ n = source
    · rw [if_pos hguard]
      apply ih
      rw [Visit.getLog_setParent]
      simp only [Visit.getLog_ensure]
      by_cases hv : v = n
      · rw [Visit.getLog_ensure] at hguard
        rw [hv, hguard.1] at hp
        cases hp
      · rw [if_neg hv]
        exact hp
    · rw [if_neg hguard]
      apply ih
      rw [Visit.getLog_ensure]
      exact hp

theorem bfsLoop_parent_mono (g : DiGraph V) (source : V) :
    ∀ (fuel : Nat) (vis : Visit V) (q : List V) (v p : V),
      (vis.getLog v).parent = some p →
      ((g.bfsLoop source fuel vis q).1.getLog v).parent = some p := by
  intro fuel
  induction fuel with
  | zero => intro vis q v p hp; exact hp
  | succ fuel ih =>
    intro vis q v p hp
    match q with
    | [] => exact hp
    | vertex :: rest =>
      show ((g.bfsLoop source (fuel + 1) vis (vertex :: rest)).1.getLog v).parent = some p
      unfold DiGraph.bfsLoop
      by_cases hd : vis.is_discovered vertex = true
      · rw [if_pos hd]
        exact ih vis rest v p hp
      · rw [if_neg hd]
        have hp1 : ((vis.setDisc vertex (vis.last_time + 1)).getLog v).parent = some p := by
          rw [Visit.getLog_setDisc]
          by_cases hv : v = vertex
          · rw [if_pos hv]
            show (vis.getLog vertex).parent = some p
            rw [← hv]
            exact hp
          · rw [if_neg hv]
            exact hp
        cases hadj : g.adj vertex with
        | error e => exact hp1
        | ok neighbors =>
          simp only []
          exact ih _ _ v p (bfsInner_parent_mono source vertex neighbors _ rest v p hp1)

/-- **C8.**  During any single `bfs(source)` run: a vertex's parent, once set,
is never overwritten (first writer wins, stated for every intermediate state
of the queue loop); every parent link recorded in the returned visit goes to a
vertex `p` with an edge `p → v`, with `v` neither the source nor `p` itself;
the source's parent remains `None`; and no `finish_time` is ever set (every
vertex's finish time is still the `-1` sentinel in the returned visit). -/
theorem C8_bfs_invariants (g : DiGraph Nat) (source : Nat) :
    (∀ fuel vis q v p, (Visit.getLog vis v).parent = some p →
      (((g.bfsLoop source fuel vis q).1).getLog v).parent = some p) ∧
    (∀ v, (((g.bfs source).1).getLog v).finish_time = -1) ∧
    (((g.bfs source).1).getLog source).parent = none ∧
    (∀ v p, (((g.bfs source).1).getLog v).parent = some p →
      v ∈ g.adjList p ∧ v ≠ source ∧ v ≠ p) := by
  refine ⟨fun fuel vis q v p hp => bfsLoop_parent_mono g source fuel vis q v p hp, ?_⟩
  unfold DiGraph.bfs
  by_cases he : g.is_empty = true
  · rw [if_pos he]
    exact ⟨fun v => rfl, rfl, fun v p hp => by cases hp⟩
  · rw [if_neg he]
    by_cases hsv : g.has_vertex source = true
    · rw [if_neg (by simp [hsv])]
      have hqinv : ∀ u ∈ [source], u = source ∨
          ((Visit.getLog (⟨[]⟩ : Visit Nat) u).parent ≠ none) := by
        intro u hu
        exact Or.inl (List.mem_singleton.mp hu)
      rcases bfsLoop_spec g source g.bfsFuel ⟨[]⟩ [source] hqinv with ⟨hfin, _, hnew⟩
      have hfresh : ∀ v : Nat, Visit.getLog (⟨[]⟩ : Visit Nat) v = VertexLog.init v :=
        fun v => rfl
      have hnew2 : ∀ v p,
          (((g.bfsLoop source g.bfsFuel ⟨[]⟩ [source]).1).getLog v).parent = some p →
          v ∈ g.adjList p ∧ v ≠ source ∧ v ≠ p := by
        intro v p hp
        rcases hnew v p hp with h | h
        · rw [hfresh v] at h
          cases h
        · exact h
      refine ⟨?_, ?_, hnew2⟩
      · intro v
        rw [hfin v, hfresh v]
        rfl
      · cases hps : (((g.bfsLoop source g.bfsFuel ⟨[]⟩ [source]).1).getLog source).parent with
        | none => rfl
        | some p => exact absurd rfl (hnew2 source p hps).2.1
    · rw [if_pos (by simp [hsv])]
      exact ⟨fun v => rfl, rfl, fun v p hp => by cases hp⟩

/-- **C8, witness.**  Instantiation of `C8_bfs_invariants` on the graph
`0 → 1` with source `0`. -/
theorem C8_witness :
    (∀ fuel vis q v p, (Visit.getLog vis v).parent = some p →
      ((((⟨[(0, [1]), (1, [])]⟩ : DiGraph Nat).bfsLoop 0 fuel vis q).1).getLog v).parent
        = some p) ∧
    (∀ v, ((((⟨[(0, [1]), (1, [])]⟩ : DiGraph Nat).bfs 0).1).getLog v).finish_time = -1) ∧
    ((((⟨[(0, [1]), (1, [])]⟩ : DiGraph Nat).bfs 0).1).getLog 0).parent = none ∧
    (∀ v p, ((((⟨[(0, [1]), (1, [])]⟩ : DiGraph Nat).bfs 0).1).getLog v).parent = some p →
      v ∈ (⟨[(0, [1]), (1, [])]⟩ : DiGraph Nat).adjList p ∧ v ≠ 0 ∧ v ≠ p) :=
  C8_bfs_invariants ⟨[(0, [1]), (1, [])]⟩ 0

/-! ## Claim C10: `dfs` on an unregistered source mutates the visit before raising -/

/-- **C10.**  Calling `dfs(source)` on a non-empty graph with an unregistered
source raises the not-found error from the adjacency lookup, but only after
creating a `VertexLog` for the source in the caller-supplied visit and setting
its discovery time, so the visit passed in is left modified on failure. -/
theorem C10_dfs_error_not_atomic (g : DiGraph Nat) (vis : Visit Nat) (s : Nat)
    (hne : g.is_empty = false) (hs : g.has_vertex s = false) :
    g.dfs s (some vis) =
      ((vis.ensure s).setDisc s (vis.last_time + 1), some "Couldn't find a vertex ") ∧
    ((g.dfs s (some vis)).1.find? s).isSome = true ∧
    (g.dfs s (some vis)).1.is_discovered s = true ∧
    (g.dfs s (some vis)).1 ≠ vis := by
  have hmain : g.dfs s (some vis) =
      ((vis.ensure s).setDisc s (vis.last_time + 1), some "Couldn't find a vertex ") := by
    unfold DiGraph.dfs
    rw [if_neg (by simp [hne])]
    show g.dfsF (g.keys.length + 1) s vis = _
    rw [DiGraph.dfsF]
    have hlast : (vis.ensure s).last_time = vis.last_time := vis.last_time_ensure s
    have hadj : g.adj s = Except.error "Couldn't find a vertex " := by
      unfold DiGraph.adj
      rw [if_neg (by simp [hs])]
    rw [hadj]
  have hdisc : ((vis.ensure s).setDisc s (vis.last_time + 1)).is_discovered s = true := by
    rw [Visit.is_discovered_iff, Visit.getLog_setDisc, if_pos rfl]
    have := vis.last_time_nonneg
    simp only []
    omega
  refine ⟨hmain, ?_, ?_, ?_⟩
  · rw [hmain]
    rw [Visit.is_discovered_iff] at hdisc
    show (Visit.find? _ s).isSome = true
    unfold Visit.getLog at hdisc
    cases h2 : Visit.find? ((vis.ensure s).setDisc s (vis.last_time + 1)) s with
    | some log => rfl
    | none =>
      rw [h2] at hdisc
      simp [VertexLog.init] at hdisc
  · rw [hmain]
    exact hdisc
  · rw [hmain]
    intro hcontra
    have hcontra2 : ((vis.ensure s).setDisc s (vis.last_time + 1)) = vis := hcontra
    have h1 : (((vis.ensure s).setDisc s (vis.last_time + 1)).getLog s).discovery_time
        = vis.last_time + 1 := by
      rw [Visit.getLog_setDisc, if_pos rfl]
    have h2 := vis.getLog_disc_le_last_time s
    rw [hcontra2] at h1
    omega

/-- **C10, witness.**  Instantiation of `C10_dfs_error_not_atomic` on the
one-vertex graph `0` with unregistered source `5` and an empty caller-supplied
visit. -/
theorem C10_witness :
    (⟨[(0, [])]⟩ : DiGraph Nat).dfs 5 (some ⟨[]⟩) =
      (((⟨[]⟩ : Visit Nat).ensure 5).setDisc 5 ((⟨[]⟩ : Visit Nat).last_time + 1),
        some "Couldn't find a vertex ") ∧
    (((⟨[(0, [])]⟩ : DiGraph Nat).dfs 5 (some ⟨[]⟩)).1.find? 5).isSome = true ∧
    ((⟨[(0, [])]⟩ : DiGraph Nat).dfs 5 (some ⟨[]⟩)).1.is_discovered 5 = true ∧
    ((⟨[(0, [])]⟩ : DiGraph Nat).dfs 5 (some ⟨[]⟩)).1 ≠ (⟨[]⟩ : Visit Nat) :=
  C10_dfs_error_not_atomic ⟨[(0, [])]⟩ ⟨[]⟩ 5 (by rfl) (by rfl)

/-! ## DFS timestamp machinery (claims C2 and C3)

The logical-clock invariant: the non-sentinel discovery and finish times
stored in a visit are exactly the integers `1, ..., last_time`, each occurring
exactly once.  Every timestamp the code assigns is `last_time() + 1`, so this
invariant is preserved by each assignment; it expresses that the timestamps
are globally unique and, read in assignment order, strictly increasing from 1. -/

/-- How many logs carry `t` as their discovery or finish time. -/
def Visit.timeCount (vis : Visit V) (t : Int) : Nat :=
  vis._logs.countP (fun log => log.discovery_time == t)
    + vis._logs.countP (fun log => log.finish_time == t)

/-- The visit's log dictionary has one log per vertex (true by construction,
since logs are only created by `Visit.log`). -/
def Visit.WFlogs (vis : Visit V) : Prop :=
  (vis._logs.map (fun log => log.vertex)).Nodup

/-- The clock invariant: every time in `1..last_time` is carried by exactly
one timestamp field, and nothing else (besides the `-1` sentinels) occurs. -/
def Visit.Clocked (vis : Visit V) : Prop :=
  ∀ t : Int, t ≠ -1 →
    vis.timeCount t = if 1 ≤ t ∧ t ≤ vis.last_time then 1 else 0

/-- A finish time is only ever set on an already-discovered vertex. -/
def Visit.NoFin (vis : Visit V) : Prop :=
  ∀ v : V, (vis.getLog v).finish_time ≠ -1 → (vis.getLog v).discovery_time ≠ -1

/-- The three visit invariants maintained by the traversals. -/
def Visit.Good (vis : Visit V) : Prop := vis.WFlogs ∧ vis.Clocked ∧ vis.NoFin

theorem Visit.WFlogs_ensure {vis : Visit V} (h : vis.WFlogs) (v : V) :
    (vis.ensure v).WFlogs := by
  unfold Visit.ensure
  cases h2 : vis.find? v with
  | some log => exact h
  | none =>
    unfold Visit.WFlogs at h ⊢
    rw [List.map_append, List.nodup_append]
    refine ⟨h, by simp, ?_⟩
    intro x hx hx2
    simp only [List.map_cons, List.map_nil, List.mem_singleton, VertexLog.init] at hx2
    subst hx2
    rcases List.mem_map.mp hx with ⟨log, hlog, hlogv⟩
    unfold Visit.find? at h2
    rw [List.find?_eq_none] at h2
    exact h2 log hlog (by simp [hlogv])

theorem Visit.WFlogs_modify {vis : Visit V} (h : vis.WFlogs) (v : V)
    (f : VertexLog V → VertexLog V) (hf : ∀ log, (f log).vertex = log.vertex) :
    (vis.modify v f).WFlogs := by
  unfold Visit.modify Visit.WFlogs
  rw [List.map_map]
  have : ((fun log : VertexLog V => log.vertex) ∘
      (fun log => if log.vertex == v then f log else log)) = fun log : VertexLog V => log.vertex := by
    funext log
    by_cases hl : log.vertex = v <;> simp [hl, hf]
  rw [this]
  exact Visit.WFlogs_ensure h v

theorem countP_split {α : Type} (l : List α) (key p q : α → Bool) :
    l.countP (fun a => if key a then p a else q a)
      = (l.filter key).countP p + (l.filter (fun a => ! key a)).countP q := by
  induction l with
  | nil => rfl
  | cons a l ih =>
    by_cases hk : key a = true
    · rw [List.filter_cons_of_pos hk, List.filter_cons_of_neg (by simp [hk])]
      by_cases hp : p a = true
      · rw [List.countP_cons_of_pos _ _ (by simp [hk, hp]), List.countP_cons_of_pos _ _ hp, ih]
        omega
      · rw [List.countP_cons_of_neg _ _ (by simp [hk, hp]), List.countP_cons_of_neg _ _ hp, ih]
    · rw [List.filter_cons_of_neg (by simp [hk]), List.filter_cons_of_pos (by simp [hk])]
      by_cases hq : q a = true
      · rw [List.countP_cons_of_pos _ _ (by simp [hk, hq]), List.countP_cons_of_pos _ _ hq, ih]
        omega
      · rw [List.countP_cons_of_neg _ _ (by simp [hk, hq]), List.countP_cons_of_neg _ _ hq, ih]

theorem filter_key_singleton_list : ∀ {l : List (VertexLog V)},
    (l.map (fun log => log.vertex)).Nodup →
    ∀ {v : V} {log : VertexLog V}, l.find? (fun log => log.vertex == v) = some log →
    l.filter (fun log => log.vertex == v) = [log] := by
  intro l
  induction l with
  | nil => intro _ v log hfind; cases hfind
  | cons a l ih =>
    intro hWF v log hfind
    by_cases ha : a.vertex = v
    · rw [List.find?_cons_of_pos _ (by simp [ha])] at hfind
      injection hfind with hfind
      rw [List.filter_cons_of_pos (by simp [ha])]
      have hnone : l.filter (fun log => log.vertex == v) = [] := by
        rw [List.filter_eq_nil_iff]
        intro x hx hxv
        rw [List.map_cons, List.nodup_cons] at hWF
        apply hWF.1
        rw [ha, ← show x.vertex = v by simpa using hxv]
        exact List.mem_map_of_mem _ hx
      rw [hnone, hfind]
    · rw [List.find?_cons_of_neg _ (by simp [ha])] at hfind
      rw [List.filter_cons_of_neg (by simp [ha])]
      rw [List.map_cons, List.nodup_cons] at hWF
      exact ih hWF.2 hfind

theorem filter_key_singleton {vis : Visit V} (hWF : vis.WFlogs) (v : V)
    (hfound : (vis.find? v).isSome) :
    vis._logs.filter (fun log => log.vertex == v) = [vis.getLog v] := by
  rcases Option.isSome_iff_exists.mp hfound with ⟨log, hlog⟩
  have hget : vis.getLog v = log := by unfold Visit.getLog; rw [hlog]; rfl
  rw [hget]
  exact filter_key_singleton_list hWF hlog

theorem Visit.timeCount_ensure (vis : Visit V) (v : V) {t : Int} (ht : t ≠ -1) :
    (vis.ensure v).timeCount t = vis.timeCount t := by
  unfold Visit.ensure
  cases h2 : vis.find? v with
  | some log => rfl
  | none =>
    show Visit.timeCount ⟨vis._logs ++ [VertexLog.init v]⟩ t = _
    unfold Visit.timeCount
    rw [List.countP_append, List.countP_append]
    have h3 : List.countP (fun log : VertexLog V => log.discovery_time == t)
        [VertexLog.init v] = 0 := by
      simp [VertexLog.init, List.countP_cons, Ne.symm ht]
    have h4 : List.countP (fun log : VertexLog V => log.finish_time == t)
        [VertexLog.init v] = 0 := by
      simp [VertexLog.init, List.countP_cons, Ne.symm ht]
    rw [h3, h4]
    omega

/-- Exchange formula for `timeCount` under a field update of one vertex. -/
theorem Visit.timeCount_modify {vis : Visit V} (hWF : vis.WFlogs) (v : V)
    (f : VertexLog V → VertexLog V) (hf : ∀ log, (f log).vertex = log.vertex)
    (t : Int) :
    (vis.modify v f).timeCount t
      + ((if (vis.getLog v).discovery_time = t then 1 else 0)
        + (if (vis.getLog v).finish_time = t then 1 else 0))
    = (vis.ensure v).timeCount t
      + ((if (f (vis.getLog v)).discovery_time = t then 1 else 0)
        + (if (f (vis.getLog v)).finish_time = t then 1 else 0)) := by
  have hWFe : (vis.ensure v).WFlogs := Visit.WFlogs_ensure hWF v
  have hfound : ((vis.ensure v).find? v).isSome := by
    rw [Visit.find?_ensure_self]; rfl
  have hsing := filter_key_singleton hWFe v hfound
  have hgete : (vis.ensure v).getLog v = vis.getLog v := Visit.getLog_ensure vis v v
  rw [hgete] at hsing
  unfold Visit.modify Visit.timeCount
  rw [List.countP_map, List.countP_map]
  have hd : ∀ p : VertexLog V → Bool,
      (vis.ensure v)._logs.countP
        ((fun log => p log) ∘ (fun log => if log.vertex == v then f log else log))
      = (if p (f (vis.getLog v)) then 1 else 0)
        + ((vis.ensure v)._logs.filter (fun log => ! (log.vertex == v))).countP p := by
    intro p
    have hsplit : (vis.ensure v)._logs.countP
        (fun log => if (fun log : VertexLog V => log.vertex == v) log
          then (p ∘ f) log else p log)
        = ((vis.ensure v)._logs.filter (fun log => log.vertex == v)).countP (p ∘ f)
          + ((vis.ensure v)._logs.filter
              (fun log => ! (log.vertex == v))).countP p :=
      countP_split _ _ _ _
    have hcongr : ((fun log => p log) ∘ (fun log : VertexLog V =>
        if log.vertex == v then f log else log))
        = (fun log => if (fun log : VertexLog V => log.vertex == v) log
            then (p ∘ f) log else p log) := by
      funext log
      by_cases hl : log.vertex = v <;> simp [hl]
    rw [hcongr, hsplit, hsing]
    by_cases hp : p (f (vis.getLog v)) = true <;> simp [List.countP_cons, hp] <;> omega
  have hbase : ∀ p : VertexLog V → Bool,
      (vis.ensure v)._logs.countP p
      = (if p (vis.getLog v) then 1 else 0)
        + ((vis.ensure v)._logs.filter (fun log => ! (log.vertex == v))).countP p := by
    intro p
    have hsplit : (vis.ensure v)._logs.countP
        (fun log => if (fun log : VertexLog V => log.vertex == v) log then p log else p log)
        = ((vis.ensure v)._logs.filter (fun log => log.vertex == v)).countP p
          + ((vis.ensure v)._logs.filter
              (fun log => ! (log.vertex == v))).countP p :=
      countP_split _ _ _ _
    have hid : (fun log : VertexLog V =>
        if (fun log : VertexLog V => log.vertex == v) log then p log else p log)
        = p := by
      funext a
      by_cases h : (a.vertex == v) = true <;> simp [h]
    rw [hid] at hsplit
    rw [hsplit, hsing]
    by_cases hp : p (vis.getLog v) = true <;> simp [List.countP_cons, hp] <;> omega
  rw [hd (fun log => log.discovery_time == t), hd (fun log => log.finish_time == t),
    hbase (fun log => log.discovery_time == t), hbase (fun log => log.finish_time == t)]
  by_cases h1 : (f (vis.getLog v)).discovery_time = t <;>
    by_cases h2 : (f (vis.getLog v)).finish_time = t <;>
      by_cases h3 : (vis.getLog v).discovery_time = t <;>
        by_cases h4 : (vis.getLog v).finish_time = t <;>
          simp [h1, h2, h3, h4] <;> omega

theorem Visit.timeCount_setDisc {vis : Visit V} (hWF : vis.WFlogs) (v : V)
    (hold : (vis.getLog v).discovery_time = -1) (t0 : Int) {t : Int} (ht : t ≠ -1) :
    (vis.setDisc v t0).timeCount t = vis.timeCount t + (if t0 = t then 1 else 0) := by
  unfold Visit.setDisc
  have h := Visit.timeCount_modify hWF v
    (fun log => { log with discovery_time := t0 }) (fun log => rfl) t
  rw [Visit.timeCount_ensure vis v ht] at h
  simp only [hold] at h
  rw [if_neg (show ¬((-1 : Int) = t) from fun hh => ht hh.symm)] at h
  omega

theorem Visit.timeCount_setFin {vis : Visit V} (hWF : vis.WFlogs) (v : V)
    (hold : (vis.getLog v).finish_time = -1) (t0 : Int) {t : Int} (ht : t ≠ -1) :
    (vis.setFin v t0).timeCount t = vis.timeCount t + (if t0 = t then 1 else 0) := by
  unfold Visit.setFin
  have h := Visit.timeCount_modify hWF v
    (fun log => { log with finish_time := t0 }) (fun log => rfl) t
  rw [Visit.timeCount_ensure vis v ht] at h
  simp only [hold] at h
  rw [if_neg (show ¬((-1 : Int) = t) from fun hh => ht hh.symm)] at h
  omega

theorem Visit.timeCount_setParent {vis : Visit V} (hWF : vis.WFlogs) (v p : V)
    {t : Int} (ht : t ≠ -1) :
    (vis.setParent v p).timeCount t = vis.timeCount t := by
  unfold Visit.setParent
  have h := Visit.timeCount_modify hWF v
    (fun log => { log with parent := some p }) (fun log => rfl) t
  rw [Visit.timeCount_ensure vis v ht] at h
  dsimp only at h
  omega

theorem Visit.timeCount_setDist {vis : Visit V} (hWF : vis.WFlogs) (v : V) (d : Int)
    {t : Int} (ht : t ≠ -1) :
    (vis.setDist v d).timeCount t = vis.timeCount t := by
  unfold Visit.setDist
  have h := Visit.timeCount_modify hWF v
    (fun log => { log with distance := some d }) (fun log => rfl) t
  rw [Visit.timeCount_ensure vis v ht] at h
  dsimp only at h
  omega

theorem Visit.Clocked_setDisc {vis : Visit V} (hWF : vis.WFlogs) (hC : vis.Clocked)
    {v : V} (hold : (vis.getLog v).discovery_time = -1) :
    (vis.setDisc v (vis.last_time + 1)).Clocked := by
  intro t ht
  have h0 := vis.last_time_nonneg
  rw [Visit.timeCount_setDisc hWF v hold _ ht,
      Visit.last_time_setDisc vis v (by omega) (by omega),
      hC t ht]
  split_ifs <;> omega

theorem Visit.Clocked_setFin {vis : Visit V} (hWF : vis.WFlogs) (hC : vis.Clocked)
    {v : V} (hold : (vis.getLog v).finish_time = -1) :
    (vis.setFin v (vis.last_time + 1)).Clocked := by
  intro t ht
  have h0 := vis.last_time_nonneg
  rw [Visit.timeCount_setFin hWF v hold _ ht,
      Visit.last_time_setFin vis v (by omega) (by omega),
      hC t ht]
  split_ifs <;> omega

theorem Visit.Clocked_setParent {vis : Visit V} (hWF : vis.WFlogs) (hC : vis.Clocked)
    (v p : V) : (vis.setParent v p).Clocked := by
  intro t ht
  rw [Visit.timeCount_setParent hWF v p ht, Visit.last_time_setParent, hC t ht]

theorem Visit.Clocked_setDist {vis : Visit V} (hWF : vis.WFlogs) (hC : vis.Clocked)
    (v : V) (d : Int) : (vis.setDist v d).Clocked := by
  intro t ht
  rw [Visit.timeCount_setDist hWF v d ht, Visit.last_time_setDist, hC t ht]

theorem Visit.Good_setParent {vis : Visit V} (hG : vis.Good) (v p : V) :
    (vis.setParent v p).Good := by
  refine ⟨Visit.WFlogs_modify hG.1 v _ (fun log => rfl), Visit.Clocked_setParent hG.1 hG.2.1 v p, ?_⟩
  intro w
  rw [Visit.getLog_setParent]
  by_cases hw : w = v
  · rw [if_pos hw]
    exact fun h => hG.2.2 v h
  · rw [if_neg hw]
    exact hG.2.2 w

theorem Visit.Good_setDisc {vis : Visit V} (hG : vis.Good)
    {v : V} (hold : (vis.getLog v).discovery_time = -1) :
    (vis.setDisc v (vis.last_time + 1)).Good := by
  have h0 := vis.last_time_nonneg
  refine ⟨Visit.WFlogs_modify hG.1 v _ (fun log => rfl), Visit.Clocked_setDisc hG.1 hG.2.1 hold, ?_⟩
  intro w
  rw [Visit.getLog_setDisc]
  by_cases hw : w = v
  · rw [if_pos hw]
    intro _
    show vis.last_time + 1 ≠ -1
    omega
  · rw [if_neg hw]
    exact hG.2.2 w

theorem Visit.Good_setFin {vis : Visit V} (hG : vis.Good)
    {v : V} (hold : (vis.getLog v).finish_time = -1)
    (hdisc : (vis.getLog v).discovery_time ≠ -1) :
    (vis.setFin v (vis.last_time + 1)).Good := by
  refine ⟨Visit.WFlogs_modify hG.1 v _ (fun log => rfl), Visit.Clocked_setFin hG.1 hG.2.1 hold, ?_⟩
  intro w
  rw [Visit.getLog_setFin]
  by_cases hw : w = v
  · rw [if_pos hw]
    exact fun _ => hdisc
  · rw [if_neg hw]
    exact hG.2.2 w

/-! Unfolding equations for the DFS recursion. -/

theorem DiGraph.dfsF_zero (g : DiGraph V) (source : V) (vis : Visit V) :
    g.dfsF 0 source vis = (vis, some "recursion fuel exhausted") := by
  rw [DiGraph.dfsF]

theorem DiGraph.dfsF_succ_err (g : DiGraph V) (fuel : Nat) (source : V) (vis : Visit V)
    {e : String} (hadj : g.adj source = .error e) :
    g.dfsF (fuel + 1) source vis
      = ((vis.ensure source).setDisc source (vis.last_time + 1), some e) := by
  rw [DiGraph.dfsF, hadj]

theorem DiGraph.dfsF_succ_ok_some (g : DiGraph V) (fuel : Nat) (source : V) (vis : Visit V)
    {ns : List V} (hadj : g.adj source = .ok ns) {v2 : Visit V} {e : String}
    (hlist : g.dfsList fuel ns source ((vis.ensure source).setDisc source (vis.last_time + 1))
      = (v2, some e)) :
    g.dfsF (fuel + 1) source vis = (v2, some e) := by
  rw [DiGraph.dfsF, hadj]
  simp only []
  rw [hlist]

theorem DiGraph.dfsF_succ_ok_none (g : DiGraph V) (fuel : Nat) (source : V) (vis : Visit V)
    {ns : List V} (hadj : g.adj source = .ok ns) {v2 : Visit V}
    (hlist : g.dfsList fuel ns source ((vis.ensure source).setDisc source (vis.last_time + 1))
      = (v2, none)) :
    g.dfsF (fuel + 1) source vis = (v2.setFin source (v2.last_time + 1), none) := by
  rw [DiGraph.dfsF, hadj]
  simp only []
  rw [hlist]

theorem DiGraph.dfsList_nil (g : DiGraph V) (fuel : Nat) (src : V) (vis : Visit V) :
    g.dfsList fuel [] src vis = (vis, none) := by
  rw [DiGraph.dfsList]

theorem DiGraph.dfsList_cons_disc (g : DiGraph V) (fuel : Nat) {n : V} (rest : List V)
    (src : V) {vis : Visit V} (hd : vis.is_discovered n = true) :
    g.dfsList fuel (n :: rest) src vis = g.dfsList fuel rest src vis := by
  rw [DiGraph.dfsList, if_pos hd]

theorem DiGraph.dfsList_cons_undisc_some (g : DiGraph V) (fuel : Nat) {n : V}
    (rest : List V) (src : V) {vis : Visit V} (hd : ¬ vis.is_discovered n = true)
    {v2 : Visit V} {e : String}
    (hF : g.dfsF fuel n (vis.setParent n src) = (v2, some e)) :
    g.dfsList fuel (n :: rest) src vis = (v2, some e) := by
  rw [DiGraph.dfsList, if_neg hd]
  rw [hF]

theorem DiGraph.dfsList_cons_undisc_none (g : DiGraph V) (fuel : Nat) {n : V}
    (rest : List V) (src : V) {vis : Visit V} (hd : ¬ vis.is_discovered n = true)
    {v2 : Visit V} (hF : g.dfsF fuel n (vis.setParent n src) = (v2, none)) :
    g.dfsList fuel (n :: rest) src vis = g.dfsList fuel rest src v2 := by
  rw [DiGraph.dfsList, if_neg hd]
  rw [hF]

theorem Visit.Good_fresh : (⟨[]⟩ : Visit V).Good := by
  refine ⟨List.nodup_nil, ?_, ?_⟩
  · intro t ht
    show (0 : Nat) + 0 = if 1 ≤ t ∧ t ≤ Visit.last_time ⟨[]⟩ then 1 else 0
    have : Visit.last_time (⟨[]⟩ : Visit V) = 0 := rfl
    rw [this]
    rw [if_neg (by omega)]
  · intro v h
    exact absurd rfl h

theorem Visit.is_discovered_congr {vis vis' : Visit V} {v : V}
    (h : vis'.getLog v = vis.getLog v) :
    vis'.is_discovered v = vis.is_discovered v := by
  rw [Visit.is_discovered_eq, Visit.is_discovered_eq, h]

theorem Visit.is_discovered_false_iff (vis : Visit V) (v : V) :
    vis.is_discovered v = false ↔ (vis.getLog v).discovery_time = -1 := by
  rw [Visit.is_discovered_eq]
  simp

theorem Visit.is_discovered_setParent (vis : Visit V) (v p w : V) :
    (vis.setParent v p).is_discovered w = vis.is_discovered w := by
  rw [Visit.is_discovered_eq, Visit.is_discovered_eq, Visit.getLog_setParent]
  by_cases hw : w = v
  · rw [if_pos hw, hw]
  · rw [if_neg hw]

theorem Visit.is_discovered_setFin (vis : Visit V) (v : V) (t : Int) (w : V) :
    (vis.setFin v t).is_discovered w = vis.is_discovered w := by
  rw [Visit.is_discovered_eq, Visit.is_discovered_eq, Visit.getLog_setFin]
  by_cases hw : w = v
  · rw [if_pos hw, hw]
  · rw [if_neg hw]

theorem Visit.is_discovered_ensure (vis : Visit V) (v w : V) :
    (vis.ensure v).is_discovered w = vis.is_discovered w :=
  Visit.is_discovered_congr (Visit.getLog_ensure vis v w)

theorem Visit.Clocked_ensure {vis : Visit V} (hC : vis.Clocked) (v : V) :
    (vis.ensure v).Clocked := by
  intro t ht
  rw [Visit.timeCount_ensure vis v ht, Visit.last_time_ensure, hC t ht]

theorem Visit.Good_ensure {vis : Visit V} (hG : vis.Good) (v : V) :
    (vis.ensure v).Good := by
  refine ⟨Visit.WFlogs_ensure hG.1 v, Visit.Clocked_ensure hG.2.1 v, ?_⟩
  intro w
  rw [Visit.getLog_ensure]
  exact hG.2.2 w

/-- Post-condition of a successful `dfsF` call on an undiscovered source:
clock advance, fresh discovery and finish stamps for the source, frame
conditions for already-visited and never-visited vertices, time bounds for
the newly discovered vertices, and parenthesised nesting with respect to
their recorded parents. -/
def DfsFSpec (source : V) (vis vis' : Visit V) : Prop :=
  vis'.Good ∧
  vis.last_time + 2 ≤ vis'.last_time ∧
  (vis'.getLog source).discovery_time = vis.last_time + 1 ∧
  (vis'.getLog source).finish_time = vis'.last_time ∧
  (vis'.getLog source).parent = (vis.getLog source).parent ∧
  (∀ v, vis.is_discovered v = true → vis'.getLog v = vis.getLog v) ∧
  (∀ v, vis'.is_discovered v = false → vis'.getLog v = vis.getLog v) ∧
  (∀ v, vis.is_discovered v = false → vis'.is_discovered v = true →
    vis.last_time < (vis'.getLog v).discovery_time ∧
    (vis'.getLog v).discovery_time < (vis'.getLog v).finish_time ∧
    (vis'.getLog v).finish_time ≤ vis'.last_time) ∧
  (∀ v p, vis.is_discovered v = false → vis'.is_discovered v = true → v ≠ source →
    (vis'.getLog v).parent = some p →
    (vis'.getLog p).discovery_time < (vis'.getLog v).discovery_time ∧
    (vis'.getLog v).finish_time < (vis'.getLog p).finish_time)

/-- Post-condition of a successful `dfsList` (neighbour loop) call. -/
def DfsLSpec (src : V) (vis vis' : Visit V) : Prop :=
  vis'.Good ∧
  vis.last_time ≤ vis'.last_time ∧
  (∀ v, vis.is_discovered v = true → vis'.getLog v = vis.getLog v) ∧
  (∀ v, vis'.is_discovered v = false → vis'.getLog v = vis.getLog v) ∧
  (∀ v, vis.is_discovered v = false → vis'.is_discovered v = true →
    vis.last_time < (vis'.getLog v).discovery_time ∧
    (vis'.getLog v).discovery_time < (vis'.getLog v).finish_time ∧
    (vis'.getLog v).finish_time ≤ vis'.last_time) ∧
  (∀ v p, vis.is_discovered v = false → vis'.is_discovered v = true →
    (vis'.getLog v).parent = some p →
    p = src ∨
    ((vis'.getLog p).discovery_time < (vis'.getLog v).discovery_time ∧
     (vis'.getLog v).finish_time < (vis'.getLog p).finish_time))

theorem dfsList_spec_of_dfsF (g : DiGraph V) (fuel : Nat)
    (hF : ∀ (source : V) (vis vis' : Visit V), vis.Good → vis.is_discovered source = false →
      g.dfsF fuel source vis = (vis', none) → DfsFSpec source vis vis') :
    ∀ (ns : List V) (src : V) (vis vis' : Visit V), vis.Good →
      vis.is_discovered src = true → (vis.getLog src).finish_time = -1 →
      g.dfsList fuel ns src vis = (vis', none) → DfsLSpec src vis vis' := by
  intro ns
  induction ns with
  | nil =>
    intro src vis vis' hG hsrc hfin hrun
    rw [DiGraph.dfsList_nil] at hrun
    injection hrun with h1 h2
    subst h1
    refine ⟨hG, le_refl _, fun v _ => rfl, fun v _ => rfl, ?_, ?_⟩
    · intro v h1 h2
      rw [h1] at h2
      cases h2
    · intro v p h1 h2
      rw [h1] at h2
      cases h2
  | cons n rest ih =>
    intro src vis vis' hG hsrc hfin hrun
    by_cases hd : vis.is_discovered n = true
    · rw [DiGraph.dfsList_cons_disc g fuel rest src hd] at hrun
      exact ih src vis vis' hG hsrc hfin hrun
    · cases hFrun : g.dfsF fuel n (vis.setParent n src) with
      | mk vis_b r =>
        cases r with
        | some e =>
          rw [DiGraph.dfsList_cons_undisc_some g fuel rest src hd hFrun] at hrun
          injection hrun with h1 h2
          cases h2
        | none =>
          rw [DiGraph.dfsList_cons_undisc_none g fuel rest src hd hFrun] at hrun
          have hGa : (vis.setParent n src).Good := Visit.Good_setParent hG n src
          have hdisca : ∀ w, (vis.setParent n src).is_discovered w = vis.is_discovered w :=
            Visit.is_discovered_setParent vis n src
          have hTa : (vis.setParent n src).last_time = vis.last_time :=
            Visit.last_time_setParent vis n src
          have hgeta : ∀ w, w ≠ n → (vis.setParent n src).getLog w = vis.getLog w := by
            intro w hw
            rw [Visit.getLog_setParent, if_neg hw]
          have hgetan : (vis.setParent n src).getLog n
              = { vis.getLog n with parent := some src } := by
            rw [Visit.getLog_setParent, if_pos rfl]
          have hFspec := hF n (vis.setParent n src) vis_b hGa
            (by rw [hdisca]; exact Bool.eq_false_iff.mpr hd) hFrun
          obtain ⟨hGb, hTb, hdiscb_n, hfinb_n, hparb_n, hframeF, hframe2F, hnewF, hnewparF⟩
            := hFspec
          have hns : n ≠ src := fun h => hd (h ▸ hsrc)
          have hsrc_a : (vis.setParent n src).is_discovered src = true := by
            rw [hdisca src]; exact hsrc
          have hframe_src : vis_b.getLog src = (vis.setParent n src).getLog src :=
            hframeF src hsrc_a
          have hsrc_b : vis_b.is_discovered src = true := by
            rw [Visit.is_discovered_congr hframe_src]; exact hsrc_a
          have hfin_src_a : ((vis.setParent n src).getLog src).finish_time = -1 := by
            rw [hgeta src (fun h => hns h.symm)]
            exact hfin
          have hfin_src_b : (vis_b.getLog src).finish_time = -1 := by
            rw [hframe_src]; exact hfin_src_a
          obtain ⟨hG', hT', hframeL, hframe2L, hnewL, hnewparL⟩ :=
            ih src vis_b vis' hGb hsrc_b hfin_src_b hrun
          have hTvb : vis.last_time + 2 ≤ vis_b.last_time := by rw [← hTa]; exact hTb
          have hdn_b : vis_b.is_discovered n = true := by
            rw [Visit.is_discovered_iff, hdiscb_n, hTa]
            have := vis.last_time_nonneg
            omega
          refine ⟨hG', by omega, ?_, ?_, ?_, ?_⟩
          · -- frame for vertices already discovered in vis
            intro v hv
            have hvn : v ≠ n := fun h => hd (h ▸ hv)
            have h1 : (vis.setParent n src).getLog v = vis.getLog v := hgeta v hvn
            have hva : (vis.setParent n src).is_discovered v = true := by
              rw [hdisca]; exact hv
            have h2 : vis_b.getLog v = (vis.setParent n src).getLog v := hframeF v hva
            have hvb : vis_b.is_discovered v = true := by
              rw [Visit.is_discovered_congr h2]; exact hva
            rw [hframeL v hvb, h2, h1]
          · -- frame for vertices never discovered
            intro v hv'
            have hvb : vis_b.is_discovered v = false := by
              cases hb : vis_b.is_discovered v with
              | false => rfl
              | true =>
                have h2 := hframeL v hb
                have h3 := Visit.is_discovered_congr h2
                rw [hv', hb] at h3
                cases h3
            have hva : (vis.setParent n src).is_discovered v = false := by
              cases ha : (vis.setParent n src).is_discovered v with
              | false => rfl
              | true =>
                have h2 := hframeF v ha
                have h3 := Visit.is_discovered_congr h2
                rw [hvb, ha] at h3
                cases h3
            have hvn : v ≠ n := by
              intro h
              rw [h, hdn_b] at hvb
              cases hvb
            rw [hframe2L v hv', hframe2F v hvb, hgeta v hvn]
          · -- time bounds for newly discovered vertices
            intro v hv hv'
            by_cases hb : vis_b.is_discovered v = true
            · have hva : (vis.setParent n src).is_discovered v = false := by
                rw [hdisca]; exact hv
              have hnewv := hnewF v hva hb
              have h2 : vis'.getLog v = vis_b.getLog v := hframeL v hb
              rw [h2]
              refine ⟨?_, hnewv.2.1, le_trans hnewv.2.2 hT'⟩
              rw [← hTa]
              exact hnewv.1
            · have hb' : vis_b.is_discovered v = false := Bool.eq_false_iff.mpr hb
              have hnewv := hnewL v hb' hv'
              exact ⟨by omega, hnewv.2.1, hnewv.2.2⟩
          · -- parent bracketing for newly discovered vertices
            intro v p hv hv' hp
            by_cases hb : vis_b.is_discovered v = true
            · have hva : (vis.setParent n src).is_discovered v = false := by
                rw [hdisca]; exact hv
              have hframe_v : vis'.getLog v = vis_b.getLog v := hframeL v hb
              rw [hframe_v] at hp
              by_cases hvn : v = n
              · left
                rw [hvn] at hp
                rw [hparb_n, hgetan] at hp
                have hps : some src = some p := hp
                injection hps with hps
                exact hps.symm
              · right
                have hbr := hnewparF v p hva hb hvn hp
                have hnewv := hnewF v hva hb
                have hTa0 := (vis.setParent n src).last_time_nonneg
                have hpfin : (vis_b.getLog p).finish_time ≠ -1 := by
                  have h2 := hbr.2
                  have h3 := hnewv.1
                  have h4 := hnewv.2.1
                  omega
                have hpdisc : (vis_b.getLog p).discovery_time ≠ -1 := hGb.2.2 p hpfin
                have hpb : vis_b.is_discovered p = true :=
                  (Visit.is_discovered_iff vis_b p).mpr hpdisc
                have hframe_p : vis'.getLog p = vis_b.getLog p := hframeL p hpb
                rw [hframe_v, hframe_p]
                exact hbr
            · have hb' : vis_b.is_discovered v = false := Bool.eq_false_iff.mpr hb
              exact hnewparL v p hb' hv' hp

theorem dfsF_spec_of_dfsList (g : DiGraph V) (fuel : Nat)
    (hL : ∀ (ns : List V) (src : V) (vis vis' : Visit V), vis.Good →
      vis.is_discovered src = true → (vis.getLog src).finish_time = -1 →
      g.dfsList fuel ns src vis = (vis', none) → DfsLSpec src vis vis') :
    ∀ (source : V) (vis vis' : Visit V), vis.Good → vis.is_discovered source = false →
      g.dfsF (fuel + 1) source vis = (vis', none) → DfsFSpec source vis vis' := by
  intro source vis vis' hG hundisc hrun
  cases hadj : g.adj source with
  | error e =>
    rw [DiGraph.dfsF_succ_err g fuel source vis hadj] at hrun
    injection hrun with h1 h2
    cases h2
  | ok ns =>
    cases hlrun : g.dfsList fuel ns source
        ((vis.ensure source).setDisc source (vis.last_time + 1)) with
    | mk v2 r =>
      cases r with
      | some e =>
        rw [DiGraph.dfsF_succ_ok_some g fuel source vis hadj hlrun] at hrun
        injection hrun with h1 h2
        cases h2
      | none =>
        rw [DiGraph.dfsF_succ_ok_none g fuel source vis hadj hlrun] at hrun
        injection hrun with h1 h2
        subst h1
        have hT0 := vis.last_time_nonneg
        have hdisc0 : (vis.getLog source).discovery_time = -1 :=
          (Visit.is_discovered_false_iff vis source).mp hundisc
        have hfin0 : (vis.getLog source).finish_time = -1 := by
          by_contra h
          exact absurd hdisc0 (hG.2.2 source h)
        have hget1 : ∀ w, ((vis.ensure source).setDisc source (vis.last_time + 1)).getLog w
            = if w = source then { vis.getLog source with discovery_time := vis.last_time + 1 }
              else vis.getLog w := by
          intro w
          rw [Visit.getLog_setDisc]
          by_cases hw : w = source
          · rw [if_pos hw, if_pos hw, Visit.getLog_ensure]
          · rw [if_neg hw, if_neg hw, Visit.getLog_ensure]
        have hT1 : ((vis.ensure source).setDisc source (vis.last_time + 1)).last_time
            = vis.last_time + 1 :=
          Visit.last_time_setDisc (vis.ensure source) source (by omega)
            (by rw [Visit.last_time_ensure]; omega)
        have hG1 : ((vis.ensure source).setDisc source (vis.last_time + 1)).Good := by
          have hGe := Visit.Good_ensure hG source
          have hde : ((vis.ensure source).getLog source).discovery_time = -1 := by
            rw [Visit.getLog_ensure]; exact hdisc0
          have h2 := Visit.Good_setDisc hGe hde
          rwa [Visit.last_time_ensure] at h2
        have hd1src : ((vis.ensure source).setDisc source (vis.last_time + 1)).is_discovered
            source = true := by
          rw [Visit.is_discovered_iff, hget1 source, if_pos rfl]
          show vis.last_time + 1 ≠ -1
          omega
        have hfin1src : (((vis.ensure source).setDisc source
            (vis.last_time + 1)).getLog source).finish_time = -1 := by
          rw [hget1 source, if_pos rfl]
          show (vis.getLog source).finish_time = -1
          exact hfin0
        obtain ⟨hG2, hT2, hframeL, hframe2L, hnewL, hnewparL⟩ :=
          hL ns source _ v2 hG1 hd1src hfin1src hlrun
        rw [hT1] at hT2
        have hframe_src : v2.getLog source
            = ((vis.ensure source).setDisc source (vis.last_time + 1)).getLog source :=
          hframeL source hd1src
        have hfin2src : (v2.getLog source).finish_time = -1 := by
          rw [hframe_src]; exact hfin1src
        have hdisc2src : (v2.getLog source).discovery_time = vis.last_time + 1 := by
          rw [hframe_src, hget1 source, if_pos rfl]
        have hT20 := v2.last_time_nonneg
        have hget' : ∀ w, (v2.setFin source (v2.last_time + 1)).getLog w
            = if w = source then { v2.getLog source with finish_time := v2.last_time + 1 }
              else v2.getLog w := fun w => Visit.getLog_setFin v2 source _ w
        have hT' : (v2.setFin source (v2.last_time + 1)).last_time = v2.last_time + 1 :=
          Visit.last_time_setFin v2 source (by omega) (by omega)
        have hG' : (v2.setFin source (v2.last_time + 1)).Good :=
          Visit.Good_setFin hG2 hfin2src (by rw [hdisc2src]; omega)
        have hdset' : ∀ w, (v2.setFin source (v2.last_time + 1)).is_discovered w
            = v2.is_discovered w := fun w => Visit.is_discovered_setFin v2 source _ w
        have hd2src : v2.is_discovered source = true := by
          rw [Visit.is_discovered_iff, hdisc2src]
          omega
        refine ⟨hG', by omega, ?_, ?_, ?_, ?_, ?_, ?_, ?_⟩
        · rw [hget' source, if_pos rfl]
          show (v2.getLog source).discovery_time = vis.last_time + 1
          exact hdisc2src
        · rw [hget' source, if_pos rfl, hT']
        · rw [hget' source, if_pos rfl]
          show (v2.getLog source).parent = (vis.getLog source).parent
          rw [hframe_src, hget1 source, if_pos rfl]
        · -- frame for already-discovered vertices
          intro v hv
          have hvs : v ≠ source := by
            intro h
            rw [h, hundisc] at hv
            cases hv
          have h1 : ((vis.ensure source).setDisc source (vis.last_time + 1)).getLog v
              = vis.getLog v := by rw [hget1 v, if_neg hvs]
          have hv1 : ((vis.ensure source).setDisc source
              (vis.last_time + 1)).is_discovered v = true := by
            rw [Visit.is_discovered_congr h1]; exact hv
          have h2 : v2.getLog v
              = ((vis.ensure source).setDisc source (vis.last_time + 1)).getLog v :=
            hframeL v hv1
          have hv2 : v2.is_discovered v = true := by
            rw [Visit.is_discovered_congr h2]; exact hv1
          rw [hget' v, if_neg hvs, h2, h1]
        · -- frame for never-discovered vertices
          intro v hv'
          have hvs : v ≠ source := by
            intro h
            rw [h] at hv'
            rw [hdset' source, hd2src] at hv'
            cases hv'
          rw [hdset' v] at hv'
          have h2 := hframe2L v hv'
          rw [hget' v, if_neg hvs, h2, hget1 v, if_neg hvs]
        · -- time bounds for newly discovered vertices
          intro v hv hv'
          by_cases hvs : v = source
          · rw [hvs, hget' source, if_pos rfl]
            refine ⟨?_, ?_, ?_⟩
            · show vis.last_time < (v2.getLog source).discovery_time
              rw [hdisc2src]; omega
            · show (v2.getLog source).discovery_time < v2.last_time + 1
              rw [hdisc2src]; omega
            · show v2.last_time + 1 ≤ (v2.setFin source (v2.last_time + 1)).last_time
              rw [hT']
          · rw [hdset' v] at hv'
            have hv1 : ((vis.ensure source).setDisc source
                (vis.last_time + 1)).is_discovered v = false := by
              rw [Visit.is_discovered_congr (show ((vis.ensure source).setDisc source
                (vis.last_time + 1)).getLog v = vis.getLog v by rw [hget1 v, if_neg hvs])]
              exact hv
            have hnewv := hnewL v hv1 hv'
            rw [hT1] at hnewv
            rw [hget' v, if_neg hvs]
            exact ⟨by omega, hnewv.2.1, by rw [hT']; omega⟩
        · -- parent bracketing
          intro v p hv hv' hvs hp
          rw [hdset' v] at hv'
          rw [hget' v, if_neg hvs] at hp
          have hv1 : ((vis.ensure source).setDisc source
              (vis.last_time + 1)).is_discovered v = false := by
            rw [Visit.is_discovered_congr (show ((vis.ensure source).setDisc source
              (vis.last_time + 1)).getLog v = vis.getLog v by rw [hget1 v, if_neg hvs])]
            exact hv
          have hnewv := hnewL v hv1 hv'
          rw [hT1] at hnewv
          rcases hnewparL v p hv1 hv' hp with hps | hbr
          · rw [hps] at hp ⊢
            rw [hget' source, if_pos rfl, hget' v, if_neg hvs]
            constructor
            · show (v2.getLog source).discovery_time < (v2.getLog v).discovery_time
              rw [hdisc2src]
              omega
            · show (v2.getLog v).finish_time < v2.last_time + 1
              omega
          · have hpfin : (v2.getLog p).finish_time ≠ -1 := by
              have h2 := hbr.2
              have h3 := hnewv.1
              have h4 := hnewv.2.1
              omega
            have hps : p ≠ source := by
              intro h
              rw [h, hfin2src] at hpfin
              exact hpfin rfl
            rw [hget' v, if_neg hvs, hget' p, if_neg hps]
            exact hbr

theorem dfs_spec (g : DiGraph V) : ∀ fuel : Nat,
    (∀ (source : V) (vis vis' : Visit V), vis.Good → vis.is_discovered source = false →
      g.dfsF fuel source vis = (vis', none) → DfsFSpec source vis vis') ∧
    (∀ (ns : List V) (src : V) (vis vis' : Visit V), vis.Good →
      vis.is_discovered src = true → (vis.getLog src).finish_time = -1 →
      g.dfsList fuel ns src vis = (vis', none) → DfsLSpec src vis vis') := by
  intro fuel
  induction fuel with
  | zero =>
    have hF0 : ∀ (source : V) (vis vis' : Visit V), vis.Good →
        vis.is_discovered source = false →
        g.dfsF 0 source vis = (vis', none) → DfsFSpec source vis vis' := by
      intro source vis vis' _ _ hrun
      rw [DiGraph.dfsF_zero] at hrun
      injection hrun with h1 h2
      cases h2
    exact ⟨hF0, dfsList_spec_of_dfsF g 0 hF0⟩
  | succ fuel ih =>
    have hF1 := dfsF_spec_of_dfsList g fuel ih.2
    exact ⟨hF1, dfsList_spec_of_dfsF g (fuel + 1) hF1⟩

/-! Fuel sufficiency for the DFS recursion: the recursion depth is bounded by
the number of registered undiscovered vertices, so the wrapper's
`dfsFuel = keys.length + 1` never runs out on a well-formed graph. -/

/-- Number of registered vertices not yet discovered in a visit. -/
def DiGraph.undiscCount (g : DiGraph V) (vis : Visit V) : Nat :=
  (g.keys.filter (fun v => ! vis.is_discovered v)).length

theorem length_filter_le_of_imp {α : Type} : ∀ {l : List α} {p q : α → Bool},
    (∀ x ∈ l, q x = true → p x = true) →
    (l.filter q).length ≤ (l.filter p).length := by
  intro l
  induction l with
  | nil => intro p q _; exact le_refl _
  | cons a l ih =>
    intro p q himp
    have hrest := ih (fun x hx => himp x (List.mem_cons_of_mem a hx))
    by_cases hqa : q a = true
    · rw [List.filter_cons_of_pos hqa,
        List.filter_cons_of_pos (himp a (List.mem_cons_self a l) hqa)]
      simpa using hrest
    · rw [List.filter_cons_of_neg (by simp [hqa])]
      by_cases hpa : p a = true
      · rw [List.filter_cons_of_pos hpa]
        exact le_trans hrest (by simp)
      · rw [List.filter_cons_of_neg (by simp [hpa])]
        exact hrest

theorem length_filter_lt {α : Type} {l : List α} {p q : α → Bool}
    (himp : ∀ x ∈ l, q x = true → p x = true)
    {x0 : α} (hx0 : x0 ∈ l) (hp : p x0 = true) (hq : q x0 = false) :
    (l.filter q).length < (l.filter p).length := by
  induction l with
  | nil => cases hx0
  | cons a l ih =>
    rcases List.mem_cons.mp hx0 with rfl | hx1
    · rw [List.filter_cons_of_pos hp, List.filter_cons_of_neg (by simp [hq])]
      have hmono := length_filter_le_of_imp
        (fun x hx => himp x (List.mem_cons_of_mem _ hx))
      simp only [List.length_cons]
      omega
    · have ih2 := ih (fun x hx hqx => himp x (List.mem_cons_of_mem a hx) hqx) hx1
      by_cases hqa : q a = true
      · have hpa := himp a (List.mem_cons_self a l) hqa
        rw [List.filter_cons_of_pos hqa, List.filter_cons_of_pos hpa]
        simp only [List.length_cons]
        omega
      · rw [List.filter_cons_of_neg (by simp [hqa])]
        by_cases hpa : p a = true
        · rw [List.filter_cons_of_pos hpa]
          simp only [List.length_cons]
          omega
        · rw [List.filter_cons_of_neg (by simp [hpa])]
          exact ih2

theorem DiGraph.undiscCount_congr (g : DiGraph V) {vis1 vis2 : Visit V}
    (h : ∀ v, vis1.is_discovered v = vis2.is_discovered v) :
    g.undiscCount vis1 = g.undiscCount vis2 := by
  unfold DiGraph.undiscCount
  congr 1
  apply List.filter_congr
  intro x _
  rw [h x]

theorem DiGraph.undiscCount_lt (g : DiGraph V) {vis vis' : Visit V}
    (hmono : ∀ v, vis.is_discovered v = true → vis'.is_discovered v = true)
    {x : V} (hx : x ∈ g.keys) (hxu : vis.is_discovered x = false)
    (hxd : vis'.is_discovered x = true) :
    g.undiscCount vis' < g.undiscCount vis := by
  unfold DiGraph.undiscCount
  apply length_filter_lt (p := fun v => ! vis.is_discovered v)
    (q := fun v => ! vis'.is_discovered v)
  · intro y _ hy
    cases hyd : vis.is_discovered y with
    | false => simp [hyd]
    | true =>
      rw [hmono y hyd] at hy
      cases hy
  · exact hx
  · rw [hxu]; rfl
  · rw [hxd]; rfl

theorem dfs_fuel (g : DiGraph V)
    (hclosed : ∀ u w, w ∈ g.adjList u → g.has_vertex w = true) :
    ∀ fuel : Nat,
      (∀ (source : V) (vis : Visit V), vis.Good → vis.is_discovered source = false →
        g.has_vertex source = true → g.undiscCount vis + 1 ≤ fuel →
        ∃ vis', g.dfsF fuel source vis = (vis', none)) ∧
      (∀ (ns : List V) (src : V) (vis : Visit V), vis.Good →
        vis.is_discovered src = true → (vis.getLog src).finish_time = -1 →
        (∀ n ∈ ns, g.has_vertex n = true) → g.undiscCount vis + 1 ≤ fuel →
        ∃ vis', g.dfsList fuel ns src vis = (vis', none)) := by
  intro fuel
  induction fuel with
  | zero =>
    constructor
    · intro source vis _ _ _ hfuel
      omega
    · intro ns src vis _ _ _ _ hfuel
      omega
  | succ fuel ih =>
    have hFstep : ∀ (source : V) (vis : Visit V), vis.Good →
        vis.is_discovered source = false → g.has_vertex source = true →
        g.undiscCount vis + 1 ≤ fuel + 1 →
        ∃ vis', g.dfsF (fuel + 1) source vis = (vis', none) := by
      intro source vis hG hundisc hsrc hfuel
      have hadj : g.adj source = .ok (g.adjList source) := by
        unfold DiGraph.adj
        rw [if_pos hsrc]
      have hT0 := vis.last_time_nonneg
      have hdisc0 : (vis.getLog source).discovery_time = -1 :=
        (Visit.is_discovered_false_iff vis source).mp hundisc
      have hfin0 : (vis.getLog source).finish_time = -1 := by
        by_contra h
        exact absurd hdisc0 (hG.2.2 source h)
      have hget1 : ∀ w, ((vis.ensure source).setDisc source (vis.last_time + 1)).getLog w
          = if w = source then { vis.getLog source with discovery_time := vis.last_time + 1 }
            else vis.getLog w := by
        intro w
        rw [Visit.getLog_setDisc]
        by_cases hw : w = source
        · rw [if_pos hw, if_pos hw, Visit.getLog_ensure]
        · rw [if_neg hw, if_neg hw, Visit.getLog_ensure]
      have hG1 : ((vis.ensure source).setDisc source (vis.last_time + 1)).Good := by
        have hGe := Visit.Good_ensure hG source
        have hde : ((vis.ensure source).getLog source).discovery_time = -1 := by
          rw [Visit.getLog_ensure]; exact hdisc0
        have h2 := Visit.Good_setDisc hGe hde
        rwa [Visit.last_time_ensure] at h2
      have hd1src : ((vis.ensure source).setDisc source
          (vis.last_time + 1)).is_discovered source = true := by
        rw [Visit.is_discovered_iff, hget1 source, if_pos rfl]
        show vis.last_time + 1 ≠ -1
        omega
      have hfin1src : (((vis.ensure source).setDisc source
          (vis.last_time + 1)).getLog source).finish_time = -1 := by
        rw [hget1 source, if_pos rfl]
        show (vis.getLog source).finish_time = -1
        exact hfin0
      have hdmono1 : ∀ v, vis.is_discovered v = true →
          ((vis.ensure source).setDisc source (vis.last_time + 1)).is_discovered v = true := by
        intro v hv
        by_cases hvs : v = source
        · rw [hvs]; exact hd1src
        · rw [Visit.is_discovered_congr (show ((vis.ensure source).setDisc source
            (vis.last_time + 1)).getLog v = vis.getLog v by rw [hget1 v, if_neg hvs])]
          exact hv
      have hcount1 : g.undiscCount ((vis.ensure source).setDisc source (vis.last_time + 1))
          < g.undiscCount vis :=
        g.undiscCount_lt hdmono1 ((g.has_vertex_iff source).mp hsrc) hundisc hd1src
      rcases ih.2 (g.adjList source) source
          ((vis.ensure source).setDisc source (vis.last_time + 1)) hG1 hd1src hfin1src
          (fun n hn => hclosed source n hn) (by omega) with ⟨v2, hv2⟩
      exact ⟨v2.setFin source (v2.last_time + 1),
        DiGraph.dfsF_succ_ok_none g fuel source vis hadj hv2⟩
    refine ⟨hFstep, ?_⟩
    intro ns
    induction ns with
    | nil =>
      intro src vis _ _ _ _ _
      exact ⟨vis, DiGraph.dfsList_nil g (fuel + 1) src vis⟩
    | cons n rest ihns =>
      intro src vis hG hsrc hfin hns hfuel
      by_cases hd : vis.is_discovered n = true
      · rcases ihns src vis hG hsrc hfin
          (fun m hm => hns m (List.mem_cons_of_mem n hm)) hfuel with ⟨vis', hvis'⟩
        exact ⟨vis', by rw [DiGraph.dfsList_cons_disc g (fuel + 1) rest src hd]; exact hvis'⟩
      · have hGa : (vis.setParent n src).Good := Visit.Good_setParent hG n src
        have hdisca : ∀ w, (vis.setParent n src).is_discovered w = vis.is_discovered w :=
          Visit.is_discovered_setParent vis n src
        have hcounta : g.undiscCount (vis.setParent n src) = g.undiscCount vis :=
          g.undiscCount_congr hdisca
        rcases hFstep n (vis.setParent n src) hGa
            (by rw [hdisca]; exact Bool.eq_false_iff.mpr hd)
            (hns n (List.mem_cons_self n rest)) (by omega) with ⟨vis_b, hvis_b⟩
        have hFspec := (dfs_spec g (fuel + 1)).1 n (vis.setParent n src) vis_b hGa
          (by rw [hdisca]; exact Bool.eq_false_iff.mpr hd) hvis_b
        obtain ⟨hGb, hTb, hdiscb_n, hfinb_n, hparb_n, hframeF, hframe2F, hnewF, hnewparF⟩
          := hFspec
        have hdn_b : vis_b.is_discovered n = true := by
          rw [Visit.is_discovered_iff, hdiscb_n]
          have := (vis.setParent n src).last_time_nonneg
          omega
        have hns2 : n ≠ src := fun h => hd (h ▸ hsrc)
        have hsrc_a : (vis.setParent n src).is_discovered src = true := by
          rw [hdisca src]; exact hsrc
        have hframe_src : vis_b.getLog src = (vis.setParent n src).getLog src :=
          hframeF src hsrc_a
        have hsrc_b : vis_b.is_discovered src = true := by
          rw [Visit.is_discovered_congr hframe_src]; exact hsrc_a
        have hfin_src_b : (vis_b.getLog src).finish_time = -1 := by
          rw [hframe_src, Visit.getLog_setParent, if_neg (fun h => hns2 h.symm)]
          exact hfin
        have hdmono : ∀ v, (vis.setParent n src).is_discovered v = true →
            vis_b.is_discovered v = true := by
          intro v hv
          rw [Visit.is_discovered_congr (hframeF v hv)]
          exact hv
        have hcountb : g.undiscCount vis_b < g.undiscCount (vis.setParent n src) :=
          g.undiscCount_lt hdmono
            ((g.has_vertex_iff n).mp (hns n (List.mem_cons_self n rest)))
            (by rw [hdisca]; exact Bool.eq_false_iff.mpr hd) hdn_b
        rcases ihns src vis_b hGb hsrc_b hfin_src_b
          (fun m hm => hns m (List.mem_cons_of_mem n hm)) (by omega) with ⟨vis', hvis'⟩
        exact ⟨vis', by
          rw [DiGraph.dfsList_cons_undisc_none g (fuel + 1) rest src hd hvis_b]
          exact hvis'⟩

theorem DiGraph.is_empty_false_of_has_vertex {g : DiGraph V} {v : V}
    (h : g.has_vertex v = true) : g.is_empty = false := by
  unfold DiGraph.is_empty
  unfold DiGraph.has_vertex DiGraph.entry? at h
  cases he : g._edges with
  | nil =>
    rw [he] at h
    simp [List.find?] at h
  | cons p l => rfl

/-- A successful full `dfs` run from a fresh visit on a well-formed graph with
a registered source, together with its specification. -/
theorem dfs_run_spec (g : DiGraph V) (hWF : g.WF) {s : V} (hs : g.has_vertex s = true) :
    ∃ vis', g.dfs s none = (vis', none) ∧ DfsFSpec s (⟨[]⟩ : Visit V) vis' := by
  have hclosed : ∀ u w, w ∈ g.adjList u → g.has_vertex w = true :=
    fun u w hw => DiGraph.WF_adjList_has_vertex hWF hw
  have hcount : g.undiscCount (⟨[]⟩ : Visit V) = g.keys.length := by
    unfold DiGraph.undiscCount
    have hfd : ∀ v : V, Visit.is_discovered (⟨[]⟩ : Visit V) v = false := fun v => rfl
    have : (g.keys.filter (fun v => ! Visit.is_discovered (⟨[]⟩ : Visit V) v)) = g.keys := by
      apply List.filter_eq_self.mpr
      intro v _
      rw [hfd v]
      rfl
    rw [this]
  rcases (dfs_fuel g hclosed g.dfsFuel).1 s ⟨[]⟩ Visit.Good_fresh rfl hs
      (by unfold DiGraph.dfsFuel; omega) with ⟨vis', hrun⟩
  have hspec := (dfs_spec g g.dfsFuel).1 s ⟨[]⟩ vis' Visit.Good_fresh rfl hrun
  refine ⟨vis', ?_, hspec⟩
  unfold DiGraph.dfs
  rw [if_neg (by simp [DiGraph.is_empty_false_of_has_vertex hs])]
  exact hrun

/-! ## Claim C3: the logical clock of a DFS run -/

/-- **C3.**  On a fresh visit the logical clock `last_time` starts at 0; a
full `dfs(s)` run succeeds, stamps the source with discovery time
`last_time() + 1 = 1`, and produces a visit in which the non-sentinel
discovery/finish timestamps are exactly `1, 2, ..., last_time`, each occurring
exactly once (`timeCount t = 1` within the range and `0` outside).  Since the
code computes every new stamp as `last_time() + 1`, which this invariant shows
is strictly larger than every stamp already present, the discovery times read
in assignment order are strictly increasing and start at 1. -/
theorem C3_dfs_clock (g : DiGraph Nat) (s : Nat) (hWF : g.WF)
    (hs : g.has_vertex s = true) :
    Visit.last_time (⟨[]⟩ : Visit Nat) = 0 ∧
    ∃ vis', g.dfs s none = (vis', none) ∧
      (vis'.getLog s).discovery_time = Visit.last_time (⟨[]⟩ : Visit Nat) + 1 ∧
      (vis'.getLog s).discovery_time = 1 ∧
      (∀ t : Int, t ≠ -1 →
        vis'.timeCount t = if 1 ≤ t ∧ t ≤ vis'.last_time then 1 else 0) ∧
      2 ≤ vis'.last_time := by
  rcases dfs_run_spec g hWF hs with ⟨vis', hrun, hspec⟩
  obtain ⟨hG, hT, hdisc, hfin, hpar, _⟩ := hspec
  have hfresh : Visit.last_time (⟨[]⟩ : Visit Nat) = 0 := rfl
  refine ⟨hfresh, vis', hrun, hdisc, ?_, hG.2.1, ?_⟩
  · rw [hdisc, hfresh]
    omega
  · rw [hfresh] at hT
    omega

/-- **C3, witness.**  Instantiation of `C3_dfs_clock` on the path graph
`1 → 2` with source `1`. -/
theorem C3_witness :
    Visit.last_time (⟨[]⟩ : Visit Nat) = 0 ∧
    ∃ vis', (⟨[(1, [2]), (2, [])]⟩ : DiGraph Nat).dfs 1 none = (vis', none) ∧
      (vis'.getLog 1).discovery_time = Visit.last_time (⟨[]⟩ : Visit Nat) + 1 ∧
      (vis'.getLog 1).discovery_time = 1 ∧
      (∀ t : Int, t ≠ -1 →
        vis'.timeCount t = if 1 ≤ t ∧ t ≤ vis'.last_time then 1 else 0) ∧
      2 ≤ vis'.last_time :=
  C3_dfs_clock ⟨[(1, [2]), (2, [])]⟩ 1 (by decide) (by decide)

/-! ## Claim C2: DFS discovery/finish bracketing -/

/-- `d`'s recorded parent in the visit is `v`. -/
def childOf (vis : Visit V) (d v : V) : Prop := (vis.getLog d).parent = some v

/-- **C2.**  On a non-empty well-formed graph with a registered source, the
visit returned by `dfs(s)` satisfies: every discovered vertex has
`discovery_time < finish_time`, and for every vertex `d` that is a descendant
of `v` in the resulting parent tree (transitive closure of the parent links)
the classic parenthesis nesting
`v.discovery < d.discovery < d.finish < v.finish` holds. -/
theorem C2_dfs_bracketing (g : DiGraph Nat) (s : Nat) (hWF : g.WF)
    (hne : g.is_empty = false) (hs : g.has_vertex s = true) :
    ∃ vis', g.dfs s none = (vis', none) ∧
      (∀ v, vis'.is_discovered v = true →
        (vis'.getLog v).discovery_time < (vis'.getLog v).finish_time) ∧
      (∀ d v, Relation.TransGen (childOf vis') d v →
        (vis'.getLog v).discovery_time < (vis'.getLog d).discovery_time ∧
        (vis'.getLog d).discovery_time < (vis'.getLog d).finish_time ∧
        (vis'.getLog d).finish_time < (vis'.getLog v).finish_time) := by
  rcases dfs_run_spec g hWF hs with ⟨vis', hrun, hspec⟩
  obtain ⟨hG, hT, hdiscs, hfins, hpars, hframe, hframe2, hnew, hnewpar⟩ := hspec
  have hfreshundisc : ∀ v : Nat, Visit.is_discovered (⟨[]⟩ : Visit Nat) v = false :=
    fun v => rfl
  have hdiscfin : ∀ v, vis'.is_discovered v = true →
      (vis'.getLog v).discovery_time < (vis'.getLog v).finish_time :=
    fun v hv => (hnew v (hfreshundisc v) hv).2.1
  refine ⟨vis', hrun, hdiscfin, ?_⟩
  have hstep : ∀ d v, childOf vis' d v →
      (vis'.getLog v).discovery_time < (vis'.getLog d).discovery_time ∧
      (vis'.getLog d).discovery_time < (vis'.getLog d).finish_time ∧
      (vis'.getLog d).finish_time < (vis'.getLog v).finish_time := by
    intro d v hdv
    unfold childOf at hdv
    have hd : vis'.is_discovered d = true := by
      cases hb : vis'.is_discovered d with
      | true => rfl
      | false =>
        have h2 := hframe2 d hb
        rw [h2] at hdv
        have h3 : (Visit.getLog (⟨[]⟩ : Visit Nat) d).parent = none := rfl
        rw [h3] at hdv
        cases hdv
    have hds : d ≠ s := by
      intro h
      rw [h, hpars] at hdv
      have h3 : (Visit.getLog (⟨[]⟩ : Visit Nat) s).parent = none := rfl
      rw [h3] at hdv
      cases hdv
    have hbr := hnewpar d v (hfreshundisc d) hd hds hdv
    exact ⟨hbr.1, (hnew d (hfreshundisc d) hd).2.1, hbr.2⟩
  intro d v hdv
  induction hdv with
  | single h => exact hstep _ _ h
  | tail hdp hpv ih =>
    have h2 := hstep _ _ hpv
    exact ⟨by omega, ih.2.1, by omega⟩

/-- **C2, witness.**  Instantiation of `C2_dfs_bracketing` on the path graph
`1 → 2` with source `1`. -/
theorem C2_witness :
    ∃ vis', (⟨[(1, [2]), (2, [])]⟩ : DiGraph Nat).dfs 1 none = (vis', none) ∧
      (∀ v, vis'.is_discovered v = true →
        (vis'.getLog v).discovery_time < (vis'.getLog v).finish_time) ∧
      (∀ d v, Relation.TransGen (childOf vis') d v →
        (vis'.getLog v).discovery_time < (vis'.getLog d).discovery_time ∧
        (vis'.getLog d).discovery_time < (vis'.getLog d).finish_time ∧
        (vis'.getLog d).finish_time < (vis'.getLog v).finish_time) :=
  C2_dfs_bracketing ⟨[(1, [2]), (2, [])]⟩ 1 (by decide) (by decide) (by decide)

/-! ## Claim C1: correctness of `distances` -/

/-- `Steps g s v n`: there is a walk of `n` edges from `s` to `v` in `g`. -/
inductive Steps (g : DiGraph V) (s : V) : V → Nat → Prop where
  | refl : Steps g s s 0
  | tail {u w : V} {n : Nat} : Steps g s u n → w ∈ g.adjList u → Steps g s w (n + 1)

/-- `d` is the minimal number of edges of a walk from `s` to `v`. -/
def IsMinDist (g : DiGraph V) (s v : V) (d : Nat) : Prop :=
  Steps g s v d ∧ ∀ m, Steps g s v m → d ≤ m

theorem steps_zero {g : DiGraph V} {s v : V} (h : Steps g s v 0) : v = s := by
  cases h
  rfl

theorem steps_succ {g : DiGraph V} {s v : V} {n : Nat} (h : Steps g s v (n + 1)) :
    ∃ u, Steps g s u n ∧ v ∈ g.adjList u := by
  cases h with
  | tail h1 h2 => exact ⟨_, h1, h2⟩

theorem exists_isMinDist {g : DiGraph V} {s v : V} :
    ∀ m, Steps g s v m → ∃ d, IsMinDist g s v d ∧ d ≤ m := by
  intro m
  induction m using Nat.strong_induction_on with
  | _ m ih =>
    intro h
    by_cases hlt : ∃ k, k < m ∧ Steps g s v k
    · rcases hlt with ⟨k, hk, hsk⟩
      rcases ih k hk hsk with ⟨d, hd, hdk⟩
      exact ⟨d, hd, by omega⟩
    · push_neg at hlt
      refine ⟨m, ⟨h, fun k hk => ?_⟩, Nat.le_refl m⟩
      by_contra hc
      exact hlt k (by omega) hk

theorem isMinDist_unique {g : DiGraph V} {s v : V} {d1 d2 : Nat}
    (h1 : IsMinDist g s v d1) (h2 : IsMinDist g s v d2) : d1 = d2 :=
  Nat.le_antisymm (h1.2 d2 h2.1) (h2.2 d1 h1.1)

/-- The vertex has an entry in the visit's log dictionary. -/
def Visit.logged (vis : Visit V) (v : V) : Prop := vis.find? v ≠ none

theorem Visit.logged_of_find? {vis : Visit V} {v : V} {log : VertexLog V}
    (h : vis.find? v = some log) : vis.logged v := by
  unfold Visit.logged
  rw [h]
  exact fun h2 => by cases h2

theorem Visit.find?_eq_none_of_not_logged {vis : Visit V} {v : V}
    (h : ¬ vis.logged v) : vis.find? v = none := by
  unfold Visit.logged at h
  exact not_not.mp h

theorem Visit.ensure_of_logged {vis : Visit V} {v : V} (h : vis.logged v) :
    vis.ensure v = vis := by
  unfold Visit.ensure
  cases hf : vis.find? v with
  | some log => rfl
  | none => exact absurd hf h

theorem Visit.logged_ensure_iff (vis : Visit V) (v w : V) :
    (vis.ensure v).logged w ↔ vis.logged w ∨ w = v := by
  by_cases hw : w = v
  · subst hw
    constructor
    · intro _
      exact Or.inr rfl
    · intro _
      exact Visit.logged_of_find? (Visit.find?_ensure_self vis w)
  · unfold Visit.logged
    rw [Visit.find?_ensure_ne vis hw]
    simp [hw]

theorem Visit.logged_modify_iff (vis : Visit V) (v : V) (f : VertexLog V → VertexLog V)
    (hf : ∀ log, (f log).vertex = log.vertex) (w : V) :
    (vis.modify v f).logged w ↔ vis.logged w ∨ w = v := by
  have hfind : (vis.modify v f).find? w =
      ((vis.ensure v).find? w).map (fun log => if log.vertex == v then f log else log) := by
    show ((vis.modify v f)._logs.find? (fun log => log.vertex == w)) = _
    unfold Visit.modify
    simp only []
    rw [List.find?_map]
    have hcomp : ((fun log : VertexLog V => log.vertex == w) ∘
        (fun log : VertexLog V => if log.vertex == v then f log else log))
        = (fun log : VertexLog V => log.vertex == w) := by
      funext log
      by_cases hl : log.vertex = v <;> simp [hl, hf]
    rw [hcomp]
    rfl
  constructor
  · intro h
    rw [← Visit.logged_ensure_iff]
    unfold Visit.logged at h ⊢
    rw [hfind] at h
    intro h2
    rw [h2] at h
    exact h rfl
  · intro h
    have h3 := (Visit.logged_ensure_iff vis v w).mpr h
    unfold Visit.logged at h3 ⊢
    rw [hfind]
    rcases he : (vis.ensure v).find? w with _ | log
    · exact absurd he h3
    · simp

theorem Visit.logged_setParent_iff (vis : Visit V) (v p w : V) :
    (vis.setParent v p).logged w ↔ vis.logged w ∨ w = v :=
  Visit.logged_modify_iff vis v (fun log => { log with parent := some p })
    (fun _ => rfl) w

theorem Visit.logged_setDist_iff (vis : Visit V) (v : V) (d : Int) (w : V) :
    (vis.setDist v d).logged w ↔ vis.logged w ∨ w = v :=
  Visit.logged_modify_iff vis v (fun log => { log with distance := some d })
    (fun _ => rfl) w

theorem Visit.logged_setDisc_iff (vis : Visit V) (v : V) (t : Int) (w : V) :
    (vis.setDisc v t).logged w ↔ vis.logged w ∨ w = v :=
  Visit.logged_modify_iff vis v (fun log => { log with discovery_time := t })
    (fun _ => rfl) w

theorem Visit.is_discovered_of_not_logged {vis : Visit V} {v : V}
    (h : ¬ vis.logged v) : vis.is_discovered v = false := by
  unfold Visit.is_discovered
  rw [Visit.find?_eq_none_of_not_logged h]

theorem Visit.logged_of_discovered {vis : Visit V} {v : V}
    (h : vis.is_discovered v = true) : vis.logged v := by
  by_contra hc
  rw [Visit.is_discovered_of_not_logged hc] at h
  cases h

theorem Visit.is_discovered_setDist (vis : Visit V) (v : V) (d : Int) (w : V) :
    (vis.setDist v d).is_discovered w = vis.is_discovered w := by
  rw [Visit.is_discovered_eq, Visit.is_discovered_eq, Visit.getLog_setDist]
  by_cases hw : w = v <;> simp [hw]

theorem Visit.is_discovered_setDisc_ne (vis : Visit V) (v : V) (t : Int) {w : V}
    (hw : w ≠ v) : (vis.setDisc v t).is_discovered w = vis.is_discovered w := by
  rw [Visit.is_discovered_eq, Visit.is_discovered_eq, Visit.getLog_setDisc]
  simp [hw]

theorem Visit.is_discovered_setDisc_self (vis : Visit V) (v : V) {t : Int}
    (ht : t ≠ -1) : (vis.setDisc v t).is_discovered v = true := by
  rw [Visit.is_discovered_eq, Visit.getLog_setDisc]
  simp [ht]

theorem DiGraph.adj_ok {g : DiGraph V} {v : V} (h : g.has_vertex v = true) :
    g.adj v = .ok (g.adjList v) := by
  unfold DiGraph.adj
  rw [if_pos h]

theorem filter_fst_singleton : ∀ {l : List (V × List V)} {v : V} {ns : List V},
    (l.map Prod.fst).Nodup → l.find? (fun p => p.1 == v) = some (v, ns) →
    l.filter (fun p => p.1 == v) = [(v, ns)] := by
  intro l
  induction l with
  | nil =>
    intro v ns _ h
    cases h
  | cons p t ih =>
    intro v ns hnd hf
    rw [List.map_cons, List.nodup_cons] at hnd
    by_cases hp : p.1 = v
    · rw [List.find?_cons_of_pos t (by simp [hp])] at hf
      injection hf with hf
      subst hf
      rw [List.filter_cons_of_pos (by simp [hp])]
      have ht : t.filter (fun q => q.1 == v) = [] := by
        rw [List.filter_eq_nil_iff]
        intro q hq
        simp only [beq_iff_eq]
        intro hqv
        exact hnd.1 (List.mem_map.mpr ⟨q, hq, by rw [hqv, ← hp]⟩)
      rw [ht]
    · rw [List.find?_cons_of_neg t (by simp [hp])] at hf
      rw [List.filter_cons_of_neg (by simp [hp])]
      exact ih hnd.2 hf

theorem DiGraph.filter_edges_singleton {g : DiGraph V} (hnd : g.keys.Nodup) {v : V}
    (hv : g.has_vertex v = true) :
    g._edges.filter (fun p => p.1 == v) = [(v, g.adjList v)] := by
  rcases Option.isSome_iff_exists.mp hv with ⟨p, hp⟩
  have h1 := DiGraph.entry?_prop hp
  have h2 := DiGraph.adjList_entry hp
  apply filter_fst_singleton hnd
  unfold DiGraph.entry? at hp
  rw [hp, h2]
  rw [show (v, p.2) = p from by rw [← h1.1]]

/-- Fuel potential: total weight of the not-yet-discovered dictionary
entries. -/
def DiGraph.undiscWeight (g : DiGraph V) (vis : Visit V) : Nat :=
  ((g._edges.filter (fun p => ! vis.is_discovered p.1)).map
    (fun p => 1 + p.2.length)).sum

theorem DiGraph.undiscWeight_congr (g : DiGraph V) {vis1 vis2 : Visit V}
    (h : ∀ v, vis1.is_discovered v = vis2.is_discovered v) :
    g.undiscWeight vis1 = g.undiscWeight vis2 := by
  unfold DiGraph.undiscWeight
  rw [List.filter_congr (fun p _ => by rw [h p.1])]

theorem sum_map_one_add {α : Type} (l : List α) (f : α → Nat) :
    (l.map (fun a => 1 + f a)).sum = l.length + (l.map f).sum := by
  induction l with
  | nil => rfl
  | cons a t ih =>
    rw [List.map_cons, List.sum_cons, List.map_cons, List.sum_cons, ih,
      List.length_cons]
    omega

theorem DiGraph.undiscWeight_le (g : DiGraph V) (vis : Visit V) :
    g.undiscWeight vis ≤ g.keys.length + g.totalAdj := by
  unfold DiGraph.undiscWeight
  have h1 : ((g._edges.filter (fun p => ! vis.is_discovered p.1)).map
      (fun p => 1 + p.2.length)).sum
      ≤ (g._edges.map (fun p => 1 + p.2.length)).sum :=
    ((List.filter_sublist g._edges).map (fun p => 1 + p.2.length)).sum_le_sum
      (fun _ _ => Nat.zero_le _)
  have h2 : (g._edges.map (fun p : V × List V => 1 + p.2.length)).sum
      = g._edges.length + (g._edges.map (fun p => p.2.length)).sum :=
    sum_map_one_add g._edges (fun p => p.2.length)
  have h3 : g.keys.length = g._edges.length := List.length_map g._edges Prod.fst
  unfold DiGraph.totalAdj
  omega

theorem weight_drop {α : Type} (f : α → Nat) :
    ∀ (l : List α) (pN pO sel : α → Bool),
      (∀ a ∈ l, sel a = false → pN a = pO a) →
      (∀ a ∈ l, sel a = true → pO a = true ∧ pN a = false) →
      ((l.filter pN).map f).sum + ((l.filter sel).map f).sum
        = ((l.filter pO).map f).sum := by
  intro l
  induction l with
  | nil =>
    intro pN pO sel _ _
    simp
  | cons a t ih =>
    intro pN pO sel h1 h2
    have iht := ih pN pO sel (fun x hx => h1 x (List.mem_cons_of_mem a hx))
      (fun x hx => h2 x (List.mem_cons_of_mem a hx))
    cases hsel : sel a with
    | true =>
      rcases h2 a (List.mem_cons_self a t) hsel with ⟨hO, hN⟩
      have hN' : ¬ (pN a = true) := by simp [hN]
      rw [List.filter_cons_of_neg hN', List.filter_cons_of_pos hsel,
        List.filter_cons_of_pos hO, List.map_cons, List.sum_cons, List.map_cons,
        List.sum_cons]
      omega
    | false =>
      have heq := h1 a (List.mem_cons_self a t) hsel
      have hsel' : ¬ (sel a = true) := by simp [hsel]
      rw [List.filter_cons_of_neg hsel']
      cases hN : pN a with
      | true =>
        have hO : pO a = true := by rw [← heq]; exact hN
        rw [List.filter_cons_of_pos hN, List.filter_cons_of_pos hO,
          List.map_cons, List.sum_cons, List.map_cons, List.sum_cons]
        omega
      | false =>
        have hO : ¬ (pO a = true) := by rw [← heq]; simp [hN]
        have hN' : ¬ (pN a = true) := by simp [hN]
        rw [List.filter_cons_of_neg hN', List.filter_cons_of_neg hO]
        exact iht

theorem DiGraph.undiscWeight_setDisc {g : DiGraph V} (hnd : g.keys.Nodup)
    {vis : Visit V} {vertex : V} (hv : g.has_vertex vertex = true)
    (hund : vis.is_discovered vertex = false) {t : Int} (ht : t ≠ -1) :
    g.undiscWeight (vis.setDisc vertex t) + (1 + (g.adjList vertex).length)
      = g.undiscWeight vis := by
  unfold DiGraph.undiscWeight
  have hdrop := weight_drop (fun p : V × List V => 1 + p.2.length) g._edges
    (fun p => ! (vis.setDisc vertex t).is_discovered p.1)
    (fun p => ! vis.is_discovered p.1)
    (fun p => p.1 == vertex)
    (by
      intro a _ ha
      have ha' : a.1 ≠ vertex := by simpa using ha
      show (! (vis.setDisc vertex t).is_discovered a.1) = (! vis.is_discovered a.1)
      rw [Visit.is_discovered_setDisc_ne vis vertex t ha'])
    (by
      intro a _ ha
      have ha' : a.1 = vertex := by simpa using ha
      constructor
      · show (! vis.is_discovered a.1) = true
        rw [ha', hund]
        rfl
      · show (! (vis.setDisc vertex t).is_discovered a.1) = false
        rw [ha', Visit.is_discovered_setDisc_self vis vertex ht]
        rfl)
  rw [DiGraph.filter_edges_singleton hnd hv] at hdrop
  simpa using hdrop

/-! ### Unfolding equations for the `distances` loops -/

theorem DiGraph.distInner_nil (s c : V) (vis : Visit V) (q : List V) :
    DiGraph.distInner s c [] vis q = ((vis, q), none) := by
  rw [DiGraph.distInner]

theorem DiGraph.distInner_cons_skip (s c : V) {n : V} (rest : List V)
    {vis : Visit V} (q : List V)
    (hg : ¬ (((vis.ensure n).getLog n).parent = none ∧ ¬ n = s)) :
    DiGraph.distInner s c (n :: rest) vis q
      = DiGraph.distInner s c rest (vis.ensure n) (q ++ [n]) := by
  rw [DiGraph.distInner]
  rw [if_neg hg]

theorem DiGraph.distInner_cons_set (s c : V) {n : V} (rest : List V)
    {vis : Visit V} (q : List V) {d : Int}
    (hg : ((vis.ensure n).getLog n).parent = none ∧ ¬ n = s)
    (hd : ((vis.ensure n).getLog c).distance = some d) :
    DiGraph.distInner s c (n :: rest) vis q
      = DiGraph.distInner s c rest
          (((vis.ensure n).setParent n c).setDist n (d + 1)) (q ++ [n]) := by
  rw [DiGraph.distInner]
  rw [if_pos hg, hd]

theorem DiGraph.distLoop_nil (g : DiGraph V) (s : V) (fuel : Nat) (vis : Visit V) :
    g.distLoop s (fuel + 1) vis [] = (vis, none) := by
  rw [DiGraph.distLoop]

theorem DiGraph.distLoop_cons_disc (g : DiGraph V) (s : V) (fuel : Nat) {vertex : V}
    (rest : List V) {vis : Visit V} (hd : vis.is_discovered vertex = true) :
    g.distLoop s (fuel + 1) vis (vertex :: rest) = g.distLoop s fuel vis rest := by
  rw [DiGraph.distLoop, if_pos hd]

theorem DiGraph.distLoop_cons_undisc (g : DiGraph V) (s : V) (fuel : Nat) {vertex : V}
    (rest : List V) {vis : Visit V} (hd : ¬ vis.is_discovered vertex = true)
    {ns : List V} (hadj : g.adj vertex = .ok ns)
    {vis2 : Visit V} {q2 : List V}
    (hinner : DiGraph.distInner s vertex ns
        (vis.setDisc vertex (vis.last_time + 1)) rest = ((vis2, q2), none)) :
    g.distLoop s (fuel + 1) vis (vertex :: rest) = g.distLoop s fuel vis2 q2 := by
  rw [DiGraph.distLoop, if_neg hd, hadj]
  simp only []
  rw [hinner]

/-! ### The loop invariants of `distances` -/

/-- The visit-state invariant carried along the `distances` queue loop.
`D` is the distance of the current BFS frontier: every stored distance is the
true minimal distance, only the source lacks a parent, neighbours of
discovered vertices are logged, and undiscovered logged vertices sit at
distance `D` or `D + 1`. -/
structure DistInv (g : DiGraph V) (s : V) (D : Nat) (vis : Visit V) : Prop where
  hwf : vis.WFlogs
  hsl : vis.logged s
  hsd : (vis.getLog s).distance = some 0
  hsp : (vis.getLog s).parent = none
  hmin : ∀ v, vis.logged v → ∃ d : Nat,
    (vis.getLog v).distance = some (d : Int) ∧ IsMinDist g s v d
  hpar : ∀ v, vis.logged v → v ≠ s → (vis.getLog v).parent ≠ none
  hclo : ∀ v, vis.is_discovered v = true → ∀ w ∈ g.adjList v, vis.logged w
  hDU : ∀ v, vis.logged v → vis.is_discovered v = false →
    ∀ d : Nat, (vis.getLog v).distance = some (d : Int) → d = D ∨ d = D + 1
  hkeys : ∀ v, vis.logged v → g.has_vertex v = true
  hdtlb : ∀ v, vis.logged v → -1 ≤ (vis.getLog v).discovery_time

/-- The queue-shape invariant: the queue splits into a block `q1` whose
undiscovered entries are at distance `D` and a block `q2` whose undiscovered
entries are at distance `D + 1` (or have another occurrence in `q1`); every
queue entry is logged and every undiscovered logged vertex is enqueued. -/
structure DistQInv (g : DiGraph V) (s : V) (D : Nat) (vis : Visit V)
    (q1 q2 : List V) : Prop where
  hql : ∀ v, v ∈ q1 ++ q2 → vis.logged v
  hfr : ∀ v, vis.logged v → vis.is_discovered v = false → v ∈ q1 ++ q2
  hq1 : ∀ v, v ∈ q1 → vis.is_discovered v = false →
    ∀ d : Nat, (vis.getLog v).distance = some (d : Int) → d = D
  hq2 : ∀ v, v ∈ q2 → vis.is_discovered v = false →
    (∀ d : Nat, (vis.getLog v).distance = some (d : Int) → d = D + 1) ∨ v ∈ q1

/-- Under the loop invariant, every vertex whose minimal distance from the
source is strictly below the frontier distance `D` has been discovered. -/
theorem Visit.dt_of_not_discovered {vis : Visit V} {v : V}
    (h : vis.is_discovered v = false) : (vis.getLog v).discovery_time = -1 := by
  rw [Visit.is_discovered_eq] at h
  simpa using h

theorem dist_near_discovered {g : DiGraph V} {s : V} {D : Nat} {vis : Visit V}
    (H : DistInv g s D vis) :
    ∀ m u, IsMinDist g s u m → m < D → vis.is_discovered u = true := by
  intro m
  induction m using Nat.strong_induction_on with
  | _ m ih =>
    intro u hu hmD
    cases m with
    | zero =>
      have hus : u = s := steps_zero hu.1
      subst hus
      by_contra hnd
      simp only [Bool.not_eq_true] at hnd
      rcases H.hmin u H.hsl with ⟨d, hd, hmind⟩
      have hd0 : d = 0 := Nat.le_zero.mp (hmind.2 0 hu.1)
      rcases H.hDU u H.hsl hnd d hd with h | h <;> omega
    | succ m' =>
      rcases steps_succ hu.1 with ⟨u', hu', hadj⟩
      rcases exists_isMinDist m' hu' with ⟨d', hd', hdm'⟩
      have hdisc' : vis.is_discovered u' = true := ih d' (by omega) u' hd' (by omega)
      have hlog_u : vis.logged u := H.hclo u' hdisc' u hadj
      by_contra hnd
      simp only [Bool.not_eq_true] at hnd
      rcases H.hmin u hlog_u with ⟨d, hd, hmind⟩
      have hdm : d = m' + 1 := Nat.le_antisymm (hmind.2 _ hu.1) (hu.2 _ hmind.1)
      rcases H.hDU u hlog_u hnd d hd with h | h <;> omega

/-- Under the loop invariant, every neighbour of a vertex whose minimal
distance is strictly below the frontier distance is logged. -/
theorem dist_near_logged {g : DiGraph V} {s : V} {D : Nat} {vis : Visit V}
    (H : DistInv g s D vis) :
    ∀ u m, IsMinDist g s u m → m < D → ∀ w, w ∈ g.adjList u → vis.logged w :=
  fun u m hu hm w hw => H.hclo u (dist_near_discovered H m u hu hm) w hw

/-- Specification of the neighbour loop of `distances`: every neighbour is
enqueued, previously logged vertices keep their logs, and every freshly
logged neighbour receives parent `c` and the (provably minimal) distance
`D + 1`.  The `AttributeError` branch is unreachable. -/
theorem distInner_spec (g : DiGraph V) (s c : V) (D : Nat)
    (hcmin : IsMinDist g s c D) :
    ∀ (ns : List V) (vis : Visit V) (q : List V),
      (∀ n ∈ ns, n ∈ g.adjList c) →
      vis.WFlogs →
      vis.logged c →
      (vis.getLog c).distance = some (D : Int) →
      vis.logged s →
      (∀ v, vis.logged v → v ≠ s → (vis.getLog v).parent ≠ none) →
      (∀ u m, IsMinDist g s u m → m < D → ∀ w, w ∈ g.adjList u → vis.logged w) →
      ∃ vis2,
        DiGraph.distInner s c ns vis q = ((vis2, q ++ ns), none) ∧
        vis2.WFlogs ∧
        (∀ v, vis.logged v → vis2.getLog v = vis.getLog v) ∧
        (∀ v, vis.logged v → vis2.logged v) ∧
        (∀ n ∈ ns, vis2.logged n) ∧
        (∀ v, vis2.logged v → vis.logged v ∨
          (v ∈ ns ∧ (vis2.getLog v).distance = some ((D : Int) + 1) ∧
            (vis2.getLog v).parent = some c ∧ IsMinDist g s v (D + 1))) ∧
        (∀ v, vis2.is_discovered v = vis.is_discovered v) := by
  intro ns
  induction ns with
  | nil =>
    intro vis q _ hwf hlc hdc hls hpar hnear
    refine ⟨vis, ?_, hwf, fun v _ => rfl, fun v h => h, ?_, fun v h => Or.inl h,
      fun v => rfl⟩
    · rw [DiGraph.distInner_nil, List.append_nil]
    · intro x hx
      cases hx
  | cons n rest ih =>
    intro vis q hmem hwf hlc hdc hls hpar hnear
    by_cases hnl : vis.logged n
    · have hens : vis.ensure n = vis := Visit.ensure_of_logged hnl
      have hguard : ¬ (((vis.ensure n).getLog n).parent = none ∧ ¬ n = s) := by
        rw [hens]
        rintro ⟨hpn, hnsn⟩
        exact hpar n hnl hnsn hpn
      rw [DiGraph.distInner_cons_skip s c rest q hguard, hens]
      rcases ih vis (q ++ [n]) (fun x hx => hmem x (List.mem_cons_of_mem n hx))
          hwf hlc hdc hls hpar hnear with
        ⟨vis2, heq, hwf2, hframe, hmono, hnsl, hclass, hdisc⟩
      refine ⟨vis2, ?_, hwf2, hframe, hmono, ?_, ?_, hdisc⟩
      · rw [heq, show (q ++ [n]) ++ rest = q ++ (n :: rest) from by simp]
      · intro x hx
        rcases List.mem_cons.mp hx with rfl | hx2
        · exact hmono x hnl
        · exact hnsl x hx2
      · intro v hv
        rcases hclass v hv with h | ⟨hvns, hrest⟩
        · exact Or.inl h
        · exact Or.inr ⟨List.mem_cons_of_mem n hvns, hrest⟩
    · have hfn : vis.find? n = none := Visit.find?_eq_none_of_not_logged hnl
      have hnsn : n ≠ s := fun h => hnl (h ▸ hls)
      have hnc : n ≠ c := fun h => hnl (h ▸ hlc)
      have hgl : (vis.ensure n).getLog n = VertexLog.init n := by
        rw [Visit.getLog_ensure]
        unfold Visit.getLog
        rw [hfn]
        rfl
      have hguard : ((vis.ensure n).getLog n).parent = none ∧ ¬ n = s := by
        refine ⟨?_, hnsn⟩
        rw [hgl]
        rfl
      have hdc' : ((vis.ensure n).getLog c).distance = some ((D : Int)) := by
        rw [Visit.getLog_ensure]
        exact hdc
      rw [DiGraph.distInner_cons_set s c rest q hguard hdc']
      set vis' := ((vis.ensure n).setParent n c).setDist n ((D : Int) + 1) with hvis'
      have hlog' : ∀ w, vis'.logged w ↔ vis.logged w ∨ w = n := by
        intro w
        rw [hvis', Visit.logged_setDist_iff, Visit.logged_setParent_iff,
          Visit.logged_ensure_iff]
        tauto
      have hget' : ∀ w, w ≠ n → vis'.getLog w = vis.getLog w := by
        intro w hw
        rw [hvis', Visit.getLog_setDist, if_neg hw, Visit.getLog_setParent,
          if_neg hw, Visit.getLog_ensure]
      have hgetn : vis'.getLog n =
          { VertexLog.init n with parent := some c, distance := some ((D : Int) + 1) } := by
        rw [hvis', Visit.getLog_setDist, if_pos rfl, Visit.getLog_setParent,
          if_pos rfl, hgl]
      have hwf' : vis'.WFlogs := by
        rw [hvis']
        exact Visit.WFlogs_modify
          (Visit.WFlogs_modify (Visit.WFlogs_ensure hwf n) n
            (fun log => { log with parent := some c }) (fun _ => rfl))
          n (fun log => { log with distance := some ((D : Int) + 1) }) (fun _ => rfl)
      have hdisc' : ∀ w, vis'.is_discovered w = vis.is_discovered w := by
        intro w
        rw [hvis', Visit.is_discovered_setDist, Visit.is_discovered_setParent,
          Visit.is_discovered_ensure]
      have hminn : IsMinDist g s n (D + 1) := by
        constructor
        · exact Steps.tail hcmin.1 (hmem n (List.mem_cons_self n rest))
        · intro m hm
          by_contra hcon
          have hmle : m ≤ D := by omega
          cases m with
          | zero => exact hnsn (steps_zero hm)
          | succ m' =>
            rcases steps_succ hm with ⟨u, hu, hadj⟩
            rcases exists_isMinDist m' hu with ⟨du, hdu, hdum⟩
            exact hnl (hnear u du hdu (by omega) n hadj)
      have hlc' : vis'.logged c := (hlog' c).mpr (Or.inl hlc)
      have hdc2 : (vis'.getLog c).distance = some ((D : Int)) := by
        rw [hget' c (Ne.symm hnc)]
        exact hdc
      have hls' : vis'.logged s := (hlog' s).mpr (Or.inl hls)
      have hpar' : ∀ v, vis'.logged v → v ≠ s → (vis'.getLog v).parent ≠ none := by
        intro v hv hvs
        by_cases hvn : v = n
        · subst hvn
          rw [hgetn]
          intro h2
          cases h2
        · rw [hget' v hvn]
          rcases (hlog' v).mp hv with h | h
          · exact hpar v h hvs
          · exact absurd h hvn
      have hnear' : ∀ u m, IsMinDist g s u m → m < D →
          ∀ w, w ∈ g.adjList u → vis'.logged w := by
        intro u m hu hm w hw
        exact (hlog' w).mpr (Or.inl (hnear u m hu hm w hw))
      rcases ih vis' (q ++ [n]) (fun x hx => hmem x (List.mem_cons_of_mem n hx))
          hwf' hlc' hdc2 hls' hpar' hnear' with
        ⟨vis2, heq, hwf2, hframe, hmono, hnsl, hclass, hdisc2⟩
      refine ⟨vis2, ?_, hwf2, ?_, ?_, ?_, ?_, ?_⟩
      · rw [heq, show (q ++ [n]) ++ rest = q ++ (n :: rest) from by simp]
      · intro v hv
        have hvn : v ≠ n := fun h => hnl (h ▸ hv)
        rw [hframe v ((hlog' v).mpr (Or.inl hv)), hget' v hvn]
      · intro v hv
        exact hmono v ((hlog' v).mpr (Or.inl hv))
      · intro x hx
        rcases List.mem_cons.mp hx with rfl | hx2
        · exact hmono x ((hlog' x).mpr (Or.inr rfl))
        · exact hnsl x hx2
      · intro v hv
        rcases hclass v hv with h | ⟨hvns, hd1, hp1, hm1⟩
        · rcases (hlog' v).mp h with h2 | h2
          · exact Or.inl h2
          · subst h2
            refine Or.inr ⟨List.mem_cons_self v rest, ?_, ?_, hminn⟩
            · rw [hframe v ((hlog' v).mpr (Or.inr rfl)), hgetn]
            · rw [hframe v ((hlog' v).mpr (Or.inr rfl)), hgetn]
        · exact Or.inr ⟨List.mem_cons_of_mem n hvns, hd1, hp1, hm1⟩
      · intro v
        rw [hdisc2 v, hdisc' v]

/-- Specification of the `distances` queue loop: with enough fuel it
terminates without error, the loop invariant holds of the final visit for
some final frontier distance, and every logged vertex ends up discovered. -/
theorem distLoop_spec (g : DiGraph V) (hWF : g.WF) (s : V) :
    ∀ (fuel D : Nat) (q1 q2 : List V) (vis : Visit V),
      DistInv g s D vis → DistQInv g s D vis q1 q2 →
      (q1 ++ q2).length + g.undiscWeight vis + 1 ≤ fuel →
      ∃ (vis' : Visit V) (D' : Nat),
        g.distLoop s fuel vis (q1 ++ q2) = (vis', none) ∧
        DistInv g s D' vis' ∧
        (∀ v, vis'.logged v → vis'.is_discovered v = true) := by
  intro fuel
  induction fuel with
  | zero =>
    intro D q1 q2 vis _ _ hfuel
    exact absurd hfuel (by omega)
  | succ fuel ih =>
    intro D q1 q2 vis H HQ hfuel
    cases hq : q1 ++ q2 with
    | nil =>
      rcases List.append_eq_nil.mp hq with ⟨h1, h2⟩
      refine ⟨vis, D, ?_, H, ?_⟩
      · exact DiGraph.distLoop_nil g s fuel vis
      · intro v hv
        by_contra hc
        simp only [Bool.not_eq_true] at hc
        have hin := HQ.hfr v hv hc
        rw [hq] at hin
        cases hin
    | cons vertex rest =>
      obtain ⟨D₀, q1₀, q2₀, hqeq, hne, H₀, HQ₀⟩ :
          ∃ (D₀ : Nat) (q1₀ q2₀ : List V), q1₀ ++ q2₀ = q1 ++ q2 ∧ q1₀ ≠ [] ∧
            DistInv g s D₀ vis ∧ DistQInv g s D₀ vis q1₀ q2₀ := by
        cases q1 with
        | nil =>
          have hq2r : q2 = vertex :: rest := by simpa using hq
          have hall : ∀ v, vis.logged v → vis.is_discovered v = false →
              ∀ d : Nat, (vis.getLog v).distance = some (d : Int) → d = D + 1 := by
            intro v hv hund d hdd
            have hin := HQ.hfr v hv hund
            simp only [List.nil_append] at hin
            rcases HQ.hq2 v hin hund with hcl | hin2
            · exact hcl d hdd
            · cases hin2
          refine ⟨D + 1, q2, [], by simp, ?_, ?_, ?_⟩
          · rw [hq2r]
            simp
          · exact ⟨H.hwf, H.hsl, H.hsd, H.hsp, H.hmin, H.hpar, H.hclo,
              fun v hv hund d hdd => Or.inl (hall v hv hund d hdd), H.hkeys, H.hdtlb⟩
          · refine ⟨?_, ?_, ?_, ?_⟩
            · intro v hv
              rw [List.append_nil] at hv
              exact HQ.hql v (by simpa using hv)
            · intro v hv hund
              have hin := HQ.hfr v hv hund
              rw [List.append_nil]
              simpa using hin
            · intro v hvq hund d hdd
              have hvl : vis.logged v := HQ.hql v (by simpa using hvq)
              exact hall v hvl hund d hdd
            · intro v hv
              cases hv
        | cons a tl =>
          exact ⟨D, a :: tl, q2, rfl, by simp, H, HQ⟩
      have hqeq' : q1₀ ++ q2₀ = vertex :: rest := hqeq.trans hq
      obtain ⟨q1t, hv1, hrest⟩ : ∃ q1t, q1₀ = vertex :: q1t ∧ q1t ++ q2₀ = rest := by
        cases hc : q1₀ with
        | nil => exact absurd hc hne
        | cons a tl =>
          rw [hc, List.cons_append] at hqeq'
          injection hqeq' with ha hb
          exact ⟨tl, by rw [ha], hb⟩
      rw [hq] at hfuel
      by_cases hd : vis.is_discovered vertex = true
      · -- pop a discovered vertex: skip it
        rw [DiGraph.distLoop_cons_disc g s fuel rest hd]
        have HQ1 : DistQInv g s D₀ vis q1t q2₀ := by
          refine ⟨?_, ?_, ?_, ?_⟩
          · intro v hv
            refine HQ₀.hql v ?_
            rw [hv1, List.cons_append]
            exact List.mem_cons_of_mem _ hv
          · intro v hv hund
            have hin := HQ₀.hfr v hv hund
            rw [hv1, List.cons_append] at hin
            rcases List.mem_cons.mp hin with h2 | h2
            · rw [h2] at hund
              rw [hund] at hd
              cases hd
            · exact h2
          · intro v hv hund d hdd
            exact HQ₀.hq1 v (by rw [hv1]; exact List.mem_cons_of_mem _ hv) hund d hdd
          · intro v hv hund
            rcases HQ₀.hq2 v hv hund with hcl | hin
            · exact Or.inl hcl
            · rw [hv1] at hin
              rcases List.mem_cons.mp hin with h2 | h2
              · rw [h2] at hund
                rw [hund] at hd
                cases hd
              · exact Or.inr h2
        have hfl : (q1t ++ q2₀).length + g.undiscWeight vis + 1 ≤ fuel := by
          have hr : rest.length = (q1t ++ q2₀).length := by rw [hrest]
          simp only [List.length_cons] at hfuel
          omega
        rcases ih D₀ q1t q2₀ vis H₀ HQ1 hfl with ⟨vis', D', hrun, Hf, hfin⟩
        refine ⟨vis', D', ?_, Hf, hfin⟩
        rw [← hrest]
        exact hrun
      · -- pop an undiscovered vertex
        simp only [Bool.not_eq_true] at hd
        have hlv : vis.logged vertex :=
          HQ₀.hql vertex (by rw [hv1]; exact List.mem_cons_self _ _)
        have hkv : g.has_vertex vertex = true := H₀.hkeys vertex hlv
        have hadj := DiGraph.adj_ok hkv
        rcases H₀.hmin vertex hlv with ⟨dv, hdv, hdvmin⟩
        have hdvD : dv = D₀ :=
          HQ₀.hq1 vertex (by rw [hv1]; exact List.mem_cons_self _ _) hd dv hdv
        rw [hdvD] at hdv hdvmin
        have htne : vis.last_time + 1 ≠ -1 := by
          have := Visit.last_time_nonneg vis
          omega
        set vis1 := vis.setDisc vertex (vis.last_time + 1) with hvis1
        have hlog1 : ∀ w, vis1.logged w ↔ vis.logged w := by
          intro w
          rw [hvis1, Visit.logged_setDisc_iff]
          constructor
          · rintro (h | h)
            · exact h
            · rw [h]
              exact hlv
          · exact Or.inl
        have hget1 : ∀ w, w ≠ vertex → vis1.getLog w = vis.getLog w := by
          intro w hw
          rw [hvis1, Visit.getLog_setDisc, if_neg hw]
        have hgetv : vis1.getLog vertex
            = { vis.getLog vertex with discovery_time := vis.last_time + 1 } := by
          rw [hvis1, Visit.getLog_setDisc, if_pos rfl]
        have hdisc1 : ∀ w, vis1.is_discovered w
            = if w = vertex then true else vis.is_discovered w := by
          intro w
          by_cases hw : w = vertex
          · rw [if_pos hw, hw, hvis1]
            exact Visit.is_discovered_setDisc_self vis vertex htne
          · rw [if_neg hw, hvis1, Visit.is_discovered_setDisc_ne vis vertex _ hw]
        have hwf1 : vis1.WFlogs := by
          rw [hvis1]
          exact Visit.WFlogs_modify H₀.hwf vertex
            (fun log => { log with discovery_time := vis.last_time + 1 }) (fun _ => rfl)
        have hdist1v : (vis1.getLog vertex).distance = some ((D₀ : Int)) := by
          rw [hgetv]
          exact hdv
        have hls1 : vis1.logged s := (hlog1 s).mpr H₀.hsl
        have hpar1 : ∀ v, vis1.logged v → v ≠ s → (vis1.getLog v).parent ≠ none := by
          intro v hv hvs
          by_cases hvv : v = vertex
          · subst hvv
            rw [hgetv]
            exact H₀.hpar v hlv hvs
          · rw [hget1 v hvv]
            exact H₀.hpar v ((hlog1 v).mp hv) hvs
        have hnear1 : ∀ u m, IsMinDist g s u m → m < D₀ →
            ∀ w, w ∈ g.adjList u → vis1.logged w := by
          intro u m hu hm w hw
          exact (hlog1 w).mpr (dist_near_logged H₀ u m hu hm w hw)
        rcases distInner_spec g s vertex D₀ hdvmin (g.adjList vertex) vis1 rest
            (fun x hx => hx) hwf1 ((hlog1 vertex).mpr hlv) hdist1v hls1 hpar1 hnear1 with
          ⟨vis2, hinner, hwf2, hframe2, hmono2, hnsl2, hclass2, hdisceq2⟩
        have hdisc2 : ∀ w, vis2.is_discovered w
            = if w = vertex then true else vis.is_discovered w := by
          intro w
          rw [hdisceq2 w, hdisc1 w]
        have hlogged2 : ∀ v, vis.logged v → vis2.logged v :=
          fun v hv => hmono2 v ((hlog1 v).mpr hv)
        have hget2 : ∀ v, v ≠ vertex → vis.logged v → vis2.getLog v = vis.getLog v := by
          intro v hvv hv
          rw [hframe2 v ((hlog1 v).mpr hv), hget1 v hvv]
        have hget2v : vis2.getLog vertex
            = { vis.getLog vertex with discovery_time := vis.last_time + 1 } := by
          rw [hframe2 vertex ((hlog1 vertex).mpr hlv), hgetv]
        have hclass2' : ∀ v, vis2.logged v → vis.logged v ∨
            (v ∈ g.adjList vertex ∧ (vis2.getLog v).distance = some ((D₀ : Int) + 1) ∧
              (vis2.getLog v).parent = some vertex ∧ IsMinDist g s v (D₀ + 1)) := by
          intro v hv
          rcases hclass2 v hv with h | hh
          · exact Or.inl ((hlog1 v).mp h)
          · exact Or.inr hh
        have H2 : DistInv g s D₀ vis2 := by
          refine ⟨hwf2, hlogged2 s H₀.hsl, ?_, ?_, ?_, ?_, ?_, ?_, ?_, ?_⟩
          · by_cases hsv : s = vertex
            · rw [hsv, hget2v]
              have hx := H₀.hsd
              rw [hsv] at hx
              exact hx
            · rw [hget2 s hsv H₀.hsl]
              exact H₀.hsd
          · by_cases hsv : s = vertex
            · rw [hsv, hget2v]
              have hx := H₀.hsp
              rw [hsv] at hx
              exact hx
            · rw [hget2 s hsv H₀.hsl]
              exact H₀.hsp
          · intro v hv
            rcases hclass2' v hv with h | ⟨_, hd1, _, hm1⟩
            · rcases H₀.hmin v h with ⟨d, hdd, hdm⟩
              by_cases hvv : v = vertex
              · subst hvv
                exact ⟨d, by rw [hget2v]; exact hdd, hdm⟩
              · exact ⟨d, by rw [hget2 v hvv h]; exact hdd, hdm⟩
            · refine ⟨D₀ + 1, ?_, hm1⟩
              rw [hd1]
              push_cast
              rfl
          · intro v hv hvs
            rcases hclass2' v hv with h | ⟨_, _, hp1, _⟩
            · by_cases hvv : v = vertex
              · subst hvv
                rw [hget2v]
                exact H₀.hpar v h hvs
              · rw [hget2 v hvv h]
                exact H₀.hpar v h hvs
            · rw [hp1]
              simp
          · intro v hv w hw
            rw [hdisc2 v] at hv
            by_cases hvv : v = vertex
            · subst hvv
              exact hnsl2 w hw
            · rw [if_neg hvv] at hv
              exact hlogged2 w (H₀.hclo v hv w hw)
          · intro v hv hund d hdd
            rw [hdisc2 v] at hund
            by_cases hvv : v = vertex
            · rw [if_pos hvv] at hund
              cases hund
            · rw [if_neg hvv] at hund
              rcases hclass2' v hv with h | ⟨_, hd1, _, _⟩
              · rw [hget2 v hvv h] at hdd
                exact H₀.hDU v h hund d hdd
              · rw [hd1] at hdd
                injection hdd with hdd
                right
                omega
          · intro v hv
            rcases hclass2' v hv with h | ⟨hmem1, _, _, _⟩
            · exact H₀.hkeys v h
            · exact DiGraph.WF_adjList_has_vertex hWF hmem1
          · intro v _
            by_cases hvv : v = vertex
            · subst hvv
              rw [hget2v]
              show (-1 : Int) ≤ vis.last_time + 1
              have hlt := Visit.last_time_nonneg vis
              omega
            · by_cases hlv2 : vis.logged v
              · rw [hget2 v hvv hlv2]
                exact H₀.hdtlb v hlv2
              · have hf2 : vis2.is_discovered v = false := by
                  rw [hdisc2 v, if_neg hvv]
                  exact Visit.is_discovered_of_not_logged hlv2
                rw [Visit.dt_of_not_discovered hf2]
        have HQ2 : DistQInv g s D₀ vis2 q1t (q2₀ ++ g.adjList vertex) := by
          refine ⟨?_, ?_, ?_, ?_⟩
          · intro v hv
            rw [List.mem_append] at hv
            rcases hv with hv | hv
            · exact hlogged2 v (HQ₀.hql v (by
                rw [hv1, List.cons_append]
                exact List.mem_cons_of_mem _ (List.mem_append_left _ hv)))
            · rw [List.mem_append] at hv
              rcases hv with hv | hv
              · exact hlogged2 v (HQ₀.hql v (by
                  rw [hv1, List.cons_append]
                  exact List.mem_cons_of_mem _ (List.mem_append_right _ hv)))
              · exact hnsl2 v hv
          · intro v hv hund
            rw [hdisc2 v] at hund
            by_cases hvv : v = vertex
            · rw [if_pos hvv] at hund
              cases hund
            · rw [if_neg hvv] at hund
              rcases hclass2' v hv with h | ⟨hmem1, _, _, _⟩
              · have hin := HQ₀.hfr v h hund
                rw [hv1, List.cons_append] at hin
                rcases List.mem_cons.mp hin with h2 | h2
                · exact absurd h2 hvv
                · rw [List.mem_append] at h2
                  rcases h2 with h2 | h2
                  · exact List.mem_append_left _ h2
                  · exact List.mem_append_right _ (List.mem_append_left _ h2)
              · exact List.mem_append_right _ (List.mem_append_right _ hmem1)
          · intro v hv hund d hdd
            have hvlog : vis.logged v := HQ₀.hql v (by
              rw [hv1, List.cons_append]
              exact List.mem_cons_of_mem _ (List.mem_append_left _ hv))
            rw [hdisc2 v] at hund
            by_cases hvv : v = vertex
            · rw [if_pos hvv] at hund
              cases hund
            · rw [if_neg hvv] at hund
              rw [hget2 v hvv hvlog] at hdd
              exact HQ₀.hq1 v (by rw [hv1]; exact List.mem_cons_of_mem _ hv) hund d hdd
          · intro v hv hund
            rw [hdisc2 v] at hund
            by_cases hvv : v = vertex
            · rw [if_pos hvv] at hund
              cases hund
            · rw [if_neg hvv] at hund
              rw [List.mem_append] at hv
              rcases hv with hv | hv
              · have hvlog : vis.logged v := HQ₀.hql v (by
                  rw [hv1, List.cons_append]
                  exact List.mem_cons_of_mem _ (List.mem_append_right _ hv))
                rcases HQ₀.hq2 v hv hund with hcl | hin
                · refine Or.inl ?_
                  intro d hdd
                  rw [hget2 v hvv hvlog] at hdd
                  exact hcl d hdd
                · refine Or.inr ?_
                  rw [hv1] at hin
                  rcases List.mem_cons.mp hin with h2 | h2
                  · exact absurd h2 hvv
                  · exact h2
              · rcases hclass2' v (hnsl2 v hv) with h | ⟨_, hd1, _, _⟩
                · rcases H₀.hmin v h with ⟨d, hdd, hdm⟩
                  rcases H₀.hDU v h hund d hdd with hD | hD1
                  · refine Or.inr ?_
                    have hin := HQ₀.hfr v h hund
                    rw [hv1, List.cons_append] at hin
                    rcases List.mem_cons.mp hin with h2 | h2
                    · exact absurd h2 hvv
                    · rw [List.mem_append] at h2
                      rcases h2 with h2 | h2
                      · exact h2
                      · rcases HQ₀.hq2 v h2 hund with hcl | hin2
                        · have := hcl d hdd
                          omega
                        · rw [hv1] at hin2
                          rcases List.mem_cons.mp hin2 with h3 | h3
                          · exact absurd h3 hvv
                          · exact h3
                  · refine Or.inl ?_
                    intro d2 hdd2
                    rw [hget2 v hvv h] at hdd2
                    rw [hdd] at hdd2
                    injection hdd2 with hdd2
                    omega
                · refine Or.inl ?_
                  intro d2 hdd2
                  rw [hd1] at hdd2
                  injection hdd2 with hdd2
                  omega
        have hw2 : g.undiscWeight vis2 = g.undiscWeight vis1 :=
          DiGraph.undiscWeight_congr g hdisceq2
        have hw1 : g.undiscWeight vis1 + (1 + (g.adjList vertex).length)
            = g.undiscWeight vis := by
          rw [hvis1]
          exact DiGraph.undiscWeight_setDisc hWF.1 hkv hd htne
        have hlen : (q1t ++ (q2₀ ++ g.adjList vertex)).length + g.undiscWeight vis2 + 1
            ≤ fuel := by
          have hr : rest.length = q1t.length + q2₀.length := by
            rw [← hrest, List.length_append]
          simp only [List.length_append, List.length_cons] at hfuel ⊢
          omega
        rcases ih D₀ q1t (q2₀ ++ g.adjList vertex) vis2 H2 HQ2 hlen with
          ⟨vis', D', hrun, Hf, hfin⟩
        refine ⟨vis', D', ?_, Hf, hfin⟩
        rw [DiGraph.distLoop_cons_undisc g s fuel rest (by simp [hd]) hadj hinner]
        rw [← hrest, List.append_assoc]
        exact hrun

/-! ### The result dictionary of `distances` -/

theorem find?_vertex_of_mem : ∀ (l : List (VertexLog V)) (log : VertexLog V),
    (l.map (fun lg => lg.vertex)).Nodup → log ∈ l →
    l.find? (fun lg => lg.vertex == log.vertex) = some log := by
  intro l
  induction l with
  | nil =>
    intro log _ h
    cases h
  | cons a t ih =>
    intro log hnd hmem
    rw [List.map_cons, List.nodup_cons] at hnd
    rcases List.mem_cons.mp hmem with rfl | hmem2
    · rw [List.find?_cons_of_pos t (by simp)]
    · have hne : a.vertex ≠ log.vertex := by
        intro h
        exact hnd.1 (List.mem_map.mpr ⟨log, hmem2, h.symm⟩)
      rw [List.find?_cons_of_neg t (by simp [hne])]
      exact ih log hnd.2 hmem2

theorem Visit.find?_of_mem_logs {vis : Visit V} (hwf : vis.WFlogs)
    {log : VertexLog V} (h : log ∈ vis._logs) :
    vis.find? log.vertex = some log :=
  find?_vertex_of_mem vis._logs log hwf h

theorem Visit.getLog_of_mem_logs {vis : Visit V} (hwf : vis.WFlogs)
    {log : VertexLog V} (h : log ∈ vis._logs) :
    vis.getLog log.vertex = log := by
  unfold Visit.getLog
  rw [Visit.find?_of_mem_logs hwf h]
  rfl

theorem Visit.logged_of_mem_logs {vis : Visit V} (hwf : vis.WFlogs)
    {log : VertexLog V} (h : log ∈ vis._logs) : vis.logged log.vertex :=
  Visit.logged_of_find? (Visit.find?_of_mem_logs hwf h)

theorem Visit.mem_logsSorted_iff {vis : Visit V} {log : VertexLog V} :
    log ∈ vis.logsSorted ↔ log ∈ vis._logs ∧ -1 < log.discovery_time := by
  unfold Visit.logsSorted
  rw [List.mem_mergeSort, List.mem_filter]
  simp

theorem Visit.logsSorted_vertices_nodup {vis : Visit V} (h : vis.WFlogs) :
    (vis.logsSorted.map (fun lg => lg.vertex)).Nodup := by
  unfold Visit.logsSorted
  have hperm := List.mergeSort_perm
    (vis._logs.filter (fun log => decide (-1 < log.discovery_time)))
    (fun l1 l2 => decide (l1.discovery_time ≤ l2.discovery_time))
  have h' : (vis._logs.map (fun lg => lg.vertex)).Nodup := h
  have hsub : (((vis._logs.filter (fun log => decide (-1 < log.discovery_time))).map
      (fun lg => lg.vertex))).Nodup :=
    ((List.filter_sublist vis._logs).map (fun lg => lg.vertex)).nodup h'
  exact ((hperm.map (fun lg => lg.vertex)).nodup_iff).mpr hsub

theorem any_key_iff (l : List (V × Int)) (k : V) :
    l.any (fun p => p.1 == k) = true ↔ k ∈ l.map Prod.fst := by
  rw [List.any_eq_true, List.mem_map]
  constructor
  · rintro ⟨p, hp, hpk⟩
    exact ⟨p, hp, by simpa using hpk⟩
  · rintro ⟨p, hp, hpk⟩
    exact ⟨p, hp, by simp [hpk]⟩

theorem setAssoc_map_fst_of_mem (l : List (V × Int)) (k : V) (x : Int)
    (h : l.any (fun p => p.1 == k) = true) :
    (setAssoc l k x).map Prod.fst = l.map Prod.fst := by
  unfold setAssoc
  rw [if_pos h, List.map_map]
  exact List.map_congr_left (fun p _ => by by_cases hp : p.1 = k <;> simp [hp])

theorem getAssoc?_setAssoc_self (l : List (V × Int)) (k : V) (x : Int) :
    getAssoc? (setAssoc l k x) k = some x := by
  unfold setAssoc getAssoc?
  by_cases h : l.any (fun p => p.1 == k) = true
  · rw [if_pos h, List.find?_map]
    have hcomp : ((fun p : V × Int => p.1 == k)
        ∘ (fun p : V × Int => if p.1 == k then (p.1, x) else p))
        = (fun p : V × Int => p.1 == k) := by
      funext p
      by_cases hp : p.1 = k <;> simp [hp]
    rw [hcomp]
    have hex : ∃ p ∈ l, ((p : V × Int).1 == k) = true := by simpa using h
    have hsome : (l.find? (fun p => p.1 == k)).isSome := List.find?_isSome.mpr hex
    rcases Option.isSome_iff_exists.mp hsome with ⟨p₀, hp₀⟩
    rw [hp₀]
    have hp₀k : p₀.1 = k := by
      have h3 := List.find?_some hp₀
      simpa using h3
    simp [hp₀k]
  · rw [if_neg h, List.find?_append]
    have hnone : l.find? (fun p => p.1 == k) = none := by
      rw [List.find?_eq_none]
      intro p hp hpk
      exact h (List.any_eq_true.mpr ⟨p, hp, hpk⟩)
    rw [hnone]
    simp

theorem getAssoc?_setAssoc_ne (l : List (V × Int)) (k : V) (x : Int) {w : V}
    (hk : w ≠ k) : getAssoc? (setAssoc l k x) w = getAssoc? l w := by
  unfold setAssoc getAssoc?
  by_cases h : l.any (fun p => p.1 == k) = true
  · rw [if_pos h, List.find?_map]
    have hcomp : ((fun p : V × Int => p.1 == w)
        ∘ (fun p : V × Int => if p.1 == k then (p.1, x) else p))
        = (fun p : V × Int => p.1 == w) := by
      funext p
      by_cases hp : p.1 = k <;> simp [hp]
    rw [hcomp]
    cases hf : l.find? (fun p => p.1 == w) with
    | none => rfl
    | some p₀ =>
      have hw : (p₀.1 == w) = true := by
        have h3 := List.find?_some hf
        exact h3
      have hne : ¬ (p₀.1 = k) := by
        intro h2
        rw [beq_iff_eq] at hw
        exact hk (hw ▸ h2)
      simp [hne]
  · rw [if_neg h, List.find?_append]
    have h2 : List.find? (fun p : V × Int => p.1 == w) [(k, x)] = none := by
      simp [Ne.symm hk]
    rw [h2]
    simp

theorem getAssoc?_init_map : ∀ (ks : List V) (v : V) (x : Int),
    getAssoc? (ks.map (fun k => (k, x))) v = if v ∈ ks then some x else none := by
  intro ks
  induction ks with
  | nil =>
    intro v x
    simp [getAssoc?]
  | cons a t ih =>
    intro v x
    unfold getAssoc?
    rw [List.map_cons]
    by_cases hv : a = v
    · rw [List.find?_cons_of_pos _ (by simp [hv])]
      simp [hv]
    · rw [List.find?_cons_of_neg _ (by simp [hv])]
      have h2 := ih v x
      unfold getAssoc? at h2
      rw [h2]
      have hv' : ¬ v = a := fun h => hv h.symm
      simp [List.mem_cons, hv']

theorem foldl_setAssoc_fresh : ∀ (ks : List V) (acc : List (V × Int)) (x : Int),
    ks.Nodup → (∀ k ∈ ks, ∀ p ∈ acc, p.1 ≠ k) →
    ks.foldl (fun r v => setAssoc r v x) acc = acc ++ ks.map (fun v => (v, x)) := by
  intro ks
  induction ks with
  | nil =>
    intro acc x _ _
    simp
  | cons a t ih =>
    intro acc x hnd hdisj
    rw [List.foldl_cons]
    have hnot : ¬ (acc.any (fun p => p.1 == a) = true) := by
      simp only [List.any_eq_true]
      rintro ⟨p, hp, hpk⟩
      exact hdisj a (List.mem_cons_self a t) p hp (by simpa using hpk)
    have hset : setAssoc acc a x = acc ++ [(a, x)] := by
      unfold setAssoc
      rw [if_neg hnot]
    rw [List.nodup_cons] at hnd
    have hdisj2 : ∀ k ∈ t, ∀ p ∈ acc ++ [(a, x)], p.1 ≠ k := by
      intro k hk p hp
      rw [List.mem_append] at hp
      rcases hp with hp | hp
      · exact hdisj k (List.mem_cons_of_mem a hk) p hp
      · rw [List.mem_singleton.mp hp]
        intro h
        have h' : a = k := h
        exact hnd.1 (by rw [h']; exact hk)
    rw [hset, ih (acc ++ [(a, x)]) x hnd.2 hdisj2]
    simp

theorem foldlM_setAssoc_ok : ∀ (L : List (VertexLog V)) (acc : List (V × Int)),
    (∀ log ∈ L, log.distance ≠ none) →
    (L.foldlM (fun r log =>
      match log.distance with
      | some d => Except.ok (setAssoc r log.vertex d)
      | none => (Except.error "AttributeError: distance"
          : Except String (List (V × Int)))) acc)
    = Except.ok (L.foldl (fun r log => setAssoc r log.vertex (log.distance.getD 0)) acc) := by
  intro L
  induction L with
  | nil =>
    intro acc _
    rfl
  | cons a t ih =>
    intro acc hall
    rw [List.foldlM_cons, List.foldl_cons]
    cases hd : a.distance with
    | none => exact absurd hd (hall a (List.mem_cons_self a t))
    | some d =>
      exact ih (setAssoc acc a.vertex d)
        (fun log hlog => hall log (List.mem_cons_of_mem a hlog))

theorem foldl_setAssoc_keys : ∀ (L : List (VertexLog V)) (acc : List (V × Int)),
    (∀ log ∈ L, acc.any (fun p => p.1 == log.vertex) = true) →
    (L.foldl (fun r log => setAssoc r log.vertex (log.distance.getD 0)) acc).map Prod.fst
      = acc.map Prod.fst := by
  intro L
  induction L with
  | nil =>
    intro acc _
    rfl
  | cons a t ih =>
    intro acc hall
    rw [List.foldl_cons]
    have hkeys := setAssoc_map_fst_of_mem acc a.vertex (a.distance.getD 0)
      (hall a (List.mem_cons_self a t))
    have hall1 : ∀ log ∈ t,
        (setAssoc acc a.vertex (a.distance.getD 0)).any (fun p => p.1 == log.vertex)
          = true := by
      intro log hlog
      rw [any_key_iff, hkeys, ← any_key_iff]
      exact hall log (List.mem_cons_of_mem a hlog)
    rw [ih (setAssoc acc a.vertex (a.distance.getD 0)) hall1]
    exact hkeys

theorem foldl_setAssoc_get : ∀ (L : List (VertexLog V)) (acc : List (V × Int)) (v : V),
    (∀ log ∈ L, acc.any (fun p => p.1 == log.vertex) = true) →
    (L.map (fun lg => lg.vertex)).Nodup →
    ((∀ log ∈ L, log.vertex ≠ v) →
      getAssoc? (L.foldl (fun r log => setAssoc r log.vertex (log.distance.getD 0)) acc) v
        = getAssoc? acc v) ∧
    (∀ log ∈ L, log.vertex = v →
      getAssoc? (L.foldl (fun r log => setAssoc r log.vertex (log.distance.getD 0)) acc) v
        = some (log.distance.getD 0)) := by
  intro L
  induction L with
  | nil =>
    intro acc v _ _
    exact ⟨fun _ => rfl, fun log h => absurd h (List.not_mem_nil log)⟩
  | cons a t ih =>
    intro acc v hall hnd
    rw [List.map_cons, List.nodup_cons] at hnd
    rw [List.foldl_cons]
    have hkeys1 : (setAssoc acc a.vertex (a.distance.getD 0)).map Prod.fst
        = acc.map Prod.fst :=
      setAssoc_map_fst_of_mem acc a.vertex (a.distance.getD 0)
        (hall a (List.mem_cons_self a t))
    have hall1 : ∀ log ∈ t,
        (setAssoc acc a.vertex (a.distance.getD 0)).any (fun p => p.1 == log.vertex)
          = true := by
      intro log hlog
      rw [any_key_iff, hkeys1, ← any_key_iff]
      exact hall log (List.mem_cons_of_mem a hlog)
    have iht := ih (setAssoc acc a.vertex (a.distance.getD 0)) v hall1 hnd.2
    constructor
    · intro hne
      rw [iht.1 (fun log hlog => hne log (List.mem_cons_of_mem a hlog))]
      exact getAssoc?_setAssoc_ne acc a.vertex (a.distance.getD 0)
        (fun h => hne a (List.mem_cons_self a t) h.symm)
    · intro log hlog hlv
      rcases List.mem_cons.mp hlog with rfl | hlog2
      · have hnot : ∀ lg ∈ t, lg.vertex ≠ v := by
          intro lg hlg h2
          exact hnd.1 (List.mem_map.mpr ⟨lg, hlg, by rw [h2, ← hlv]⟩)
        rw [iht.1 hnot, ← hlv]
        exact getAssoc?_setAssoc_self acc log.vertex (log.distance.getD 0)
      · exact iht.2 log hlog2 hlv

/-! ### Assembling `distances` -/

theorem fresh_not_logged (v : V) : ¬ (⟨[]⟩ : Visit V).logged v := by
  unfold Visit.logged Visit.find?
  simp

theorem getLog_fresh (v : V) : (⟨[]⟩ : Visit V).getLog v = VertexLog.init v := rfl

theorem vis0_logged (s v : V) :
    (Visit.setDist ⟨[]⟩ s 0 : Visit V).logged v ↔ v = s := by
  rw [Visit.logged_setDist_iff]
  constructor
  · rintro (h | h)
    · exact absurd h (fresh_not_logged v)
    · exact h
  · exact Or.inr

theorem vis0_getLog_s (s : V) :
    (Visit.setDist ⟨[]⟩ s 0 : Visit V).getLog s
      = { VertexLog.init s with distance := some 0 } := by
  rw [Visit.getLog_setDist, if_pos rfl, getLog_fresh]

theorem vis0_undisc (s : V) : ∀ v,
    (Visit.setDist ⟨[]⟩ s 0 : Visit V).is_discovered v = false := by
  intro v
  rw [Visit.is_discovered_eq, Visit.getLog_setDist]
  by_cases hv : v = s
  · rw [if_pos hv, getLog_fresh]
    simp [VertexLog.init]
  · rw [if_neg hv, getLog_fresh]
    simp [VertexLog.init]

theorem vis0_wf (s : V) : (Visit.setDist ⟨[]⟩ s 0 : Visit V).WFlogs :=
  Visit.WFlogs_modify (show (⟨[]⟩ : Visit V).WFlogs from List.nodup_nil) s
    (fun log => { log with distance := some 0 }) (fun _ => rfl)

theorem DiGraph.distances_eq (g : DiGraph V) (s : V) (hs : g.has_vertex s = true)
    {vis' : Visit V}
    (hloop : g.distLoop s g.bfsFuel (Visit.setDist ⟨[]⟩ s 0) [s] = (vis', none)) :
    g.distances s = vis'.logsSorted.foldlM (fun r log =>
      match log.distance with
      | some d => Except.ok (setAssoc r log.vertex d)
      | none => Except.error "AttributeError: distance")
      (g.keys.foldl (fun r v => setAssoc r v (-1)) []) := by
  unfold DiGraph.distances
  rw [if_neg (by simp [hs])]
  simp only [hloop]

/-- **C1.**  For a well-formed graph and a registered source `s`,
`distances(s)` succeeds and returns a mapping whose keys are exactly the
registered vertices (in dictionary order), with value `0` at `s`, the minimal
edge count of a walk from `s` at every reachable vertex, and `-1` at every
unreachable vertex — unreached vertices are present in the mapping, not
omitted. -/
theorem C1_distances (g : DiGraph Nat) (s : Nat) (hWF : g.WF)
    (hs : g.has_vertex s = true) :
    ∃ ret, g.distances s = .ok ret ∧
      ret.map Prod.fst = g.keys ∧
      getAssoc? ret s = some 0 ∧
      (∀ v d, IsMinDist g s v d → getAssoc? ret v = some (d : Int)) ∧
      (∀ v, v ∈ g.keys → (∀ m, ¬ Steps g s v m) → getAssoc? ret v = some (-1)) := by
  set vis0 : Visit Nat := Visit.setDist ⟨[]⟩ s 0 with hvis0
  have hlog0 : ∀ v, vis0.logged v ↔ v = s := vis0_logged s
  have hget0 : vis0.getLog s = { VertexLog.init s with distance := some 0 } :=
    vis0_getLog_s s
  have hund0 : ∀ v, vis0.is_discovered v = false := vis0_undisc s
  have H0 : DistInv g s 0 vis0 := by
    refine ⟨vis0_wf s, (hlog0 s).mpr rfl, ?_, ?_, ?_, ?_, ?_, ?_, ?_, ?_⟩
    · rw [hget0]
    · rw [hget0]
      rfl
    · intro v hv
      rw [hlog0 v] at hv
      subst hv
      refine ⟨0, ?_, Steps.refl, fun m _ => Nat.zero_le m⟩
      rw [hget0]
      rfl
    · intro v hv hvs
      rw [hlog0 v] at hv
      exact absurd hv hvs
    · intro v hv
      rw [hund0 v] at hv
      cases hv
    · intro v hv _ d hdd
      rw [hlog0 v] at hv
      subst hv
      rw [hget0] at hdd
      injection hdd with hdd
      left
      omega
    · intro v hv
      rw [hlog0 v] at hv
      subst hv
      exact hs
    · intro v hv
      rw [hlog0 v] at hv
      subst hv
      rw [hget0]
      simp [VertexLog.init]
  have HQ0 : DistQInv g s 0 vis0 [s] [] := by
    refine ⟨?_, ?_, ?_, ?_⟩
    · intro v hv
      simp only [List.append_nil, List.mem_singleton] at hv
      exact (hlog0 v).mpr hv
    · intro v hv _
      rw [hlog0 v] at hv
      simp [hv]
    · intro v hv _ d hdd
      simp only [List.mem_singleton] at hv
      subst hv
      rw [hget0] at hdd
      injection hdd with hdd
      omega
    · intro v hv
      cases hv
  have hfuel : (([s] : List Nat) ++ []).length + g.undiscWeight vis0 + 1 ≤ g.bfsFuel := by
    have hb := DiGraph.undiscWeight_le g vis0
    unfold DiGraph.bfsFuel
    simp only [List.length_append, List.length_cons, List.length_nil]
    omega
  rcases distLoop_spec g hWF s g.bfsFuel 0 [s] [] vis0 H0 HQ0 hfuel with
    ⟨vis', D', hloop, Hf, hall⟩
  have hloop' : g.distLoop s g.bfsFuel vis0 [s] = (vis', none) := by
    have hq : ([s] : List Nat) ++ [] = [s] := by simp
    rw [← hq]
    exact hloop
  have hkn : g.keys.Nodup := hWF.1
  have hret0 : g.keys.foldl (fun r v => setAssoc r v (-1)) []
      = g.keys.map (fun v => (v, (-1 : Int))) := by
    have h2 := foldl_setAssoc_fresh g.keys [] (-1) hkn
      (fun k _ p hp => absurd hp (List.not_mem_nil p))
    simpa using h2
  have hret0fst : (g.keys.map (fun v => (v, (-1 : Int)))).map Prod.fst = g.keys := by
    rw [List.map_map]
    have hfun : (Prod.fst ∘ fun v : Nat => (v, (-1 : Int))) = fun v : Nat => v := rfl
    rw [hfun]
    simp
  have hlogsmem : ∀ log ∈ vis'.logsSorted, log ∈ vis'._logs :=
    fun log h => (Visit.mem_logsSorted_iff.mp h).1
  have hlogdist : ∀ log ∈ vis'.logsSorted, ∃ dn : Nat,
      log.distance = some (dn : Int) ∧ IsMinDist g s log.vertex dn := by
    intro log hl
    have hm := hlogsmem log hl
    have hlogged := Visit.logged_of_mem_logs Hf.hwf hm
    rcases Hf.hmin log.vertex hlogged with ⟨dn, hdn, hmindn⟩
    rw [Visit.getLog_of_mem_logs Hf.hwf hm] at hdn
    exact ⟨dn, hdn, hmindn⟩
  have hlogkeys : ∀ log ∈ vis'.logsSorted, log.vertex ∈ g.keys := by
    intro log hl
    exact (DiGraph.has_vertex_iff g log.vertex).mp
      (Hf.hkeys log.vertex (Visit.logged_of_mem_logs Hf.hwf (hlogsmem log hl)))
  have hnddV : (vis'.logsSorted.map (fun lg => lg.vertex)).Nodup :=
    Visit.logsSorted_vertices_nodup Hf.hwf
  have hany : ∀ log ∈ vis'.logsSorted,
      (g.keys.foldl (fun r v => setAssoc r v (-1)) []).any
        (fun p => p.1 == log.vertex) = true := by
    intro log hl
    rw [hret0, any_key_iff, hret0fst]
    exact hlogkeys log hl
  have hok := foldlM_setAssoc_ok vis'.logsSorted
    (g.keys.foldl (fun r v => setAssoc r v (-1)) [])
    (fun log hl => by
      rcases hlogdist log hl with ⟨dn, hdn, _⟩
      rw [hdn]
      exact fun h2 => by cases h2)
  set ret := vis'.logsSorted.foldl
    (fun r log => setAssoc r log.vertex (log.distance.getD 0))
    (g.keys.foldl (fun r v => setAssoc r v (-1)) []) with hret
  have hreach_logged : ∀ m v, Steps g s v m → vis'.logged v := by
    intro m v hsteps
    induction hsteps with
    | refl => exact Hf.hsl
    | tail h1 h2 ih => exact Hf.hclo _ (hall _ ih) _ h2
  have hreachval : ∀ v d, IsMinDist g s v d → getAssoc? ret v = some (d : Int) := by
    intro v d hvd
    have hlogv : vis'.logged v := hreach_logged d v hvd.1
    rcases Hf.hmin v hlogv with ⟨d0, hd0, hmind0⟩
    have hdd0 : d0 = d := isMinDist_unique hmind0 hvd
    rw [hdd0] at hd0
    cases hfv : vis'.find? v with
    | none => exact absurd hfv hlogv
    | some log =>
      have hmem : log ∈ vis'._logs := List.mem_of_find?_eq_some hfv
      have hvert : log.vertex = v := by
        have h3 := List.find?_some hfv
        simpa using h3
      have hgl : vis'.getLog v = log := by
        unfold Visit.getLog
        rw [hfv]
        rfl
      have hdisc : vis'.is_discovered v = true := hall v hlogv
      have hdt : -1 < log.discovery_time := by
        rw [Visit.is_discovered_eq, hgl] at hdisc
        simp only [bne_iff_ne, ne_eq] at hdisc
        have hlb := Hf.hdtlb v hlogv
        rw [hgl] at hlb
        omega
      have hls2 : log ∈ vis'.logsSorted := Visit.mem_logsSorted_iff.mpr ⟨hmem, hdt⟩
      have hld : log.distance = some (d : Int) := by
        rw [hgl] at hd0
        exact hd0
      have hg2 := (foldl_setAssoc_get vis'.logsSorted
        (g.keys.foldl (fun r v => setAssoc r v (-1)) []) v hany hnddV).2 log hls2 hvert
      rw [hld] at hg2
      simpa using hg2
  have hsmin : IsMinDist g s s 0 := ⟨Steps.refl, fun m _ => Nat.zero_le m⟩
  refine ⟨ret, ?_, ?_, ?_, hreachval, ?_⟩
  · rw [DiGraph.distances_eq g s hs hloop', hok]
  · rw [hret, foldl_setAssoc_keys vis'.logsSorted _ hany, hret0, hret0fst]
  · have h3 := hreachval s 0 hsmin
    simpa using h3
  · intro v hv hnreach
    have hnlog : ¬ vis'.logged v := by
      intro hl
      rcases Hf.hmin v hl with ⟨d0, _, hmind0⟩
      exact hnreach d0 hmind0.1
    have hnov : ∀ log ∈ vis'.logsSorted, log.vertex ≠ v := by
      intro log hl h2
      refine hnlog ?_
      rw [← h2]
      exact Visit.logged_of_mem_logs Hf.hwf (hlogsmem log hl)
    have hg1 := (foldl_setAssoc_get vis'.logsSorted
      (g.keys.foldl (fun r v => setAssoc r v (-1)) []) v hany hnddV).1 hnov
    rw [hret, hg1, hret0, getAssoc?_init_map, if_pos hv]

/-- **C1, witness.**  Instantiation of `C1_distances` on the graph with
vertices `0, 1, 3`, a single edge `0 → 1`, and source `0` (vertex `3` is
unreachable). -/
theorem C1_witness :
    ∃ ret, (⟨[(0, [1]), (1, []), (3, [])]⟩ : DiGraph Nat).distances 0 = .ok ret ∧
      ret.map Prod.fst = (⟨[(0, [1]), (1, []), (3, [])]⟩ : DiGraph Nat).keys ∧
      getAssoc? ret 0 = some 0 ∧
      (∀ v d, IsMinDist (⟨[(0, [1]), (1, []), (3, [])]⟩ : DiGraph Nat) 0 v d →
        getAssoc? ret v = some (d : Int)) ∧
      (∀ v, v ∈ (⟨[(0, [1]), (1, []), (3, [])]⟩ : DiGraph Nat).keys →
        (∀ m, ¬ Steps (⟨[(0, [1]), (1, []), (3, [])]⟩ : DiGraph Nat) 0 v m) →
        getAssoc? ret v = some (-1)) :=
  C1_distances ⟨[(0, [1]), (1, []), (3, [])]⟩ 0 (by decide) (by decide)

end GraphPy
